import Mathlib

/-!
# Delivery Dash: maze mutation with reachability checks

A shallow embedding of `games/deliveryDash/deliveryDash.go`: the maze grid,
the depth-first reachability search `hasPathToEnd`, the two periodic firings of
`Game.Update` (goal relocation and wall update), `moveCar`, `generateMaze` and
`NewGame`, followed by theorems about them.

Conventions.
* Go `int` coordinates are `Int`; the car may stand on the rows `-1` and
  `mazeHeight` outside the grid.
* `[][]bool` is `List (List Bool)`; `GridWF` says the grid is
  `mazeHeight` rows of `mazeWidth` cells, as `NewGame` allocates it.
* `time.Time` is `Int` nanoseconds counted from the zero `Time`; `time.Duration` is `Int`
  nanoseconds in the range of an `int64`, and a difference of two times saturates at the
  ends of that range as `Time.Sub` does (`timeSub`).
* Random draws and clock readings are inputs of the functions that make them.
* A recursion that the source bounds only by its data (the search, the
  path-creating loop) takes a fuel argument and returns `none` when it is used up.
-/

namespace DeliveryDash

/-! ## Constants -/

/-- Source: `cellSize = 40`. -/
def cellSize : Int := 40
/-- Source: `mazeWidth = 20`. -/
def mazeWidth : Int := 20
/-- Source: `mazeHeight = 15`. -/
def mazeHeight : Int := 15
/-- Source: `moveCooldown = 10`. -/
def moveCooldown : Int := 10
/-- Source: `time.Duration(float64(mazeUpdateInterval)*float64(time.Second))`, 0.05 s in nanoseconds. -/
def mazeUpdateInterval : Int := 50000000
/-- Source: `time.Duration(float64(wallUpdateInterval)*float64(time.Second))`, 0.25 s in nanoseconds. -/
def wallUpdateInterval : Int := 250000000

/-- Source: the largest `time.Duration`, `1<<63 - 1` nanoseconds. -/
def maxDuration : Int := 9223372036854775807
/-- Source: the smallest `time.Duration`, `-1 << 63` nanoseconds. -/
def minDuration : Int := -9223372036854775808

/-- Source: `t.Sub(u)` of package `time`, which `time.Since(u)` is with `t` the clock reading:
the duration `t - u`, and the maximum (or minimum) duration when `t - u` exceeds it. -/
def timeSub (t u : Int) : Int :=
  if t - u > maxDuration then maxDuration
  else if t - u < minDuration then minDuration
  else t - u

/-! ## The grid -/

/-- Source: `maze [][]bool`, `true` for walls; indexed `maze[y][x]`. -/
abbrev Grid := List (List Bool)

/-- The shape `NewGame` allocates: `mazeHeight` rows of `mazeWidth` cells. -/
def GridWF (m : Grid) : Prop :=
  m.length = 15 ∧ ∀ row ∈ m, row.length = 20

instance (m : Grid) : Decidable (GridWF m) := by
  unfold GridWF; exact inferInstance

/-- The read `m[y][x]`. Every read the source makes on a well-formed grid is in range. Out of
range the source panics and the value here is `false`; the theorems keep the reads in range
by their hypotheses (`GridWF` and the bounds on the car's column). -/
def getCell (m : Grid) (x y : Int) : Bool :=
  if 0 ≤ x ∧ 0 ≤ y then (m.getD y.toNat []).getD x.toNat false else false

/-- The write `m[y][x] = b`. -/
def setCell (m : Grid) (x y : Int) (b : Bool) : Grid :=
  if 0 ≤ x ∧ 0 ≤ y then m.set y.toNat ((m.getD y.toNat []).set x.toNat b) else m

/-- Cell `(x, y)` lies inside the grid. -/
def inBounds (x y : Int) : Prop :=
  0 ≤ x ∧ x < mazeWidth ∧ 0 ≤ y ∧ y < mazeHeight

instance (x y : Int) : Decidable (inBounds x y) := by
  unfold inBounds; exact inferInstance

/-! ## Reachability search -/

/-- Source: the `visited` array of `hasPathToEnd`, shaped like the maze, all `false`. -/
def newVisited (maze : Grid) : Grid :=
  maze.map fun row => row.map fun _ => false

/-- Source: the closure `dfs` of `hasPathToEnd`. The captured `visited` array is passed in
and returned. `fuel` bounds the recursion depth; `none` means it ran out. -/
def dfs : Nat → Grid → Int → Grid → Int → Int → Option (Bool × Grid)
  | 0, _, _, _, _, _ => none
  | fuel + 1, maze, endX, visited, x, y =>
    if x < 0 ∨ x ≥ mazeWidth ∨ y < 0 ∨ y ≥ mazeHeight ∨
        getCell visited x y = true ∨ getCell maze x y = true then
      some (false, visited)
    else if x = endX ∧ y = mazeHeight - 1 then
      some (true, visited)
    else
      (dfs fuel maze endX (setCell visited x y true) (x + 1) y).bind fun r1 =>
      if r1.1 then some r1 else
      (dfs fuel maze endX r1.2 (x - 1) y).bind fun r2 =>
      if r2.1 then some r2 else
      (dfs fuel maze endX r2.2 x (y + 1)).bind fun r3 =>
      if r3.1 then some r3 else
      dfs fuel maze endX r3.2 x (y - 1)

/-- Fuel for `hasPathToEnd`: one more than the number of cells. -/
def searchFuel : Nat := 301

/-- Source: `Game.hasPathToEnd`, with `g.endX` as the argument `endX`. -/
def hasPathToEnd (maze : Grid) (endX startX startY : Int) : Option Bool :=
  (dfs searchFuel maze endX (newVisited maze) startX startY).map Prod.fst

/-! ## Paths of open cells -/

/-- A cell that is in bounds and not a wall. -/
def OpenCell (m : Grid) (c : Int × Int) : Prop :=
  inBounds c.1 c.2 ∧ getCell m c.1 c.2 = false

/-- Two cells are 4-adjacent. -/
def Adj (a b : Int × Int) : Prop :=
  b = (a.1 + 1, a.2) ∨ b = (a.1 - 1, a.2) ∨ b = (a.1, a.2 + 1) ∨ b = (a.1, a.2 - 1)

/-- A sequence of cells, each in bounds and not a wall and each 4-adjacent to the
previous one, that starts at `s` and ends at `t`. -/
def IsPath (m : Grid) (s t : Int × Int) (p : List (Int × Int)) : Prop :=
  p.head? = some s ∧ p.getLast? = some t ∧ (∀ c ∈ p, OpenCell m c) ∧ p.Chain' Adj

/-- Cell `t` can be reached from a cell through open cells. -/
inductive Reach (m : Grid) (t : Int × Int) : Int × Int → Prop
  | here : OpenCell m t → Reach m t t
  | step {a b : Int × Int} : OpenCell m a → Adj a b → Reach m t b → Reach m t a

/-- There is a path of open cells from `(x, y)` to the cell `(endX, mazeHeight - 1)`. -/
def PathToEnd (m : Grid) (endX x y : Int) : Prop :=
  ∃ p, IsPath m (x, y) (endX, mazeHeight - 1) p

/-- Cells marked in `v'` and not in `v` are open, are not the target `t`, and have every
open neighbour marked in `v'`. -/
def Closes (m : Grid) (t : Int × Int) (v v' : Grid) : Prop :=
  ∀ c : Int × Int, getCell v' c.1 c.2 = true → getCell v c.1 c.2 = false →
    OpenCell m c ∧ c ≠ t ∧ ∀ n, Adj c n → OpenCell m n → getCell v' n.1 n.2 = true

/-- Every cell marked in `v` is marked in `v'`. -/
def MarksMore (v v' : Grid) : Prop :=
  ∀ x y, getCell v x y = true → getCell v' x y = true

/-- The cells of the grid. -/
def allCells : Finset (Int × Int) :=
  Finset.Ico 0 mazeWidth ×ˢ Finset.Ico 0 mazeHeight

/-- The cells of the grid not marked in `v`. -/
def unmarked (v : Grid) : Finset (Int × Int) :=
  allCells.filter fun c => getCell v c.1 c.2 = false

/-! ## Game state -/

/-- Source: `type Direction int` with `Up`, `Right`, `Down`, `Left`. -/
inductive Direction
  | Up
  | Right
  | Down
  | Left
  deriving DecidableEq, Repr

/-- Source: `type Car struct`. `x`, `y` and `rotation` are `float64` in the source and only
ever hold the integers computed here; the sprite is left out. -/
structure Car where
  x : Int
  y : Int
  direction : Direction
  cellX : Int
  cellY : Int
  rotation : Int
  deriving DecidableEq, Repr

/-- The eight movement keys: what `ebiten.IsKeyPressed` answers for each, and the entries of
the map `lastKeyState` (a missing entry reads `false`). -/
structure MoveKeys where
  up : Bool
  w : Bool
  right : Bool
  d : Bool
  down : Bool
  s : Bool
  left : Bool
  a : Bool
  deriving DecidableEq, Repr

/-- Source: `type Game struct`. -/
structure Game where
  car : Car
  maze : Grid
  startX : Int
  startY : Int
  endX : Int
  endY : Int
  lastMazeUpdate : Int
  gameOver : Bool
  win : Bool
  moveTimer : Int
  startTime : Int
  hasStarted : Bool
  finalTime : Int
  lastWallUpdate : Int
  lastKeyState : MoveKeys
  titleScreen : Bool
  deriving DecidableEq, Repr

/-- Source: `Game.wouldTrapPlayer`. The copy of the maze it searches is the maze itself; the
arguments `x`, `y` are not used by the source either. -/
def wouldTrapPlayer (g : Game) (_x _y : Int) : Option Bool :=
  (hasPathToEnd g.maze g.endX g.car.cellX g.car.cellY).map fun b => !b

/-! ## Player movement -/

/-- The five assignments the source makes when a move is applied (they occur three times in
`moveCar`). -/
def placeCar (g : Game) (newCellX newCellY : Int) (dir : Direction) : Game :=
  { g with car := { g.car with
      cellX := newCellX
      cellY := newCellY
      direction := dir
      x := (newCellX + 1) * cellSize + cellSize / 2
      y := (newCellY + 1) * cellSize + cellSize / 2 } }

/-- Source: `Game.moveCar`. `now` is the reading of `time.Now()` made when the car leaves the
start position. -/
def moveCar (g : Game) (dir : Direction) (now : Int) : Game :=
  let newCellX := match dir with
    | Direction.Right => g.car.cellX + 1
    | Direction.Left => g.car.cellX - 1
    | _ => g.car.cellX
  let newCellY := match dir with
    | Direction.Up => g.car.cellY - 1
    | Direction.Down => g.car.cellY + 1
    | _ => g.car.cellY
  let rotation : Int := match dir with
    | Direction.Up => 180
    | Direction.Right => 270
    | Direction.Down => 0
    | Direction.Left => 90
  let g := { g with car := { g.car with rotation := rotation } }
  if g.car.cellY = -1 then
    if newCellY = 0 ∧ getCell g.maze newCellX 0 = false then
      let g := placeCar g newCellX newCellY dir
      if g.hasStarted = false then { g with hasStarted := true, startTime := now } else g
    else g
  else if g.car.cellY = mazeHeight - 1 ∧ dir = Direction.Down ∧ newCellX = g.endX then
    placeCar g newCellX newCellY dir
  else if newCellX ≥ 0 ∧ newCellX < mazeWidth ∧ newCellY ≥ 0 ∧ newCellY < mazeHeight ∧
      getCell g.maze newCellX newCellY = false then
    placeCar g newCellX newCellY dir
  else g

/-! ## The two firings of `Update` -/

/-- One iteration of the goal-relocation loop: `newEndX` is the value of
`rand.Intn(mazeWidth)`. -/
def goalAttempt (g : Game) (newEndX : Int) : Option Game :=
  let oldEndX := g.endX
  let g1 := { g with endX := newEndX }
  (wouldTrapPlayer g1 g1.endX (mazeHeight - 1)).map fun trap =>
    if trap then { g1 with endX := oldEndX } else g1

/-- The body of `if timeSinceLastUpdate >= ...` in `Update`: the loop `for i := 0; i < 2; i++`
with the two drawn columns `c1`, `c2`, then `g.lastMazeUpdate = currentTime`. -/
def goalFiring (g : Game) (c1 c2 : Int) (currentTime : Int) : Option Game :=
  (goalAttempt g c1).bind fun g1 =>
  (goalAttempt g1 c2).map fun g2 => { g2 with lastMazeUpdate := currentTime }

/-- Source: the expression `isProtected` of the wall update. -/
def isProtected (g : Game) (x y : Int) : Bool :=
  decide ((x = g.startX ∧ y = 0) ∨
    (x = g.endX ∧ y = mazeHeight - 1) ∨
    (y < mazeHeight / 2 ∧ (x = y ∨ x = y + 1)) ∨
    (y < mazeHeight / 2 ∧ (x = mazeWidth - 1 - y ∨ x = mazeWidth - 2 - y)) ∨
    (x = mazeWidth / 2 ∧ y ≥ mazeHeight / 2 - 1 ∧ y ≤ mazeHeight / 2 + 1) ∨
    (y = mazeHeight / 2 ∧ x ≥ mazeWidth / 2 - 1 ∧ x ≤ mazeWidth / 2 + 1))

/-- The body of the wall-update loops at cell `(x, y)`. `flips x y` is the outcome of
`rand.Float32() < wallChangeChance` drawn at that cell: the source draws once for each cell
that is not protected, in row order, so the outcomes of a firing are one value per cell.
The counter `wallsChanged` is never read and is left out. -/
def wallCell (flips : Int → Int → Bool) (y x : Int) (g : Game) : Option Game :=
  if isProtected g x y = false ∧ flips x y = true then
    let oldState := getCell g.maze x y
    let g1 := { g with maze := setCell g.maze x y (!getCell g.maze x y) }
    (wouldTrapPlayer g1 x y).map fun trap =>
      if trap then { g1 with maze := setCell g1.maze x y oldState } else g1
  else some g

/-- The inner loop `for x := range g.maze[y]` over the remaining columns `xs`. -/
def wallRow (flips : Int → Int → Bool) (y : Int) : List Int → Game → Option Game
  | [], g => some g
  | x :: xs, g => (wallCell flips y x g).bind fun g1 => wallRow flips y xs g1

/-- The indices of `range g.maze[y]`. -/
def rowIndices (m : Grid) (y : Int) : List Int :=
  (List.range (m.getD y.toNat []).length).map Int.ofNat

/-- The outer loop `for y := range g.maze` over the remaining rows `ys`. -/
def wallRows (flips : Int → Int → Bool) : List Int → Game → Option Game
  | [], g => some g
  | y :: ys, g => (wallRow flips y (rowIndices g.maze y) g).bind fun g1 => wallRows flips ys g1

/-- The body of `if timeSinceWallUpdate >= ...` in `Update`: both loops, then
`g.lastWallUpdate = currentTime`. -/
def wallFiring (g : Game) (flips : Int → Int → Bool) (currentTime : Int) : Option Game :=
  (wallRows flips ((List.range g.maze.length).map Int.ofNat) g).map fun g1 =>
    { g1 with lastWallUpdate := currentTime }

/-! ## One tick -/

/-- What one call of `Update` reads from outside: the keys, three clock readings and the
random draws. -/
structure TickInput where
  /-- Answer of `ebiten.IsKeyPressed(ebiten.KeyEscape)`. -/
  escape : Bool
  /-- Answer of `ebiten.IsKeyPressed(ebiten.KeySpace)`. -/
  space : Bool
  /-- Answer of `ebiten.IsKeyPressed(ebiten.KeyEnter)`. -/
  enter : Bool
  /-- Answers of `ebiten.IsKeyPressed` for the movement keys. -/
  keys : MoveKeys
  /-- The reading `currentTime := time.Now()`. -/
  now : Int
  /-- The reading of `time.Now()` inside `moveCar`. -/
  moveNow : Int
  /-- The clock reading of `time.Since(g.startTime)`. -/
  endNow : Int
  /-- First `rand.Intn(mazeWidth)` of a goal relocation. -/
  c1 : Int
  /-- Second `rand.Intn(mazeWidth)` of a goal relocation. -/
  c2 : Int
  /-- Outcomes of `rand.Float32() < wallChangeChance`, by cell. -/
  flips : Int → Int → Bool

/-- The drawn columns are values of `rand.Intn(mazeWidth)`. -/
def TickInput.Valid (inp : TickInput) : Prop :=
  0 ≤ inp.c1 ∧ inp.c1 < mazeWidth ∧ 0 ≤ inp.c2 ∧ inp.c2 < mazeWidth

instance (inp : TickInput) : Decidable inp.Valid := by
  unfold TickInput.Valid; exact inferInstance

/-- Source: `if g.moveTimer > 0 { g.moveTimer-- }`. -/
def cooldown (g : Game) : Game :=
  if g.moveTimer > 0 then { g with moveTimer := g.moveTimer - 1 } else g

/-- Source: the goal-relocation block of `Update` with its timer test. -/
def goalPhase (g : Game) (inp : TickInput) : Option Game :=
  if timeSub inp.now g.lastMazeUpdate ≥ mazeUpdateInterval then
    goalFiring g inp.c1 inp.c2 inp.now
  else some g

/-- Source: the wall-update block of `Update` with its timer test. -/
def wallPhase (g : Game) (inp : TickInput) : Option Game :=
  if timeSub inp.now g.lastWallUpdate ≥ wallUpdateInterval then
    wallFiring g inp.flips inp.now
  else some g

/-- One of the four `if (pressed) && !last && !last { g.moveCar(dir); g.moveTimer = moveCooldown }`
blocks; `fires` is the value of its condition. -/
def moveSlot (fires : Bool) (dir : Direction) (now : Int) (g : Game) : Game :=
  if fires then { moveCar g dir now with moveTimer := moveCooldown } else g

/-- Condition of the `Up` block. -/
def upFires (g : Game) (k : MoveKeys) : Bool :=
  (k.up || k.w) && !g.lastKeyState.up && !g.lastKeyState.w

/-- Condition of the `Right` block. -/
def rightFires (g : Game) (k : MoveKeys) : Bool :=
  (k.right || k.d) && !g.lastKeyState.right && !g.lastKeyState.d

/-- Condition of the `Down` block. -/
def downFires (g : Game) (k : MoveKeys) : Bool :=
  (k.down || k.s) && !g.lastKeyState.down && !g.lastKeyState.s

/-- Condition of the `Left` block. -/
def leftFires (g : Game) (k : MoveKeys) : Bool :=
  (k.left || k.a) && !g.lastKeyState.left && !g.lastKeyState.a

/-- The state when the `Down` block of `Update` is reached: after the `Up` and `Right`
blocks. -/
def beforeDown (g : Game) (inp : TickInput) : Game :=
  moveSlot (rightFires g inp.keys) Direction.Right inp.moveNow
    (moveSlot (upFires g inp.keys) Direction.Up inp.moveNow g)

/-- Source: `if g.moveTimer == 0 { ... }` with its four blocks in the order Up, Right, Down,
Left. -/
def movePhase (g : Game) (inp : TickInput) : Game :=
  if g.moveTimer = 0 then
    moveSlot (leftFires g inp.keys) Direction.Left inp.moveNow
      (moveSlot (downFires g inp.keys) Direction.Down inp.moveNow (beforeDown g inp))
  else g

/-- Source: the eight assignments to `g.lastKeyState`. -/
def recordKeys (g : Game) (k : MoveKeys) : Game :=
  { g with lastKeyState := k }

/-- Source: the win test at the end of `Update`; `endNow` is the clock reading of
`time.Since`. -/
def winCheck (g : Game) (endNow : Int) : Game :=
  if g.car.cellY = mazeHeight ∧ g.car.cellX = g.endX then
    { g with win := true, finalTime := timeSub endNow g.startTime }
  else g

/-- The part of `Update` after the `gameOver`/`win` test. -/
def playTick (g : Game) (inp : TickInput) : Option Game :=
  (goalPhase (cooldown g) inp).bind fun g1 =>
  (wallPhase g1 inp).bind fun g2 =>
  some (winCheck (recordKeys (movePhase g2 inp) inp.keys) inp.endNow)

/-- Source: `Game.Update`. The result is the state the call leaves; the returned error is
`ebiten.Termination` exactly when `escape` is pressed. -/
def Update (g : Game) (inp : TickInput) : Option Game :=
  if inp.escape then some g
  else if g.titleScreen then
    if inp.space || inp.enter then some { g with titleScreen := false } else some g
  else if g.gameOver || g.win then some g
  else playTick g inp

/-! ## Maze generation -/

/-- The random draws of one call of `generateMaze`, by the place that makes them. -/
structure GenDraws where
  /-- Outcome of `rand.Float32() < 0.6` at cell `(x, y)` of the centre block. -/
  center : Int → Int → Bool
  /-- Outcome of the first `rand.Float32() < 0.7` of diagonal step `i`. -/
  diagLeft : Int → Bool
  /-- Outcome of the second `rand.Float32() < 0.7` of diagonal step `i`. -/
  diagRight : Int → Bool
  /-- The draw of iteration `k` of the path loop: `rand.Intn(n)` is `pick k % n`. -/
  pick : Nat → Nat
  /-- The draw `rand.Intn(mazeWidth)` of noise step `i` is `noiseX i % 20`. -/
  noiseX : Nat → Nat
  /-- The draw `rand.Intn(mazeHeight)` of noise step `i` is `noiseY i % 15`. -/
  noiseY : Nat → Nat

/-- Source: the first loops of `generateMaze`, `maze[y][x] = false` for every cell. -/
def clearGrid (maze : Grid) : Grid :=
  maze.map fun row => row.map fun _ => false

/-- The cells of the loops `for y := centerY - 2; y <= centerY+2` and
`for x := centerX - 2; x <= centerX+2`, in the order the loops visit them. -/
def centerCells : List (Int × Int) :=
  (List.range 5).flatMap fun j => (List.range 5).map fun i =>
    (mazeWidth / 2 - 2 + (i : Int), mazeHeight / 2 - 2 + (j : Int))

/-- Source: "Add random walls in a 5x5 area around the center". -/
def stampCenter (d : GenDraws) (maze : Grid) : Grid :=
  centerCells.foldl (fun m c => if d.center c.1 c.2 then setCell m c.1 c.2 true else m) maze

/-- One step `i` of the loop "Add some random diagonal walls". -/
def stampDiagonal (d : GenDraws) (maze : Grid) (i : Int) : Grid :=
  let m1 := if d.diagLeft i then setCell (setCell maze i i true) (i + 1) i true else maze
  if d.diagRight i then setCell (setCell m1 (mazeWidth - 1 - i) i true) (mazeWidth - 2 - i) i true
  else m1

/-- Source: `for i := 0; i < mazeHeight/2; i++` of the diagonal walls. -/
def stampDiagonals (d : GenDraws) (maze : Grid) : Grid :=
  ((List.range (mazeHeight / 2).toNat).map Int.ofNat).foldl (stampDiagonal d) maze

/-- Source: the list `possibleMoves` built in the path loop. -/
def possibleMoves (maze : Grid) (currentX currentY : Int) : List Direction :=
  (if currentY > 0 ∧ getCell maze currentX (currentY - 1) = false then [Direction.Up] else []) ++
  (if currentX < mazeWidth - 1 ∧ getCell maze (currentX + 1) currentY = false
    then [Direction.Right] else []) ++
  (if currentY < mazeHeight - 1 ∧ getCell maze currentX (currentY + 1) = false
    then [Direction.Down] else []) ++
  (if currentX > 0 ∧ getCell maze (currentX - 1) currentY = false then [Direction.Left] else [])

/-- Source: the `switch move` of the path loop. -/
def stepCell (currentX currentY : Int) (move : Direction) : Int × Int :=
  match move with
  | Direction.Up => (currentX, currentY - 1)
  | Direction.Right => (currentX + 1, currentY)
  | Direction.Down => (currentX, currentY + 1)
  | Direction.Left => (currentX - 1, currentY)

/-- Source: the loop `for currentX != endX || currentY != endY` of `generateMaze`, from its
iteration number `k`. The loop has no bound of its own: `fuel` bounds the number of
iterations and `none` means it ran out. The result is the grid and the cell where the loop
stopped. -/
def carvePath : Nat → (Nat → Nat) → Nat → Grid → Int → Int → Int → Int →
    Option (Grid × Int × Int)
  | 0, _, _, _, _, _, _, _ => none
  | fuel + 1, pick, k, maze, currentX, currentY, endX, endY =>
    if currentX = endX ∧ currentY = endY then some (maze, currentX, currentY)
    else
      let moves := possibleMoves maze currentX currentY
      if moves.length = 0 then some (maze, currentX, currentY)
      else
        let move := moves.getD (pick k % moves.length) Direction.Up
        let c := stepCell currentX currentY move
        carvePath fuel pick (k + 1) (setCell maze c.1 c.2 false) c.1 c.2 endX endY

/-- One step `i` of the loop "Add some random walls". -/
def noiseStep (d : GenDraws) (startX endX : Int) (maze : Grid) (i : Nat) : Grid :=
  let x : Int := ((d.noiseX i % 20 : Nat) : Int)
  let y : Int := ((d.noiseY i % 15 : Nat) : Int)
  if (x = startX ∧ y = 0) ∨ (x = endX ∧ y = mazeHeight - 1) then maze
  else setCell maze x y true

/-- Source: `for i := 0; i < wallsToAdd; i++` with `wallsToAdd = mazeWidth*mazeHeight/4`. -/
def addNoise (d : GenDraws) (startX endX : Int) (maze : Grid) : Grid :=
  (List.range (mazeWidth * mazeHeight / 4).toNat).foldl (noiseStep d startX endX) maze

/-- The grid of `generateMaze` when its path loop ends, before the random walls are added. -/
def generatePath (fuel : Nat) (d : GenDraws) (maze : Grid) (startX startY endX endY : Int) :
    Option (Grid × Int × Int) :=
  let m := stampDiagonals d (stampCenter d (clearGrid maze))
  carvePath fuel d.pick 0 (setCell m startX startY false) startX startY endX endY

/-- Source: `generateMaze`. -/
def generateMaze (fuel : Nat) (d : GenDraws) (maze : Grid) (startX startY endX endY : Int) :
    Option Grid :=
  (generatePath fuel d maze startX startY endX endY).map fun r => addNoise d startX endX r.1

/-- Source: `NewGame`. `now` is the reading of `time.Now()`; the fields the source does not
set have their zero values. -/
def NewGame (fuel : Nat) (d : GenDraws) (now : Int) : Option Game :=
  let maze : Grid := List.replicate mazeHeight.toNat (List.replicate mazeWidth.toNat false)
  let startX := mazeWidth / 2
  let startY : Int := -1
  let endX := mazeWidth / 2
  let endY := mazeHeight
  (generateMaze fuel d maze startX 0 endX (mazeHeight - 1)).map fun maze =>
    { car :=
        { x := (startX + 1) * cellSize + cellSize / 2
          y := (startY + 1) * cellSize + cellSize / 2
          direction := Direction.Down
          cellX := startX
          cellY := startY
          rotation := 0 }
      maze := maze
      startX := startX
      startY := startY
      endX := endX
      endY := endY
      lastMazeUpdate := now
      gameOver := false
      win := false
      moveTimer := 0
      startTime := 0
      hasStarted := false
      finalTime := 0
      lastWallUpdate := now
      lastKeyState := ⟨false, false, false, false, false, false, false, false⟩
      titleScreen := true }

/-- The game states the program can be in: the result of `NewGame` and what `Update` makes of
a state already reached. -/
inductive Reachable : Game → Prop
  | init (fuel : Nat) (d : GenDraws) (now : Int) (g : Game) :
      NewGame fuel d now = some g → Reachable g
  | tick (g : Game) (inp : TickInput) (g' : Game) :
      Reachable g → inp.Valid → Update g inp = some g' → Reachable g'

/-- The game with the wall state of cell `(x, y)` flipped. -/
def flipCell (g : Game) (x y : Int) : Game :=
  { g with maze := setCell g.maze x y (!getCell g.maze x y) }

/-- The search from the car's cell to the goal column. -/
def carHasPath (g : Game) : Option Bool :=
  hasPathToEnd g.maze g.endX g.car.cellX g.car.cellY

/-- The state of the path loop of `generateMaze` after `n` more iterations, from its iteration
number `k`: the grid and the current cell. It is `none` when the loop has stopped before, on
the end cell or by the break on an empty list of moves. -/
def carveAfter : Nat → (Nat → Nat) → Nat → Grid → Int → Int → Int → Int →
    Option (Grid × Int × Int)
  | 0, _, _, maze, currentX, currentY, _, _ => some (maze, currentX, currentY)
  | n + 1, pick, k, maze, currentX, currentY, endX, endY =>
    if currentX = endX ∧ currentY = endY then none
    else
      let moves := possibleMoves maze currentX currentY
      if moves.length = 0 then none
      else
        let move := moves.getD (pick k % moves.length) Direction.Up
        let c := stepCell currentX currentY move
        carveAfter n pick (k + 1) (setCell maze c.1 c.2 false) c.1 c.2 endX endY

/-! ## Runs of ticks -/

/-- Successive calls of `Update`, one for each input of the list. -/
def runTicks : Game → List TickInput → Option Game
  | g, [] => some g
  | g, inp :: rest => (Update g inp).bind fun g1 => runTicks g1 rest

/-- The call `Update g inp` gets past its three early returns (escape, title screen,
`gameOver || win`) and reaches the timer tests. -/
def inPlay (g : Game) (inp : TickInput) : Bool :=
  !inp.escape && !g.titleScreen && !(g.gameOver || g.win)

/-- The goal-relocation block fires in the call `Update g inp`. -/
def goalFires (g : Game) (inp : TickInput) : Bool :=
  inPlay g inp && decide (timeSub inp.now (cooldown g).lastMazeUpdate ≥ mazeUpdateInterval)

/-- The wall-update block fires in the call `Update g inp`; its test is made on the state the
goal-relocation block leaves. -/
def wallFires (g : Game) (inp : TickInput) : Option Bool :=
  if inPlay g inp then
    (goalPhase (cooldown g) inp).map fun g1 =>
      decide (timeSub inp.now g1.lastWallUpdate ≥ wallUpdateInterval)
  else some false

/-- The numbers of goal-relocation firings and of wall-update firings in successive calls of
`Update`, one for each input of the list. -/
def countFirings : Game → List TickInput → Option (Nat × Nat)
  | _, [] => some (0, 0)
  | g, inp :: rest =>
    (wallFires g inp).bind fun wf =>
    (Update g inp).bind fun g1 =>
    (countFirings g1 rest).map fun n =>
      (n.1 + (if goalFires g inp then 1 else 0), n.2 + (if wf then 1 else 0))

/-! ## The search with counters -/

/-- A result of the search with its counters: the answer, the `visited` array, the number of
calls of the closure and the number of calls that marked their cell and went on to recurse. -/
structure SearchRun where
  found : Bool
  visited : Grid
  calls : Nat
  marks : Nat

/-- Source: the closure `dfs` of `hasPathToEnd`, as `dfs` above, with the two counters of
`SearchRun` added. -/
def dfsCount : Nat → Grid → Int → Grid → Int → Int → Option SearchRun
  | 0, _, _, _, _, _ => none
  | fuel + 1, maze, endX, visited, x, y =>
    if x < 0 ∨ x ≥ mazeWidth ∨ y < 0 ∨ y ≥ mazeHeight ∨
        getCell visited x y = true ∨ getCell maze x y = true then
      some ⟨false, visited, 1, 0⟩
    else if x = endX ∧ y = mazeHeight - 1 then
      some ⟨true, visited, 1, 0⟩
    else
      (dfsCount fuel maze endX (setCell visited x y true) (x + 1) y).bind fun r1 =>
      if r1.found then some ⟨true, r1.visited, 1 + r1.calls, 1 + r1.marks⟩ else
      (dfsCount fuel maze endX r1.visited (x - 1) y).bind fun r2 =>
      if r2.found then
        some ⟨true, r2.visited, 1 + r1.calls + r2.calls, 1 + r1.marks + r2.marks⟩ else
      (dfsCount fuel maze endX r2.visited x (y + 1)).bind fun r3 =>
      if r3.found then
        some ⟨true, r3.visited, 1 + r1.calls + r2.calls + r3.calls,
          1 + r1.marks + r2.marks + r3.marks⟩ else
      (dfsCount fuel maze endX r3.visited x (y - 1)).map fun r4 =>
        ⟨r4.found, r4.visited, 1 + r1.calls + r2.calls + r3.calls + r4.calls,
          1 + r1.marks + r2.marks + r3.marks + r4.marks⟩

/-! ## Concrete inputs -/

/-- The 20x15 grid with no wall. -/
def openGrid : Grid :=
  List.replicate 15 (List.replicate 20 false)

/-- Draws of `generateMaze` that stamp nothing, walk straight down from `(10, 0)` and put every
noise wall on row 1, covering it. -/
def sealingDraws : GenDraws where
  center := fun _ _ => false
  diagLeft := fun _ => false
  diagRight := fun _ => false
  pick := fun k => if k = 0 then 1 else 2
  noiseX := fun i => i
  noiseY := fun _ => 1

/-- Draws of `generateMaze` that stamp nothing, walk straight down from `(10, 0)` and put every
noise wall on the cell `(0, 5)`. -/
def gentleDraws : GenDraws where
  center := fun _ _ => false
  diagLeft := fun _ => false
  diagRight := fun _ => false
  pick := fun k => if k = 0 then 1 else 2
  noiseX := fun _ => 0
  noiseY := fun _ => 5

/-- No movement key pressed. -/
def noKeys : MoveKeys :=
  ⟨false, false, false, false, false, false, false, false⟩

/-- Only the `Down` arrow pressed. -/
def downKey : MoveKeys :=
  ⟨false, false, false, false, true, false, false, false⟩

/-- A tick at time `now` with the given keys, drawn columns 3 and 7 and every flip drawn. -/
def tickAt (now : Int) (space : Bool) (keys : MoveKeys) : TickInput where
  escape := false
  space := space
  enter := false
  keys := keys
  now := now
  moveNow := now
  endNow := now
  c1 := 3
  c2 := 7
  flips := fun _ _ => true

/-- A game in play on the open grid with the car on cell `(x, y)`, the goal at column 10 and
every clock reading 0. -/
def gameAt (x y : Int) : Game where
  car :=
    { x := (x + 1) * cellSize + cellSize / 2
      y := (y + 1) * cellSize + cellSize / 2
      direction := Direction.Down
      cellX := x
      cellY := y
      rotation := 0 }
  maze := openGrid
  startX := 10
  startY := -1
  endX := 10
  endY := 15
  lastMazeUpdate := 0
  gameOver := false
  win := false
  moveTimer := 0
  startTime := 0
  hasStarted := false
  finalTime := 0
  lastWallUpdate := 0
  lastKeyState := noKeys
  titleScreen := false

/-- The ticks that leave the title screen with `space` and drive the car down column 10 to
`(10, 14)`: fifteen presses of `Down`, each followed by nine ticks without a key while the
movement cooldown runs down. No clock reading advances, so no timer fires. -/
def driveDown : List TickInput :=
  tickAt 0 true noKeys ::
    (List.range 15).flatMap fun _ =>
      tickAt 0 false downKey :: List.replicate 9 (tickAt 0 false noKeys)

/-- The state `NewGame` with the draws `gentleDraws` and the ticks `driveDown` lead to: the
car on `(10, 14)`, above the goal. -/
def aboveGoal : Option Game :=
  (NewGame 15 gentleDraws 0).bind fun g0 => runTicks g0 driveDown

/-- The `Down` and `Left` arrows pressed together. -/
def downLeftKeys : MoveKeys :=
  ⟨false, false, false, false, true, false, true, false⟩

/-- A game in play on the open grid with the car on `(10, 14)` above the goal, which left the
start zone at clock reading 3. -/
def startedGame : Game :=
  { gameAt 10 14 with hasStarted := true, startTime := 3 }

/-- The state two ticks after `NewGame` with the draws `gentleDraws`: the title screen was left
with `space` and the car was driven `Down` into the maze. -/
def enteredGame : Option Game :=
  (NewGame 15 gentleDraws 0).bind fun g0 =>
  (Update g0 (tickAt 0 true noKeys)).bind fun g1 =>
  Update g1 (tickAt 0 false downKey)

/-! ## Grid reads and writes -/

theorem getCell_setCell_ne (m : Grid) (x y x' y' : Int) (b : Bool)
    (h : ¬ (x' = x ∧ y' = y)) : getCell (setCell m x y b) x' y' = getCell m x' y' := by
  unfold getCell setCell
  by_cases h1 : 0 ≤ x ∧ 0 ≤ y
  · by_cases h2 : 0 ≤ x' ∧ 0 ≤ y'
    · simp only [h1, h2, and_self, if_true]
      by_cases hy : y' = y
      · subst hy
        have hx : x'.toNat ≠ x.toNat := by omega
        by_cases hl : y'.toNat < m.length
        · simp [List.getD_eq_getElem?_getD, List.getElem?_set, hl, Ne.symm hx]
        · have hn : m[y'.toNat]? = none := List.getElem?_eq_none (by omega)
          simp [List.getD_eq_getElem?_getD, List.getElem?_set, hl, hn]
      · have hyn : y.toNat ≠ y'.toNat := by omega
        simp [List.getD_eq_getElem?_getD, List.getElem?_set, hyn]
    · simp [h2]
  · simp [h1]

theorem getCell_setCell_same (m : Grid) (x y : Int) (b : Bool)
    (hwf : GridWF m) (hb : inBounds x y) : getCell (setCell m x y b) x y = b := by
  obtain ⟨hlen, hrow⟩ := hwf
  obtain ⟨hx0, hx1, hy0, hy1⟩ := hb
  simp only [mazeWidth, mazeHeight] at hx1 hy1
  have hyl : y.toNat < m.length := by omega
  have hrl : (m[y.toNat]).length = 20 := hrow _ (List.getElem_mem _)
  have hxl : x.toNat < (m[y.toNat]).length := by omega
  unfold getCell setCell
  simp [hx0, hy0, List.getD_eq_getElem?_getD, List.getElem?_set, hyl, hxl]

theorem setCell_wf (m : Grid) (x y : Int) (b : Bool) (hwf : GridWF m) :
    GridWF (setCell m x y b) := by
  obtain ⟨hlen, hrow⟩ := hwf
  unfold setCell
  split
  · by_cases hl : y.toNat < m.length
    · refine ⟨by simpa using hlen, ?_⟩
      intro row hmem
      rcases List.mem_or_eq_of_mem_set hmem with h | h
      · exact hrow _ h
      · subst h
        rw [List.length_set, List.getD_eq_getElem?_getD, List.getElem?_eq_getElem hl]
        exact hrow _ (List.getElem_mem _)
    · rw [List.set_eq_of_length_le (by omega)]
      exact ⟨hlen, hrow⟩
  · exact ⟨hlen, hrow⟩

theorem grid_ext (m m' : Grid) (h : GridWF m) (h' : GridWF m')
    (hc : ∀ x y, inBounds x y → getCell m x y = getCell m' x y) : m = m' := by
  obtain ⟨hlen, hrow⟩ := h
  obtain ⟨hlen', hrow'⟩ := h'
  apply List.ext_getElem (by omega)
  intro j hj hj'
  have r1 : (m[j]).length = 20 := hrow _ (List.getElem_mem _)
  have r2 : (m'[j]).length = 20 := hrow' _ (List.getElem_mem _)
  apply List.ext_getElem (by omega)
  intro i hi hi'
  have hb : inBounds (i : Int) (j : Int) := by
    unfold inBounds mazeWidth mazeHeight; omega
  have := hc i j hb
  unfold getCell at this
  simpa [List.getD_eq_getElem?_getD, List.getElem?_eq_getElem, hj, hj', hi, hi'] using this

theorem setCell_setCell_getCell (m : Grid) (x y : Int) (b : Bool)
    (hwf : GridWF m) (hb : inBounds x y) :
    setCell (setCell m x y b) x y (getCell m x y) = m := by
  apply grid_ext _ _ (setCell_wf _ _ _ _ (setCell_wf _ _ _ _ hwf)) hwf
  intro x' y' _
  by_cases h : x' = x ∧ y' = y
  · obtain ⟨rfl, rfl⟩ := h
    exact getCell_setCell_same _ _ _ _ (setCell_wf _ _ _ _ hwf) hb
  · rw [getCell_setCell_ne _ _ _ _ _ _ h, getCell_setCell_ne _ _ _ _ _ _ h]

theorem newVisited_wf (m : Grid) (hwf : GridWF m) : GridWF (newVisited m) := by
  obtain ⟨hlen, hrow⟩ := hwf
  unfold newVisited
  refine ⟨by simpa using hlen, ?_⟩
  intro row hmem
  obtain ⟨r, hr, rfl⟩ := List.mem_map.1 hmem
  simpa using hrow r hr

theorem getCell_newVisited (m : Grid) (x y : Int) : getCell (newVisited m) x y = false := by
  unfold getCell newVisited
  split
  · simp only [List.getD_eq_getElem?_getD, List.getElem?_map]
    cases m[y.toNat]? with
    | none => simp
    | some r =>
      simp only [Option.map_some', Option.getD_some, List.getElem?_map]
      cases r[x.toNat]? <;> simp
  · rfl

/-! ## The search: what a result means -/

theorem marksMore_refl (v : Grid) : MarksMore v v := fun _ _ h => h

theorem marksMore_trans {v1 v2 v3 : Grid} (h12 : MarksMore v1 v2) (h23 : MarksMore v2 v3) :
    MarksMore v1 v3 := fun x y h => h23 x y (h12 x y h)

theorem marksMore_setCell (v : Grid) (x y : Int) : MarksMore v (setCell v x y true) := by
  intro x' y' h
  by_cases hc : x' = x ∧ y' = y
  · obtain ⟨rfl, rfl⟩ := hc
    unfold getCell at h
    split at h
    · rename_i h0
      unfold getCell setCell
      simp only [h0, and_self, if_true]
      by_cases hl : y'.toNat < v.length
      · by_cases hx : x'.toNat < (v[y'.toNat]).length
        · simp [List.getD_eq_getElem?_getD, List.getElem?_set, hl, hx]
        · simp [List.getD_eq_getElem?_getD, List.getElem?_eq_getElem hl,
            List.getElem?_eq_none (Nat.le_of_not_lt hx)] at h
      · simp [List.getD_eq_getElem?_getD, List.getElem?_eq_none (Nat.le_of_not_lt hl)] at h
    · cases h
  · rw [getCell_setCell_ne _ _ _ _ _ _ hc]; exact h

theorem closes_refl (m : Grid) (t : Int × Int) (v : Grid) : Closes m t v v := by
  intro c h1 h2; rw [h1] at h2; cases h2

theorem closes_trans {m : Grid} {t : Int × Int} {v1 v2 v3 : Grid}
    (hm : MarksMore v2 v3) (h12 : Closes m t v1 v2) (h23 : Closes m t v2 v3) :
    Closes m t v1 v3 := by
  intro c h3 h1
  cases h2 : getCell v2 c.1 c.2 with
  | true =>
    obtain ⟨ho, hne, hn⟩ := h12 c h2 h1
    exact ⟨ho, hne, fun n ha hno => hm _ _ (hn n ha hno)⟩
  | false => exact h23 c h3 h2

/-- What a result of `dfs` says: a `true` result comes with a path of open cells to the
target, a `false` result leaves the start marked (if it is open) and every newly marked
cell closed under open neighbours. -/
theorem dfs_spec (m : Grid) (e : Int) :
    ∀ (fuel : Nat) (v : Grid) (x y : Int) (b : Bool) (v' : Grid),
      GridWF v → dfs fuel m e v x y = some (b, v') →
      GridWF v' ∧ MarksMore v v' ∧
      (b = true → Reach m (e, mazeHeight - 1) (x, y)) ∧
      (b = false → (OpenCell m (x, y) → getCell v' x y = true) ∧
        Closes m (e, mazeHeight - 1) v v') := by
  intro fuel
  induction fuel with
  | zero => intro v x y b v' _ h; simp [dfs] at h
  | succ fuel ih =>
    intro v x y b v' hwf h
    rw [dfs] at h
    split at h
    · -- blocked: out of bounds, visited or wall
      rename_i hg
      simp only [Option.some.injEq, Prod.mk.injEq] at h
      obtain ⟨rfl, rfl⟩ := h
      refine ⟨hwf, marksMore_refl _, by simp, fun _ => ⟨?_, closes_refl _ _ _⟩⟩
      rintro ⟨⟨h0, h1, h2, h3⟩, h4⟩
      simp only at h0 h1 h2 h3 h4
      rcases hg with h | h | h | h | h | h
      · omega
      · omega
      · omega
      · omega
      · exact h
      · rw [h4] at h; cases h
    · rename_i hg
      have hg' : (0 ≤ x ∧ x < mazeWidth ∧ 0 ≤ y ∧ y < mazeHeight) ∧
          getCell v x y = false ∧ getCell m x y = false := by
        simp only [not_or, not_lt, ge_iff_le, not_le, Bool.not_eq_true] at hg
        obtain ⟨a, b, c, d, e, f⟩ := hg
        exact ⟨⟨a, b, c, d⟩, e, f⟩
      obtain ⟨hb, hv, hm⟩ := hg'
      have hopen : OpenCell m (x, y) := ⟨hb, hm⟩
      split at h
      · -- the target
        rename_i ht
        simp only [Option.some.injEq, Prod.mk.injEq] at h
        obtain ⟨rfl, rfl⟩ := h
        obtain ⟨rfl, rfl⟩ := ht
        exact ⟨hwf, marksMore_refl _, fun _ => Reach.here hopen, by simp⟩
      · rename_i ht
        have hwf0 : GridWF (setCell v x y true) := setCell_wf _ _ _ _ hwf
        have hm0 : MarksMore v (setCell v x y true) := marksMore_setCell _ _ _
        have hself : getCell (setCell v x y true) x y = true :=
          getCell_setCell_same _ _ _ _ hwf hb
        cases h1 : dfs fuel m e (setCell v x y true) (x + 1) y with
        | none => simp [h1] at h
        | some r1 =>
          obtain ⟨b1, v1⟩ := r1
          obtain ⟨w1, m1, t1, f1⟩ := ih _ _ _ _ _ hwf0 h1
          simp only [h1, Option.some_bind] at h
          cases b1 with
          | true =>
            simp only [if_true, Option.some.injEq, Prod.mk.injEq] at h
            obtain ⟨rfl, rfl⟩ := h
            exact ⟨w1, marksMore_trans hm0 m1,
              fun _ => Reach.step hopen (Or.inl rfl) (t1 rfl), by simp⟩
          | false =>
            simp only [Bool.false_eq_true, if_false] at h
            obtain ⟨o1, c1⟩ := f1 rfl
            cases h2 : dfs fuel m e v1 (x - 1) y with
            | none => simp [h2] at h
            | some r2 =>
              obtain ⟨b2, v2⟩ := r2
              obtain ⟨w2, m2, t2, f2⟩ := ih _ _ _ _ _ w1 h2
              simp only [h2, Option.some_bind] at h
              cases b2 with
              | true =>
                simp only [if_true, Option.some.injEq, Prod.mk.injEq] at h
                obtain ⟨rfl, rfl⟩ := h
                exact ⟨w2, marksMore_trans (marksMore_trans hm0 m1) m2,
                  fun _ => Reach.step hopen (Or.inr (Or.inl rfl)) (t2 rfl), by simp⟩
              | false =>
                simp only [Bool.false_eq_true, if_false] at h
                obtain ⟨o2, c2⟩ := f2 rfl
                cases h3 : dfs fuel m e v2 x (y + 1) with
                | none => simp [h3] at h
                | some r3 =>
                  obtain ⟨b3, v3⟩ := r3
                  obtain ⟨w3, m3, t3, f3⟩ := ih _ _ _ _ _ w2 h3
                  simp only [h3, Option.some_bind] at h
                  cases b3 with
                  | true =>
                    simp only [if_true, Option.some.injEq, Prod.mk.injEq] at h
                    obtain ⟨rfl, rfl⟩ := h
                    exact ⟨w3, marksMore_trans (marksMore_trans (marksMore_trans hm0 m1) m2) m3,
                      fun _ => Reach.step hopen (Or.inr (Or.inr (Or.inl rfl))) (t3 rfl),
                      by simp⟩
                  | false =>
                    simp only [Bool.false_eq_true, if_false] at h
                    obtain ⟨o3, c3⟩ := f3 rfl
                    obtain ⟨w4, m4, t4, f4⟩ := ih _ _ _ _ _ w3 h
                    refine ⟨w4, marksMore_trans (marksMore_trans (marksMore_trans (marksMore_trans hm0 m1) m2) m3) m4, ?_, ?_⟩
                    · intro hb4
                      exact Reach.step hopen (Or.inr (Or.inr (Or.inr rfl))) (t4 hb4)
                    · intro hb4
                      obtain ⟨o4, c4⟩ := f4 hb4
                      have hfin : getCell v' x y = true :=
                        m4 _ _ (m3 _ _ (m2 _ _ (m1 _ _ hself)))
                      refine ⟨fun _ => hfin, ?_⟩
                      have c04 : Closes m (e, mazeHeight - 1) (setCell v x y true) v' :=
                        closes_trans m4 (closes_trans m3 (closes_trans m2 c1 c2) c3) c4
                      intro c hc' hc
                      by_cases hcxy : c.1 = x ∧ c.2 = y
                      · obtain ⟨cx, cy⟩ := c
                        simp only at hcxy
                        obtain ⟨rfl, rfl⟩ := hcxy
                        refine ⟨hopen, ?_, ?_⟩
                        · intro heq
                          simp only [Prod.mk.injEq] at heq
                          exact ht heq
                        · intro n ha hn
                          rcases ha with rfl | rfl | rfl | rfl
                          · exact m4 _ _ (m3 _ _ (m2 _ _ (o1 hn)))
                          · exact m4 _ _ (m3 _ _ (o2 hn))
                          · exact m4 _ _ (o3 hn)
                          · exact o4 hn
                      · apply c04 c hc'
                        rw [getCell_setCell_ne _ _ _ _ _ _ hcxy]; exact hc
/-! ## The search: the fuel is enough -/

theorem card_allCells : allCells.card = 300 := by
  simp [allCells, mazeWidth, mazeHeight]

theorem card_unmarked_le (v : Grid) : (unmarked v).card ≤ 300 := by
  rw [← card_allCells]
  exact Finset.card_le_card (Finset.filter_subset _ _)

theorem card_unmarked_mono {v v' : Grid} (h : MarksMore v v') :
    (unmarked v').card ≤ (unmarked v).card := by
  apply Finset.card_le_card
  intro c hc
  simp only [unmarked, Finset.mem_filter] at hc ⊢
  refine ⟨hc.1, ?_⟩
  cases hv : getCell v c.1 c.2 with
  | false => rfl
  | true => rw [h _ _ hv] at hc; exact absurd hc.2 (by simp)

theorem card_unmarked_setCell (v : Grid) (x y : Int) (hwf : GridWF v) (hb : inBounds x y)
    (hv : getCell v x y = false) :
    (unmarked (setCell v x y true)).card < (unmarked v).card := by
  apply Finset.card_lt_card
  rw [Finset.ssubset_iff_of_subset]
  · refine ⟨(x, y), ?_, ?_⟩
    · simp only [unmarked, Finset.mem_filter, allCells, Finset.mem_product, Finset.mem_Ico]
      exact ⟨⟨⟨hb.1, hb.2.1⟩, ⟨hb.2.2.1, hb.2.2.2⟩⟩, hv⟩
    · simp only [unmarked, Finset.mem_filter, not_and]
      intro _
      rw [getCell_setCell_same _ _ _ _ hwf hb]; simp
  · intro c hc
    simp only [unmarked, Finset.mem_filter] at hc ⊢
    refine ⟨hc.1, ?_⟩
    cases hv : getCell v c.1 c.2 with
    | false => rfl
    | true => rw [marksMore_setCell v x y _ _ hv] at hc; exact absurd hc.2 (by simp)

/-- With more fuel than unmarked cells the search returns. -/
theorem dfs_fuel (m : Grid) (e : Int) :
    ∀ (fuel : Nat) (v : Grid) (x y : Int), GridWF v → (unmarked v).card < fuel →
      ∃ r, dfs fuel m e v x y = some r := by
  intro fuel
  induction fuel with
  | zero => intro v x y _ h; omega
  | succ fuel ih =>
    intro v x y hwf hc
    rw [dfs]
    split
    · exact ⟨_, rfl⟩
    · rename_i hg
      simp only [not_or, not_lt, ge_iff_le, not_le, Bool.not_eq_true] at hg
      obtain ⟨a, b, c, d, hv, _⟩ := hg
      split
      · exact ⟨_, rfl⟩
      · have hlt := card_unmarked_setCell v x y hwf ⟨a, b, c, d⟩ hv
        have hwf0 : GridWF (setCell v x y true) := setCell_wf _ _ _ _ hwf
        have hc0 : (unmarked (setCell v x y true)).card < fuel := by omega
        obtain ⟨⟨b1, v1⟩, h1⟩ := ih (setCell v x y true) (x + 1) y hwf0 hc0
        obtain ⟨w1, m1, -, -⟩ := dfs_spec m e _ _ _ _ _ _ hwf0 h1
        have hc1 := card_unmarked_mono m1
        simp only [h1, Option.some_bind]
        split
        · exact ⟨_, rfl⟩
        · obtain ⟨⟨b2, v2⟩, h2⟩ := ih v1 (x - 1) y w1 (by omega)
          obtain ⟨w2, m2, -, -⟩ := dfs_spec m e _ _ _ _ _ _ w1 h2
          have hc2 := card_unmarked_mono m2
          simp only [h2, Option.some_bind]
          split
          · exact ⟨_, rfl⟩
          · obtain ⟨⟨b3, v3⟩, h3⟩ := ih v2 x (y + 1) w2 (by omega)
            obtain ⟨w3, m3, -, -⟩ := dfs_spec m e _ _ _ _ _ _ w2 h3
            have hc3 := card_unmarked_mono m3
            simp only [h3, Option.some_bind]
            split
            · exact ⟨_, rfl⟩
            · exact ih v3 x (y - 1) w3 (by omega)

/-- The search of `hasPathToEnd` returns on every well-formed grid. -/
theorem hasPathToEnd_returns (m : Grid) (e sx sy : Int) (hwf : GridWF m) :
    ∃ b, hasPathToEnd m e sx sy = some b := by
  have hv := newVisited_wf m hwf
  obtain ⟨⟨b, v'⟩, h⟩ := dfs_fuel m e searchFuel (newVisited m) sx sy hv
    (by have := card_unmarked_le (newVisited m); unfold searchFuel; omega)
  exact ⟨b, by simp [hasPathToEnd, h]⟩

theorem reach_open {m : Grid} {t a : Int × Int} (h : Reach m t a) : OpenCell m a := by
  cases h with
  | here h => exact h
  | step h _ _ => exact h

theorem reach_target_open {m : Grid} {t a : Int × Int} (h : Reach m t a) : OpenCell m t := by
  induction h with
  | here h => exact h
  | step _ _ _ ih => exact ih

/-- A `true` answer of `hasPathToEnd` comes with a path. -/
theorem hasPathToEnd_true_reach (m : Grid) (e sx sy : Int) (hwf : GridWF m)
    (h : hasPathToEnd m e sx sy = some true) : Reach m (e, mazeHeight - 1) (sx, sy) := by
  unfold hasPathToEnd at h
  cases hd : dfs searchFuel m e (newVisited m) sx sy with
  | none => simp [hd] at h
  | some r =>
    obtain ⟨b, v'⟩ := r
    simp only [hd, Option.map_some', Option.some.injEq] at h
    subst h
    exact (dfs_spec m e _ _ _ _ _ _ (newVisited_wf m hwf) hd).2.2.1 rfl

/-- A `false` answer of `hasPathToEnd` excludes every path. -/
theorem hasPathToEnd_false_not_reach (m : Grid) (e sx sy : Int) (hwf : GridWF m)
    (h : hasPathToEnd m e sx sy = some false) : ¬ Reach m (e, mazeHeight - 1) (sx, sy) := by
  unfold hasPathToEnd at h
  cases hd : dfs searchFuel m e (newVisited m) sx sy with
  | none => simp [hd] at h
  | some r =>
    obtain ⟨b, v'⟩ := r
    simp only [hd, Option.map_some', Option.some.injEq] at h
    subst h
    obtain ⟨-, -, -, hf⟩ := dfs_spec m e _ _ _ _ _ _ (newVisited_wf m hwf) hd
    obtain ⟨hstart, hcl⟩ := hf rfl
    have key : ∀ a, Reach m (e, mazeHeight - 1) a → getCell v' a.1 a.2 = true → False := by
      intro a hr
      induction hr with
      | here _ =>
        intro hv
        exact (hcl _ hv (getCell_newVisited m _ _)).2.1 rfl
      | step ho ha hr ih =>
        intro hv
        exact ih ((hcl _ hv (getCell_newVisited m _ _)).2.2 _ ha (reach_open hr))
    intro hr
    exact key _ hr (hstart (reach_open hr))

/-- The answer of `hasPathToEnd` is `true` exactly when a path exists. -/
theorem hasPathToEnd_iff_reach (m : Grid) (e sx sy : Int) (hwf : GridWF m) :
    hasPathToEnd m e sx sy = some true ↔ Reach m (e, mazeHeight - 1) (sx, sy) := by
  constructor
  · exact hasPathToEnd_true_reach m e sx sy hwf
  · intro hr
    obtain ⟨b, hb⟩ := hasPathToEnd_returns m e sx sy hwf
    cases b with
    | true => exact hb
    | false => exact absurd hr (hasPathToEnd_false_not_reach m e sx sy hwf hb)

/-- A path given as a list of cells is a `Reach` derivation and conversely. -/
theorem reach_iff_isPath (m : Grid) (s t : Int × Int) :
    Reach m t s ↔ ∃ p, IsPath m s t p := by
  constructor
  · intro h
    induction h with
    | here ho =>
      exact ⟨[t], rfl, rfl, by simpa using ho, List.chain'_singleton _⟩
    | @step a b ho ha hr ih =>
      obtain ⟨p, hh, hl, hop, hch⟩ := ih
      cases p with
      | nil => simp at hh
      | cons c q =>
        simp only [List.head?_cons, Option.some.injEq] at hh
        subst hh
        refine ⟨a :: c :: q, rfl, ?_, ?_, ?_⟩
        · rw [List.getLast?_cons_cons]; exact hl
        · intro d hd
          rcases List.mem_cons.1 hd with rfl | hd
          · exact ho
          · exact hop d hd
        · exact List.Chain'.cons ha hch
  · rintro ⟨p, hp⟩
    induction p generalizing s with
    | nil => simp [IsPath] at hp
    | cons c q ih =>
      obtain ⟨hh, hl, hop, hch⟩ := hp
      simp only [List.head?_cons, Option.some.injEq] at hh
      subst hh
      cases q with
      | nil =>
        simp only [List.getLast?_singleton, Option.some.injEq] at hl
        subst hl
        exact Reach.here (hop _ (List.mem_singleton.2 rfl))
      | cons d r =>
        rw [List.getLast?_cons_cons] at hl
        have hch' := List.chain'_cons.1 hch
        exact Reach.step (hop _ (List.mem_cons_self _ _)) hch'.1
          (ih d ⟨rfl, hl, fun x hx => hop x (List.mem_cons_of_mem _ hx), hch'.2⟩)
theorem hasPathToEnd_true_iff (m : Grid) (e sx sy : Int) (hwf : GridWF m) :
    hasPathToEnd m e sx sy = some true ↔ PathToEnd m e sx sy := by
  rw [hasPathToEnd_iff_reach m e sx sy hwf, reach_iff_isPath]; rfl

theorem hasPathToEnd_false_iff (m : Grid) (e sx sy : Int) (hwf : GridWF m) :
    hasPathToEnd m e sx sy = some false ↔ ¬ PathToEnd m e sx sy := by
  rw [← hasPathToEnd_true_iff m e sx sy hwf]
  obtain ⟨b, hb⟩ := hasPathToEnd_returns m e sx sy hwf
  cases b <;> simp [hb]

/-! ## Wall update -/

theorem wallCell_eq (flips : Int → Int → Bool) (g : Game) (x y : Int)
    (hwf : GridWF g.maze) (hb : inBounds x y) :
    wallCell flips y x g =
      some (if isProtected g x y = false ∧ flips x y = true ∧
              carHasPath (flipCell g x y) = some true
            then flipCell g x y else g) := by
  unfold wallCell
  by_cases hc : isProtected g x y = false ∧ flips x y = true
  · rw [if_pos hc]
    obtain ⟨b, hb'⟩ := hasPathToEnd_returns (setCell g.maze x y (!getCell g.maze x y)) g.endX
      g.car.cellX g.car.cellY (setCell_wf _ _ _ _ hwf)
    cases b with
    | true =>
      simp [wouldTrapPlayer, carHasPath, flipCell, hb', hc.1, hc.2]
    | false =>
      have hrev := setCell_setCell_getCell g.maze x y (!getCell g.maze x y) hwf hb
      simp [wouldTrapPlayer, carHasPath, flipCell, hb', hrev]
  · rw [if_neg hc]
    have : ¬ (isProtected g x y = false ∧ flips x y = true ∧
        carHasPath (flipCell g x y) = some true) := fun h => hc ⟨h.1, h.2.1⟩
    rw [if_neg this]
theorem flipCell_wf (g : Game) (x y : Int) (hwf : GridWF g.maze) :
    GridWF (flipCell g x y).maze := setCell_wf _ _ _ _ hwf

theorem rowIndices_bounds (m : Grid) (y : Int) (hwf : GridWF m) (hy0 : 0 ≤ y)
    (hy1 : y < mazeHeight) : ∀ x ∈ rowIndices m y, 0 ≤ x ∧ x < mazeWidth := by
  obtain ⟨hlen, hrow⟩ := hwf
  intro x hx
  unfold rowIndices at hx
  obtain ⟨i, hi, rfl⟩ := List.mem_map.1 hx
  rw [List.mem_range] at hi
  have hyl : y.toNat < m.length := by unfold mazeHeight at hy1; omega
  rw [List.getD_eq_getElem?_getD, List.getElem?_eq_getElem hyl, Option.getD_some,
    hrow _ (List.getElem_mem _)] at hi
  unfold mazeWidth
  constructor
  · exact Int.ofNat_nonneg i
  · show (i : Int) < 20
    omega

theorem colIndices_bounds (m : Grid) (hwf : GridWF m) :
    ∀ y ∈ (List.range m.length).map Int.ofNat, 0 ≤ y ∧ y < mazeHeight := by
  intro y hy
  obtain ⟨j, hj, rfl⟩ := List.mem_map.1 hy
  rw [List.mem_range, hwf.1] at hj
  unfold mazeHeight
  constructor
  · exact Int.ofNat_nonneg j
  · show (j : Int) < 15
    omega

/-- Induction over the inner loop of the wall update: a property kept by every flip that is
kept holds when the row is done, and the row is done. -/
theorem wallRow_inv (P : Game → Prop) (flips : Int → Int → Bool) (y : Int)
    (hy0 : 0 ≤ y) (hy1 : y < mazeHeight)
    (hstep : ∀ g x, inBounds x y → GridWF g.maze → P g → isProtected g x y = false →
      flips x y = true → carHasPath (flipCell g x y) = some true → P (flipCell g x y)) :
    ∀ (xs : List Int), (∀ x ∈ xs, 0 ≤ x ∧ x < mazeWidth) → ∀ g, GridWF g.maze → P g →
      ∃ g', wallRow flips y xs g = some g' ∧ GridWF g'.maze ∧ P g' := by
  intro xs
  induction xs with
  | nil => intro _ g hwf hp; exact ⟨g, rfl, hwf, hp⟩
  | cons x xs ih =>
    intro hxs g hwf hp
    have hx := hxs x (List.mem_cons_self _ _)
    have hb : inBounds x y := ⟨hx.1, hx.2, hy0, hy1⟩
    have hxs' : ∀ x ∈ xs, 0 ≤ x ∧ x < mazeWidth := fun x h => hxs x (List.mem_cons_of_mem _ h)
    rw [wallRow, wallCell_eq flips g x y hwf hb, Option.some_bind]
    split
    · rename_i hc
      exact ih hxs' _ (flipCell_wf g x y hwf) (hstep g x hb hwf hp hc.1 hc.2.1 hc.2.2)
    · exact ih hxs' _ hwf hp

/-- Induction over both loops of the wall update. -/
theorem wallRows_inv (P : Game → Prop) (flips : Int → Int → Bool)
    (hstep : ∀ g x y, inBounds x y → GridWF g.maze → P g → isProtected g x y = false →
      flips x y = true → carHasPath (flipCell g x y) = some true → P (flipCell g x y)) :
    ∀ (ys : List Int), (∀ y ∈ ys, 0 ≤ y ∧ y < mazeHeight) → ∀ g, GridWF g.maze → P g →
      ∃ g', wallRows flips ys g = some g' ∧ GridWF g'.maze ∧ P g' := by
  intro ys
  induction ys with
  | nil => intro _ g hwf hp; exact ⟨g, rfl, hwf, hp⟩
  | cons y ys ih =>
    intro hys g hwf hp
    have hy := hys y (List.mem_cons_self _ _)
    obtain ⟨g1, h1, hwf1, hp1⟩ := wallRow_inv P flips y hy.1 hy.2
      (fun g x => hstep g x y) (rowIndices g.maze y)
      (rowIndices_bounds g.maze y hwf hy.1 hy.2) g hwf hp
    rw [wallRows, h1, Option.some_bind]
    exact ih (fun y h => hys y (List.mem_cons_of_mem _ h)) g1 hwf1 hp1

/-- Induction over a wall-update firing: it completes, and a property kept by every flip that
is kept holds of the state it leaves before `lastWallUpdate` is set. -/
theorem wallFiring_inv (P : Game → Prop) (flips : Int → Int → Bool) (g : Game) (t : Int)
    (hstep : ∀ g x y, inBounds x y → GridWF g.maze → P g → isProtected g x y = false →
      flips x y = true → carHasPath (flipCell g x y) = some true → P (flipCell g x y))
    (hwf : GridWF g.maze) (hp : P g) :
    ∃ g1, wallFiring g flips t = some { g1 with lastWallUpdate := t } ∧
      GridWF g1.maze ∧ P g1 := by
  obtain ⟨g1, h1, hwf1, hp1⟩ := wallRows_inv P flips hstep _ (colIndices_bounds g.maze hwf) g hwf hp
  exact ⟨g1, by simp [wallFiring, h1], hwf1, hp1⟩

theorem wallFiring_path (g : Game) (flips : Int → Int → Bool) (t : Int)
    (hwf : GridWF g.maze) (hpath : carHasPath g = some true) :
    ∃ g', wallFiring g flips t = some g' ∧ carHasPath g' = some true := by
  obtain ⟨g1, h1, -, hp1⟩ := wallFiring_inv (fun g1 => carHasPath g1 = some true) flips g
    t (fun g x y _ _ _ _ _ h => h) hwf hpath
  exact ⟨_, h1, hp1⟩

/-- C1: if `hasPathToEnd(maze, car.cellX, car.cellY)` is true just before a wall-update
firing, then for every outcome of the draws the firing completes and `hasPathToEnd` from
the car's cell is true in the state it leaves. -/
theorem wallFiring_keeps_path (g : Game) (flips : Int → Int → Bool) (currentTime : Int)
    (hwf : GridWF g.maze)
    (hpath : hasPathToEnd g.maze g.endX g.car.cellX g.car.cellY = some true) :
    ∃ g', wallFiring g flips currentTime = some g' ∧
      hasPathToEnd g'.maze g'.endX g'.car.cellX g'.car.cellY = some true :=
  wallFiring_path g flips currentTime hwf hpath
/-- C7: if each flip attempted during a wall-update firing leaves no path from the car's cell
to `(endX, mazeHeight-1)`, the firing completes and the grid after it equals the grid before
it. -/
theorem wallFiring_all_reverted (g : Game) (flips : Int → Int → Bool) (currentTime : Int)
    (hwf : GridWF g.maze)
    (hall : ∀ x y, inBounds x y → isProtected g x y = false → flips x y = true →
      ¬ PathToEnd (setCell g.maze x y (!getCell g.maze x y)) g.endX g.car.cellX g.car.cellY) :
    ∃ g', wallFiring g flips currentTime = some g' ∧ g'.maze = g.maze := by
  obtain ⟨g1, h1, -, hp1⟩ := wallFiring_inv (fun g1 => g1 = g) flips g currentTime
    (by
      intro g1 x y hb _ heq hprot hflip hpath
      subst heq
      exact absurd ((hasPathToEnd_true_iff _ _ _ _ (setCell_wf _ _ _ _ hwf)).1 hpath)
        (hall x y hb hprot hflip))
    hwf rfl
  subst hp1
  exact ⟨_, h1, rfl⟩

/-- C8: a wall-update firing completes and leaves the wall state of every protected cell
unchanged: the entrance `(startX, 0)`, the exit `(endX, mazeHeight-1)`, the cells with
`y < mazeHeight/2` and `x` in `{y, y+1, mazeWidth-1-y, mazeWidth-2-y}`, and the centre cross
around `(mazeWidth/2, mazeHeight/2)`. -/
theorem wallFiring_protected_unchanged (g : Game) (flips : Int → Int → Bool)
    (currentTime : Int) (hwf : GridWF g.maze) :
    ∃ g', wallFiring g flips currentTime = some g' ∧
      ∀ x y : Int,
        ((x = g.startX ∧ y = 0) ∨ (x = g.endX ∧ y = mazeHeight - 1) ∨
          (y < mazeHeight / 2 ∧
            (x = y ∨ x = y + 1 ∨ x = mazeWidth - 1 - y ∨ x = mazeWidth - 2 - y)) ∨
          (x, y) = (mazeWidth / 2, mazeHeight / 2 - 1) ∨
          (x, y) = (mazeWidth / 2, mazeHeight / 2) ∨
          (x, y) = (mazeWidth / 2, mazeHeight / 2 + 1) ∨
          (x, y) = (mazeWidth / 2 - 1, mazeHeight / 2) ∨
          (x, y) = (mazeWidth / 2 + 1, mazeHeight / 2)) →
        getCell g'.maze x y = getCell g.maze x y := by
  obtain ⟨g1, h1, -, hs, he, hp1⟩ := wallFiring_inv
    (fun g1 => g1.startX = g.startX ∧ g1.endX = g.endX ∧
      ∀ x y, isProtected g x y = true → getCell g1.maze x y = getCell g.maze x y)
    flips g currentTime
    (by
      intro g1 x y _ _ hp hprot _ _
      obtain ⟨hs, he, hcells⟩ := hp
      refine ⟨hs, he, ?_⟩
      intro x' y' hp'
      have hne : ¬ (x' = x ∧ y' = y) := by
        rintro ⟨rfl, rfl⟩
        have : isProtected g1 x' y' = isProtected g x' y' := by
          simp only [isProtected, hs, he]
        rw [this, hp'] at hprot
        cases hprot
      show getCell (setCell g1.maze x y _) x' y' = _
      rw [getCell_setCell_ne _ _ _ _ _ _ hne]
      exact hcells x' y' hp')
    hwf ⟨rfl, rfl, fun _ _ _ => rfl⟩
  refine ⟨_, h1, ?_⟩
  intro x y hxy
  apply hp1
  simp only [isProtected, decide_eq_true_eq]
  simp only [Prod.mk.injEq] at hxy
  simp only [mazeWidth, mazeHeight] at hxy ⊢
  norm_num at hxy ⊢
  omega
/-! ## Goal relocation -/

theorem goalAttempt_eq (g : Game) (c : Int) (hwf : GridWF g.maze) :
    goalAttempt g c =
      some (if hasPathToEnd g.maze c g.car.cellX g.car.cellY = some true
            then { g with endX := c } else g) := by
  obtain ⟨b, hb⟩ := hasPathToEnd_returns g.maze c g.car.cellX g.car.cellY hwf
  cases b <;> simp [goalAttempt, wouldTrapPlayer, hb]

/-- C3: with drawn columns `c1`, `c2` in `[0, mazeWidth)`, a goal-relocation firing completes
and leaves `endX` equal to `c2` if the car's cell has a path to `(c2, mazeHeight-1)`,
otherwise `c1` if it has a path to `(c1, mazeHeight-1)`, otherwise the `endX` it had; the
grid is not changed and `endX` stays in `[0, mazeWidth)`. -/
theorem goalFiring_endX (g : Game) (c1 c2 currentTime : Int) (hwf : GridWF g.maze)
    (hend : 0 ≤ g.endX ∧ g.endX < mazeWidth)
    (hc1 : 0 ≤ c1 ∧ c1 < mazeWidth) (hc2 : 0 ≤ c2 ∧ c2 < mazeWidth) :
    ∃ g', goalFiring g c1 c2 currentTime = some g' ∧
      (PathToEnd g.maze c2 g.car.cellX g.car.cellY → g'.endX = c2) ∧
      (¬ PathToEnd g.maze c2 g.car.cellX g.car.cellY →
        PathToEnd g.maze c1 g.car.cellX g.car.cellY → g'.endX = c1) ∧
      (¬ PathToEnd g.maze c2 g.car.cellX g.car.cellY →
        ¬ PathToEnd g.maze c1 g.car.cellX g.car.cellY → g'.endX = g.endX) ∧
      g'.maze = g.maze ∧ 0 ≤ g'.endX ∧ g'.endX < mazeWidth := by
  simp only [← hasPathToEnd_true_iff _ _ _ _ hwf]
  unfold goalFiring
  rw [goalAttempt_eq g c1 hwf, Option.some_bind]
  by_cases h1 : hasPathToEnd g.maze c1 g.car.cellX g.car.cellY = some true
  · rw [if_pos h1, goalAttempt_eq { g with endX := c1 } c2 hwf]
    by_cases h2 : hasPathToEnd g.maze c2 g.car.cellX g.car.cellY = some true
    · simp [h1, h2, hc2.1, hc2.2]
    · simp [h1, h2, hc1.1, hc1.2]
  · rw [if_neg h1, goalAttempt_eq g c2 hwf]
    by_cases h2 : hasPathToEnd g.maze c2 g.car.cellX g.car.cellY = some true
    · simp [h1, h2, hc2.1, hc2.2]
    · simp [h1, h2, hend.1, hend.2]

/-! ## Clock differences -/

/-- A difference that fits a `time.Duration` is not changed by `Time.Sub`. -/
theorem timeSub_eq_sub (t u : Int) (h0 : minDuration ≤ t - u) (h1 : t - u ≤ maxDuration) :
    timeSub t u = t - u := by
  unfold timeSub
  unfold minDuration at h0
  unfold maxDuration at h1
  rw [if_neg (by unfold maxDuration; omega), if_neg (by unfold minDuration; omega)]

/-- Comparing `t.Sub(u)` with a duration above the smallest one gives the same answer as
comparing `t - u` with it. -/
theorem timeSub_ge_iff (t u i : Int) (h0 : minDuration < i) (h1 : i ≤ maxDuration) :
    timeSub t u ≥ i ↔ t - u ≥ i := by
  unfold timeSub
  unfold minDuration at h0
  unfold maxDuration at h1
  simp only [maxDuration, minDuration]
  split_ifs <;> omega

/-! ## Player movement -/

/-- C6: if `moveCar` changes the car's cell and the new cell is inside the grid, the new cell
is not a wall and is 4-adjacent to the old cell; if the new cell is outside the grid, the move
was `Down` from `(endX, mazeHeight-1)` to `(endX, mazeHeight)`. -/
theorem moveCar_legal (g : Game) (dir : Direction) (now : Int)
    (_hwf : GridWF g.maze) (hcol : 0 ≤ g.car.cellX ∧ g.car.cellX < mazeWidth)
    (hmoved : ((moveCar g dir now).car.cellX, (moveCar g dir now).car.cellY) ≠
      (g.car.cellX, g.car.cellY)) :
    (0 ≤ (moveCar g dir now).car.cellY ∧ (moveCar g dir now).car.cellY < mazeHeight →
      OpenCell g.maze ((moveCar g dir now).car.cellX, (moveCar g dir now).car.cellY) ∧
      (moveCar g dir now).maze = g.maze ∧
      Adj (g.car.cellX, g.car.cellY)
        ((moveCar g dir now).car.cellX, (moveCar g dir now).car.cellY)) ∧
    (¬ (0 ≤ (moveCar g dir now).car.cellY ∧ (moveCar g dir now).car.cellY < mazeHeight) →
      dir = Direction.Down ∧ g.car.cellX = g.endX ∧ g.car.cellY = mazeHeight - 1 ∧
      (moveCar g dir now).car.cellX = g.endX ∧ (moveCar g dir now).car.cellY = mazeHeight) := by
  revert hmoved
  unfold moveCar placeCar OpenCell inBounds Adj
  simp only [mazeWidth, mazeHeight] at hcol ⊢
  cases dir <;> simp only <;> split_ifs <;> simp_all
/-- C10: from the start zone `(startX, -1)`, `moveCar dir` changes the car's cell exactly when
`dir` is `Down` and `maze[0][startX]` is open; then the car ends at `(startX, 0)`,
`hasStarted` is true and `startTime` is set only if `hasStarted` was false; in every other
case the car's cell, `hasStarted` and `startTime` are unchanged. -/
theorem moveCar_start_zone (g : Game) (dir : Direction) (now : Int)
    (_hwf : GridWF g.maze) (_hstart : 0 ≤ g.startX ∧ g.startX < mazeWidth)
    (hx : g.car.cellX = g.startX) (hy : g.car.cellY = -1) :
    ((((moveCar g dir now).car.cellX, (moveCar g dir now).car.cellY) ≠
        (g.car.cellX, g.car.cellY)) ↔
      (dir = Direction.Down ∧ getCell g.maze g.startX 0 = false)) ∧
    (dir = Direction.Down ∧ getCell g.maze g.startX 0 = false →
      (moveCar g dir now).car.cellX = g.startX ∧ (moveCar g dir now).car.cellY = 0 ∧
      (moveCar g dir now).hasStarted = true ∧
      (g.hasStarted = false → (moveCar g dir now).startTime = now) ∧
      (g.hasStarted = true → (moveCar g dir now).startTime = g.startTime)) ∧
    (¬ (dir = Direction.Down ∧ getCell g.maze g.startX 0 = false) →
      (moveCar g dir now).car.cellX = g.car.cellX ∧
      (moveCar g dir now).car.cellY = g.car.cellY ∧
      (moveCar g dir now).hasStarted = g.hasStarted ∧
      (moveCar g dir now).startTime = g.startTime) := by
  unfold moveCar placeCar
  cases dir <;> simp only [hx, hy] <;> split_ifs <;> simp_all

theorem moveCar_exit (g : Game) (now : Int) (hx : g.car.cellX = g.endX)
    (hy : g.car.cellY = mazeHeight - 1) :
    (moveCar g Direction.Down now).car.cellX = g.endX ∧
    (moveCar g Direction.Down now).car.cellY = mazeHeight ∧
    (moveCar g Direction.Down now).endX = g.endX ∧
    (moveCar g Direction.Down now).startTime = g.startTime := by
  unfold moveCar placeCar
  simp only [hx, hy, mazeHeight]
  split_ifs <;> simp_all

theorem moveCar_goal_zone_left (g : Game) (now : Int) (hy : g.car.cellY = mazeHeight) :
    moveCar g Direction.Left now = { g with car := { g.car with rotation := 90 } } := by
  unfold moveCar placeCar
  dsimp only
  rw [hy]
  rw [if_neg (by decide), if_neg (by simp), if_neg (by unfold mazeHeight; omega)]

theorem moveSlot_left_goal_zone (g : Game) (fires : Bool) (now : Int)
    (hy : g.car.cellY = mazeHeight) :
    (moveSlot fires Direction.Left now g).car.cellX = g.car.cellX ∧
    (moveSlot fires Direction.Left now g).car.cellY = g.car.cellY ∧
    (moveSlot fires Direction.Left now g).endX = g.endX ∧
    (moveSlot fires Direction.Left now g).startTime = g.startTime := by
  unfold moveSlot
  cases fires
  · exact ⟨rfl, rfl, rfl, rfl⟩
  · rw [if_pos rfl, moveCar_goal_zone_left g now hy]
    exact ⟨rfl, rfl, rfl, rfl⟩

/-- C9: with the car at `(endX, mazeHeight-1)`, `moveCar Down` puts it at
`(endX, mazeHeight)` whatever the grid contains; the `Update` tick in which the `Down` block
makes this move ends with `win = true` and `finalTime` equal to `time.Since(startTime)`, which
is the clock reading minus `startTime` whenever that difference is a `time.Duration`; from
`(x, mazeHeight-1)` with `x ≠ endX`, `moveCar Down` leaves the car's cell unchanged. -/
theorem exit_move_wins :
    (∀ (g : Game) (now : Int), g.car.cellX = g.endX → g.car.cellY = mazeHeight - 1 →
      (moveCar g Direction.Down now).car.cellX = g.endX ∧
      (moveCar g Direction.Down now).car.cellY = mazeHeight) ∧
    (∀ (g : Game) (inp : TickInput) (g2 : Game),
      inp.escape = false → g.titleScreen = false → g.gameOver = false → g.win = false →
      ((goalPhase (cooldown g) inp).bind fun g1 => wallPhase g1 inp) = some g2 →
      g2.moveTimer = 0 → downFires g2 inp.keys = true →
      (beforeDown g2 inp).car.cellX = (beforeDown g2 inp).endX →
      (beforeDown g2 inp).car.cellY = mazeHeight - 1 →
      ∃ g', Update g inp = some g' ∧ g'.win = true ∧
        g'.finalTime = timeSub inp.endNow g'.startTime ∧
        (minDuration ≤ inp.endNow - g'.startTime → inp.endNow - g'.startTime ≤ maxDuration →
          g'.finalTime = inp.endNow - g'.startTime) ∧
        g'.startTime = (beforeDown g2 inp).startTime ∧
        g'.car.cellX = g'.endX ∧ g'.car.cellY = mazeHeight) ∧
    (∀ (g : Game) (now : Int), g.car.cellY = mazeHeight - 1 → g.car.cellX ≠ g.endX →
      (moveCar g Direction.Down now).car.cellX = g.car.cellX ∧
      (moveCar g Direction.Down now).car.cellY = g.car.cellY) := by
  refine ⟨fun g now hx hy => ⟨(moveCar_exit g now hx hy).1, (moveCar_exit g now hx hy).2.1⟩,
    ?_, ?_⟩
  · intro g inp g2 hesc htitle hover hwin hfire htimer hdown hx hy
    obtain ⟨e1, e2, e3, e4⟩ := moveCar_exit (beforeDown g2 inp) inp.moveNow hx hy
    have hbind : ∀ (o : Option Game) (f k : Game → Option Game),
        (o.bind fun a => (f a).bind k) = (o.bind f).bind k := by
      intro o f k; cases o <;> rfl
    have hU : Update g inp =
        some (winCheck (recordKeys (movePhase g2 inp) inp.keys) inp.endNow) := by
      simp only [Update, playTick, hesc, htitle, hover, hwin, Bool.false_eq_true, if_false,
        Bool.or_self]
      rw [hbind, hfire, Option.some_bind]
    have hmove : movePhase g2 inp =
        moveSlot (leftFires g2 inp.keys) Direction.Left inp.moveNow
          { moveCar (beforeDown g2 inp) Direction.Down inp.moveNow with
            moveTimer := moveCooldown } := by
      simp [movePhase, htimer, moveSlot, hdown]
    obtain ⟨l1, l2, l3, l4⟩ := moveSlot_left_goal_zone
      { moveCar (beforeDown g2 inp) Direction.Down inp.moveNow with moveTimer := moveCooldown }
      (leftFires g2 inp.keys) inp.moveNow e2
    rw [← hmove] at l1 l2 l3 l4
    have hx' : (movePhase g2 inp).car.cellX = (movePhase g2 inp).endX := by
      rw [l1, l3]; exact e1.trans e3.symm
    have hy' : (movePhase g2 inp).car.cellY = mazeHeight := by rw [l2]; exact e2
    refine ⟨_, hU, ?_⟩
    have hw : winCheck (recordKeys (movePhase g2 inp) inp.keys) inp.endNow =
        { recordKeys (movePhase g2 inp) inp.keys with
          win := true
          finalTime := timeSub inp.endNow (movePhase g2 inp).startTime } := by
      unfold winCheck
      rw [if_pos ⟨hy', hx'⟩]
      rfl
    rw [hw]
    exact ⟨rfl, rfl, fun h0 h1 => timeSub_eq_sub _ _ h0 h1, l4.trans e4, hx', hy'⟩
  · intro g now hy hx
    unfold moveCar placeCar
    simp only [hy, mazeHeight]
    split_ifs <;> simp_all
/-! ## Well-formed grids in every reachable state -/

theorem foldl_inv {α β : Type} (P : α → Prop) (f : α → β → α)
    (h : ∀ a b, P a → P (f a b)) : ∀ (l : List β) (a : α), P a → P (l.foldl f a) := by
  intro l
  induction l with
  | nil => intro a ha; exact ha
  | cons b l ih => intro a ha; exact ih _ (h a b ha)

theorem clearGrid_wf (m : Grid) (hwf : GridWF m) : GridWF (clearGrid m) :=
  newVisited_wf m hwf

theorem getCell_clearGrid (m : Grid) (x y : Int) : getCell (clearGrid m) x y = false :=
  getCell_newVisited m x y

theorem stampCenter_wf (d : GenDraws) (m : Grid) (hwf : GridWF m) :
    GridWF (stampCenter d m) := by
  unfold stampCenter
  apply foldl_inv GridWF _ _ _ _ hwf
  intro a c ha
  split
  · exact setCell_wf _ _ _ _ ha
  · exact ha

theorem stampDiagonals_wf (d : GenDraws) (m : Grid) (hwf : GridWF m) :
    GridWF (stampDiagonals d m) := by
  unfold stampDiagonals
  apply foldl_inv GridWF _ _ _ _ hwf
  intro a i ha
  unfold stampDiagonal
  dsimp only
  split <;> split <;>
    first
      | exact ha
      | exact setCell_wf _ _ _ _ (setCell_wf _ _ _ _ ha)
      | exact setCell_wf _ _ _ _ (setCell_wf _ _ _ _ (setCell_wf _ _ _ _ (setCell_wf _ _ _ _ ha)))

theorem addNoise_wf (d : GenDraws) (sx ex : Int) (m : Grid) (hwf : GridWF m) :
    GridWF (addNoise d sx ex m) := by
  unfold addNoise
  apply foldl_inv GridWF _ _ _ _ hwf
  intro a i ha
  unfold noiseStep
  dsimp only
  split
  · exact ha
  · exact setCell_wf _ _ _ _ ha

theorem carvePath_wf (pick : Nat → Nat) (ex ey : Int) :
    ∀ (fuel k : Nat) (m : Grid) (cx cy : Int) (r : Grid × Int × Int), GridWF m →
      carvePath fuel pick k m cx cy ex ey = some r → GridWF r.1 := by
  intro fuel
  induction fuel with
  | zero => intro k m cx cy r _ h; simp [carvePath] at h
  | succ fuel ih =>
    intro k m cx cy r hwf h
    rw [carvePath] at h
    split at h
    · simp only [Option.some.injEq] at h; subst h; exact hwf
    · dsimp only at h
      split at h
      · simp only [Option.some.injEq] at h; subst h; exact hwf
      · exact ih _ _ _ _ _ (setCell_wf _ _ _ _ hwf) h

theorem generatePath_wf (fuel : Nat) (d : GenDraws) (m : Grid) (sx sy ex ey : Int)
    (r : Grid × Int × Int) (hwf : GridWF m)
    (h : generatePath fuel d m sx sy ex ey = some r) : GridWF r.1 := by
  unfold generatePath at h
  exact carvePath_wf _ _ _ _ _ _ _ _ _
    (setCell_wf _ _ _ _ (stampDiagonals_wf _ _ (stampCenter_wf _ _ (clearGrid_wf _ hwf)))) h

theorem generateMaze_wf (fuel : Nat) (d : GenDraws) (m : Grid) (sx sy ex ey : Int)
    (m' : Grid) (hwf : GridWF m) (h : generateMaze fuel d m sx sy ex ey = some m') :
    GridWF m' := by
  unfold generateMaze at h
  cases hp : generatePath fuel d m sx sy ex ey with
  | none => simp [hp] at h
  | some r =>
    simp only [hp, Option.map_some', Option.some.injEq] at h
    subst h
    exact addNoise_wf _ _ _ _ (generatePath_wf _ _ _ _ _ _ _ _ hwf hp)

theorem openGrid_wf : GridWF openGrid := by decide

theorem NewGame_wf (fuel : Nat) (d : GenDraws) (now : Int) (g : Game)
    (h : NewGame fuel d now = some g) : GridWF g.maze := by
  unfold NewGame at h
  dsimp only at h
  cases hm : generateMaze fuel d
      (List.replicate mazeHeight.toNat (List.replicate mazeWidth.toNat false))
      (mazeWidth / 2) 0 (mazeWidth / 2) (mazeHeight - 1) with
  | none => simp [hm] at h
  | some m =>
    simp only [hm, Option.map_some', Option.some.injEq] at h
    subst h
    exact generateMaze_wf _ _ _ _ _ _ _ _ openGrid_wf hm

theorem moveCar_maze (g : Game) (dir : Direction) (now : Int) :
    (moveCar g dir now).maze = g.maze := by
  unfold moveCar placeCar
  dsimp only
  split_ifs <;> rfl

theorem moveSlot_maze (fires : Bool) (dir : Direction) (now : Int) (g : Game) :
    (moveSlot fires dir now g).maze = g.maze := by
  unfold moveSlot
  split
  · exact moveCar_maze g dir now
  · rfl

theorem movePhase_maze (g : Game) (inp : TickInput) : (movePhase g inp).maze = g.maze := by
  unfold movePhase beforeDown
  split
  · simp only [moveSlot_maze]
  · rfl

theorem cooldown_maze (g : Game) : (cooldown g).maze = g.maze := by
  unfold cooldown; split <;> rfl

theorem winCheck_maze (g : Game) (t : Int) : (winCheck g t).maze = g.maze := by
  unfold winCheck; split <;> rfl

theorem goalFiring_some (g : Game) (c1 c2 t : Int) (hwf : GridWF g.maze) :
    ∃ g', goalFiring g c1 c2 t = some g' ∧ g'.maze = g.maze ∧ g'.car = g.car ∧
      (carHasPath g = some true → carHasPath g' = some true) := by
  unfold goalFiring
  rw [goalAttempt_eq g c1 hwf, Option.some_bind]
  by_cases h1 : hasPathToEnd g.maze c1 g.car.cellX g.car.cellY = some true
  · rw [if_pos h1, goalAttempt_eq { g with endX := c1 } c2 hwf]
    by_cases h2 : hasPathToEnd g.maze c2 g.car.cellX g.car.cellY = some true
    · simp [h2, carHasPath]
    · simp [h1, h2, carHasPath]
  · rw [if_neg h1, goalAttempt_eq g c2 hwf]
    by_cases h2 : hasPathToEnd g.maze c2 g.car.cellX g.car.cellY = some true
    · simp [h2, carHasPath]
    · simp [h2, carHasPath]

theorem wallFiring_some (g : Game) (flips : Int → Int → Bool) (t : Int)
    (hwf : GridWF g.maze) :
    ∃ g', wallFiring g flips t = some g' ∧ GridWF g'.maze := by
  obtain ⟨g1, h1, hwf1, -⟩ := wallFiring_inv (fun _ => True) flips g t
    (fun _ _ _ _ _ _ _ _ _ => trivial) hwf trivial
  exact ⟨_, h1, hwf1⟩

theorem goalPhase_wf (g : Game) (inp : TickInput) (g' : Game) (hwf : GridWF g.maze)
    (h : goalPhase g inp = some g') : GridWF g'.maze := by
  unfold goalPhase at h
  split at h
  · obtain ⟨g1, h1, hm, -, -⟩ := goalFiring_some g inp.c1 inp.c2 inp.now hwf
    rw [h1, Option.some.injEq] at h
    subst h
    rw [hm]; exact hwf
  · rw [Option.some.injEq] at h; subst h; exact hwf

theorem wallPhase_wf (g : Game) (inp : TickInput) (g' : Game) (hwf : GridWF g.maze)
    (h : wallPhase g inp = some g') : GridWF g'.maze := by
  unfold wallPhase at h
  split at h
  · obtain ⟨g1, h1, hwf1⟩ := wallFiring_some g inp.flips inp.now hwf
    rw [h1, Option.some.injEq] at h
    subst h
    exact hwf1
  · rw [Option.some.injEq] at h; subst h; exact hwf

theorem Update_wf (g : Game) (inp : TickInput) (g' : Game) (hwf : GridWF g.maze)
    (h : Update g inp = some g') : GridWF g'.maze := by
  unfold Update at h
  split at h
  · rw [Option.some.injEq] at h; subst h; exact hwf
  · split at h
    · split at h <;> (rw [Option.some.injEq] at h; subst h; exact hwf)
    · split at h
      · rw [Option.some.injEq] at h; subst h; exact hwf
      · unfold playTick at h
        cases h1 : goalPhase (cooldown g) inp with
        | none => simp [h1] at h
        | some g1 =>
          have w1 := goalPhase_wf _ _ _ (by rw [cooldown_maze]; exact hwf) h1
          rw [h1, Option.some_bind] at h
          cases h2 : wallPhase g1 inp with
          | none => simp [h2] at h
          | some g2 =>
            have w2 := wallPhase_wf _ _ _ w1 h2
            rw [h2, Option.some_bind, Option.some.injEq] at h
            subst h
            rw [winCheck_maze]
            show GridWF (movePhase g2 inp).maze
            rw [movePhase_maze]; exact w2

/-- Every reachable state has a 15x20 grid. -/
theorem reachable_wf (g : Game) (h : Reachable g) : GridWF g.maze := by
  induction h with
  | init fuel d now g h => exact NewGame_wf fuel d now g h
  | tick g inp g' _ _ hu ih => exact Update_wf g inp g' ih hu

/-- C2 as the code has it: in every state reachable from `NewGame` by `Update` ticks, each
goal-relocation firing and each wall-update firing completes, and `hasPathToEnd` from the car's
cell is true after the firing provided it was true just before it. -/
theorem firings_keep_path (g : Game) (inp : TickInput) (hreach : Reachable g)
    (_hv : inp.Valid) :
    (carHasPath (cooldown g) = some true →
      ∃ g1, goalFiring (cooldown g) inp.c1 inp.c2 inp.now = some g1 ∧
        hasPathToEnd g1.maze g1.endX g1.car.cellX g1.car.cellY = some true) ∧
    (∀ g1, goalPhase (cooldown g) inp = some g1 → carHasPath g1 = some true →
      ∃ g2, wallFiring g1 inp.flips inp.now = some g2 ∧
        hasPathToEnd g2.maze g2.endX g2.car.cellX g2.car.cellY = some true) := by
  have hwf : GridWF (cooldown g).maze := by
    rw [cooldown_maze]; exact reachable_wf g hreach
  constructor
  · intro hp
    obtain ⟨g1, h1, -, -, hk⟩ := goalFiring_some (cooldown g) inp.c1 inp.c2 inp.now hwf
    exact ⟨g1, h1, hk hp⟩
  · intro g1 h1 hp
    exact wallFiring_path g1 inp.flips inp.now (goalPhase_wf _ _ _ hwf h1) hp
/-! ## Maze generation -/

theorem adj_symm {a b : Int × Int} (h : Adj a b) : Adj b a := by
  obtain ⟨a1, a2⟩ := a
  obtain ⟨b1, b2⟩ := b
  unfold Adj at h ⊢
  simp only [Prod.mk.injEq] at h ⊢
  omega

theorem reach_mono {m m' : Grid} {t a : Int × Int}
    (hm : ∀ c, OpenCell m c → OpenCell m' c) (h : Reach m t a) : Reach m' t a := by
  induction h with
  | here ho => exact Reach.here (hm _ ho)
  | step ho ha _ ih => exact Reach.step (hm _ ho) ha ih

theorem reach_snoc {m : Grid} {t u a : Int × Int} (h : Reach m t a) (hadj : Adj t u)
    (hu : OpenCell m u) : Reach m u a := by
  induction h with
  | here ho => exact Reach.step ho hadj (Reach.here hu)
  | step ho ha _ ih => exact Reach.step ho ha ih

theorem reach_symm {m : Grid} {t a : Int × Int} (h : Reach m t a) : Reach m a t := by
  induction h with
  | here ho => exact Reach.here ho
  | step ho ha _ ih => exact reach_snoc ih (adj_symm ha) ho

theorem openCell_setCell_false {m : Grid} (x y : Int) (hwf : GridWF m) (c : Int × Int)
    (h : OpenCell m c) : OpenCell (setCell m x y false) c := by
  refine ⟨h.1, ?_⟩
  by_cases hc : c.1 = x ∧ c.2 = y
  · obtain ⟨rfl, rfl⟩ := hc
    exact getCell_setCell_same _ _ _ _ hwf h.1
  · rw [getCell_setCell_ne _ _ _ _ _ _ hc]; exact h.2

theorem mem_possibleMoves {m : Grid} {cx cy : Int} {mv : Direction}
    (hb : inBounds cx cy) (h : mv ∈ possibleMoves m cx cy) :
    inBounds (stepCell cx cy mv).1 (stepCell cx cy mv).2 ∧
      getCell m (stepCell cx cy mv).1 (stepCell cx cy mv).2 = false := by
  obtain ⟨h0, h1, h2, h3⟩ := hb
  unfold possibleMoves at h
  simp only [List.mem_append] at h
  unfold inBounds
  rcases h with ((h | h) | h) | h <;> split at h <;>
    first
      | (simp only [List.mem_singleton] at h
         subst h
         rename_i hg
         simp only [stepCell]
         exact ⟨by constructor <;> [skip; constructor <;> [skip; constructor]] <;> omega, hg.2⟩)
      | simp at h

theorem adj_stepCell (cx cy : Int) (mv : Direction) :
    Adj (stepCell cx cy mv) (cx, cy) := by
  unfold Adj
  cases mv <;> simp [stepCell]

/-- Stepping back is possible after a step: the cell just left is open. -/
theorem possibleMoves_after_step {m : Grid} {cx cy : Int} (mv : Direction)
    (hb : inBounds cx cy) (hopen : getCell m cx cy = false)
    (hb' : inBounds (stepCell cx cy mv).1 (stepCell cx cy mv).2) :
    possibleMoves m (stepCell cx cy mv).1 (stepCell cx cy mv).2 ≠ [] := by
  obtain ⟨h0, h1, h2, h3⟩ := hb
  obtain ⟨g0, g1, g2, g3⟩ := hb'
  unfold mazeWidth at h1 g1
  unfold mazeHeight at h3 g3
  cases mv <;> simp only [stepCell] at g0 g1 g2 g3 ⊢
  · -- moved Up: Down leads back
    have e : cy - 1 + 1 = cy := by omega
    have hc : cy - 1 < mazeHeight - 1 ∧ getCell m cx (cy - 1 + 1) = false := by
      rw [e]; exact ⟨by unfold mazeHeight; omega, hopen⟩
    apply List.ne_nil_of_mem (a := Direction.Down)
    unfold possibleMoves
    simp only [List.mem_append]
    refine Or.inl (Or.inr ?_)
    rw [if_pos hc]; exact List.mem_singleton.2 rfl
  · -- moved Right: Left leads back
    have e : cx + 1 - 1 = cx := by omega
    have hc : cx + 1 > 0 ∧ getCell m (cx + 1 - 1) cy = false := by
      rw [e]; exact ⟨by omega, hopen⟩
    apply List.ne_nil_of_mem (a := Direction.Left)
    unfold possibleMoves
    simp only [List.mem_append]
    refine Or.inr ?_
    rw [if_pos hc]; exact List.mem_singleton.2 rfl
  · -- moved Down: Up leads back
    have e : cy + 1 - 1 = cy := by omega
    have hc : cy + 1 > 0 ∧ getCell m cx (cy + 1 - 1) = false := by
      rw [e]; exact ⟨by omega, hopen⟩
    apply List.ne_nil_of_mem (a := Direction.Up)
    unfold possibleMoves
    simp only [List.mem_append]
    refine Or.inl (Or.inl (Or.inl ?_))
    rw [if_pos hc]; exact List.mem_singleton.2 rfl
  · -- moved Left: Right leads back
    have e : cx - 1 + 1 = cx := by omega
    have hc : cx - 1 < mazeWidth - 1 ∧ getCell m (cx - 1 + 1) cy = false := by
      rw [e]; exact ⟨by unfold mazeWidth; omega, hopen⟩
    apply List.ne_nil_of_mem (a := Direction.Right)
    unfold possibleMoves
    simp only [List.mem_append]
    refine Or.inl (Or.inl (Or.inr ?_))
    rw [if_pos hc]; exact List.mem_singleton.2 rfl

theorem possibleMoves_setCell_false {m : Grid} (x y cx cy : Int) (hwf : GridWF m)
    (hb : inBounds x y) (h : possibleMoves m cx cy ≠ []) :
    possibleMoves (setCell m x y false) cx cy ≠ [] := by
  have key : ∀ a b, getCell m a b = false → getCell (setCell m x y false) a b = false := by
    intro a b hab
    by_cases hc : a = x ∧ b = y
    · obtain ⟨rfl, rfl⟩ := hc
      exact getCell_setCell_same _ _ _ _ hwf hb
    · rw [getCell_setCell_ne _ _ _ _ _ _ hc]; exact hab
  unfold possibleMoves at h ⊢
  intro hempty
  apply h
  simp only [List.append_eq_nil, ite_eq_right_iff, List.cons_ne_self, imp_false, not_and,
    Bool.not_eq_false, reduceCtorEq] at hempty ⊢
  obtain ⟨⟨⟨e1, e2⟩, e3⟩, e4⟩ := hempty
  refine ⟨⟨⟨?_, ?_⟩, ?_⟩, ?_⟩
  · intro hg
    cases hv : getCell m cx (cy - 1) with
    | true => rfl
    | false => have := e1 hg; rw [key _ _ hv] at this; cases this
  · intro hg
    cases hv : getCell m (cx + 1) cy with
    | true => rfl
    | false => have := e2 hg; rw [key _ _ hv] at this; cases this
  · intro hg
    cases hv : getCell m cx (cy + 1) with
    | true => rfl
    | false => have := e3 hg; rw [key _ _ hv] at this; cases this
  · intro hg
    cases hv : getCell m (cx - 1) cy with
    | true => rfl
    | false => have := e4 hg; rw [key _ _ hv] at this; cases this
theorem getD_mod_mem {α : Type} (l : List α) (n : Nat) (dflt : α) (h : l.length ≠ 0) :
    l.getD (n % l.length) dflt ∈ l := by
  have hlt : n % l.length < l.length := Nat.mod_lt _ (Nat.pos_of_ne_zero h)
  rw [List.getD_eq_getElem?_getD, List.getElem?_eq_getElem hlt, Option.getD_some]
  exact List.getElem_mem _

/-- The path loop of `generateMaze`, started on an open cell that the start cell reaches and
that has a possible move, can stop only on the end cell, and the start cell reaches it through
open cells of the grid it leaves. -/
theorem carvePath_reaches (pick : Nat → Nat) (s : Int × Int) (ex ey : Int) :
    ∀ (fuel k : Nat) (m : Grid) (cx cy : Int) (r : Grid × Int × Int),
      GridWF m → OpenCell m (cx, cy) → Reach m s (cx, cy) → possibleMoves m cx cy ≠ [] →
      carvePath fuel pick k m cx cy ex ey = some r →
      r.2 = (ex, ey) ∧ Reach r.1 s (ex, ey) := by
  intro fuel
  induction fuel with
  | zero => intro k m cx cy r _ _ _ _ h; simp [carvePath] at h
  | succ fuel ih =>
    intro k m cx cy r hwf hopen hreach hmoves h
    rw [carvePath] at h
    split at h
    · rename_i hend
      simp only [Option.some.injEq] at h
      subst h
      obtain ⟨rfl, rfl⟩ := hend
      exact ⟨rfl, hreach⟩
    · dsimp only at h
      split at h
      · rename_i hlen
        exact absurd (List.length_eq_zero.1 hlen) hmoves
      · rename_i hlen
        have hmem := getD_mod_mem (possibleMoves m cx cy) (pick k) Direction.Up hlen
        generalize (possibleMoves m cx cy).getD (pick k % (possibleMoves m cx cy).length)
          Direction.Up = mv at hmem h
        obtain ⟨hb', hfree⟩ := mem_possibleMoves hopen.1 hmem
        have hwf' : GridWF (setCell m (stepCell cx cy mv).1 (stepCell cx cy mv).2 false) :=
          setCell_wf _ _ _ _ hwf
        have hopen' : OpenCell (setCell m (stepCell cx cy mv).1 (stepCell cx cy mv).2 false)
            ((stepCell cx cy mv).1, (stepCell cx cy mv).2) :=
          ⟨hb', getCell_setCell_same _ _ _ _ hwf hb'⟩
        have hmono := openCell_setCell_false (stepCell cx cy mv).1 (stepCell cx cy mv).2 hwf
        have hreach' : Reach (setCell m (stepCell cx cy mv).1 (stepCell cx cy mv).2 false) s
            ((stepCell cx cy mv).1, (stepCell cx cy mv).2) :=
          Reach.step hopen' (adj_stepCell cx cy mv) (reach_mono hmono hreach)
        have hmoves' : possibleMoves
            (setCell m (stepCell cx cy mv).1 (stepCell cx cy mv).2 false)
            (stepCell cx cy mv).1 (stepCell cx cy mv).2 ≠ [] :=
          possibleMoves_setCell_false _ _ _ _ hwf hb'
            (possibleMoves_after_step mv hopen.1 hopen.2 hb')
        exact ih _ _ _ _ _ hwf' hopen' hreach' hmoves' h

theorem foldl_inv_mem {α β : Type} (P : α → Prop) (f : α → β → α) :
    ∀ (l : List β) (a : α), (∀ a b, b ∈ l → P a → P (f a b)) → P a → P (l.foldl f a) := by
  intro l
  induction l with
  | nil => intro a _ ha; exact ha
  | cons b l ih =>
    intro a h ha
    exact ih _ (fun a' b' hb' => h a' b' (List.mem_cons_of_mem _ hb'))
      (h a b (List.mem_cons_self _ _) ha)

/-- The stamping steps of `generateMaze` leave the cell `(10, 1)` below the entrance open. -/
theorem stamped_below_entrance (d : GenDraws) (m : Grid) :
    getCell (stampDiagonals d (stampCenter d (clearGrid m))) 10 1 = false := by
  have h1 : getCell (stampCenter d (clearGrid m)) 10 1 = false := by
    unfold stampCenter
    apply foldl_inv_mem (fun g => getCell g 10 1 = false) _ _ _ _ (getCell_clearGrid m 10 1)
    intro a c hc ha
    split
    · rw [getCell_setCell_ne _ _ _ _ _ _ _]
      · exact ha
      · unfold centerCells at hc
        simp only [List.mem_flatMap, List.mem_map, List.mem_range] at hc
        obtain ⟨j, _, i, _, rfl⟩ := hc
        simp only [mazeHeight]
        omega
    · exact ha
  unfold stampDiagonals
  apply foldl_inv (fun g => getCell g 10 1 = false) _ _ _ _ h1
  intro a i ha
  unfold stampDiagonal
  dsimp only
  have e1 : getCell (setCell (setCell a i i true) (i + 1) i true) 10 1 = false := by
    rw [getCell_setCell_ne _ _ _ _ _ _ (by omega), getCell_setCell_ne _ _ _ _ _ _ (by omega)]
    exact ha
  have e2 : ∀ b : Grid, getCell b 10 1 = false →
      getCell (setCell (setCell b (mazeWidth - 1 - i) i true) (mazeWidth - 2 - i) i true) 10 1
        = false := by
    intro b hb
    rw [getCell_setCell_ne _ _ _ _ _ _ (by unfold mazeWidth; omega),
      getCell_setCell_ne _ _ _ _ _ _ (by unfold mazeWidth; omega)]
    exact hb
  split <;> split
  · exact e2 _ e1
  · exact e2 _ ha
  · exact e1
  · exact ha

theorem addNoise_keeps_open (d : GenDraws) (sx ex : Int) (m : Grid) (c : Int × Int)
    (hc : ∀ i, i < 75 → (((d.noiseX i % 20 : Nat) : Int), ((d.noiseY i % 15 : Nat) : Int)) ≠ c)
    (ho : OpenCell m c) : OpenCell (addNoise d sx ex m) c := by
  unfold addNoise
  apply foldl_inv_mem (fun g => OpenCell g c) _ _ _ _ ho
  intro a i hi ha
  have hi' : i < 75 := by
    have := List.mem_range.1 hi
    simpa [mazeWidth, mazeHeight] using this
  unfold noiseStep
  dsimp only
  split
  · exact ha
  · refine ⟨ha.1, ?_⟩
    rw [getCell_setCell_ne _ _ _ _ _ _ _]
    · exact ha.2
    · intro hcon
      apply hc i hi'
      exact Prod.ext hcon.1.symm hcon.2.symm

/-- C5 as the code has it: whenever the path loop of `generateMaze(maze, 10, 0, 10, 14)` ends,
it ends on `(10, 14)` and the grid it leaves, before the noise walls are added, has a path of
open cells from `(10, 0)` to `(10, 14)`; the grid left by `generateMaze` still has such a path
when none of the 75 noise draws lands on a cell of it. -/
theorem generateMaze_path_before_noise (fuel : Nat) (d : GenDraws) (maze : Grid)
    (r : Grid × Int × Int) (hwf : GridWF maze)
    (h : generatePath fuel d maze 10 0 10 14 = some r) :
    r.2 = (10, 14) ∧ hasPathToEnd r.1 10 10 0 = some true ∧
    generateMaze fuel d maze 10 0 10 14 = some (addNoise d 10 10 r.1) ∧
    ∀ p, IsPath r.1 (10, 0) (10, mazeHeight - 1) p →
      (∀ i, i < 75 →
        (((d.noiseX i % 20 : Nat) : Int), ((d.noiseY i % 15 : Nat) : Int)) ∉ p) →
      hasPathToEnd (addNoise d 10 10 r.1) 10 10 0 = some true := by
  have hwfr := generatePath_wf _ _ _ _ _ _ _ _ hwf h
  have hgen : generateMaze fuel d maze 10 0 10 14 = some (addNoise d 10 10 r.1) := by
    simp [generateMaze, h]
  unfold generatePath at h
  dsimp only at h
  have hwf0 := stampDiagonals_wf d _ (stampCenter_wf d _ (clearGrid_wf _ hwf))
  have hb0 : inBounds 10 0 := by unfold inBounds mazeWidth mazeHeight; omega
  have hopen0 : OpenCell (setCell (stampDiagonals d (stampCenter d (clearGrid maze))) 10 0 false)
      (10, 0) := ⟨hb0, getCell_setCell_same _ _ _ _ hwf0 hb0⟩
  have hmoves0 : possibleMoves
      (setCell (stampDiagonals d (stampCenter d (clearGrid maze))) 10 0 false) 10 0 ≠ [] := by
    apply List.ne_nil_of_mem (a := Direction.Down)
    unfold possibleMoves
    simp only [List.mem_append]
    refine Or.inl (Or.inr ?_)
    have hfree : getCell (setCell (stampDiagonals d (stampCenter d (clearGrid maze))) 10 0 false)
        10 (0 + 1) = false := by
      rw [getCell_setCell_ne _ _ _ _ _ _ (by omega)]
      exact stamped_below_entrance d maze
    rw [if_pos ⟨by unfold mazeHeight; omega, hfree⟩]
    exact List.mem_singleton.2 rfl
  obtain ⟨hend, hreach⟩ := carvePath_reaches d.pick (10, 0) 10 14 fuel 0 _ 10 0 r
    (setCell_wf _ _ _ _ hwf0) hopen0 (Reach.here hopen0) hmoves0 h
  have hreach' : Reach r.1 (10, mazeHeight - 1) (10, 0) := reach_symm hreach
  refine ⟨hend, (hasPathToEnd_iff_reach _ _ _ _ hwfr).2 hreach', hgen, ?_⟩
  intro p hp hmiss
  rw [hasPathToEnd_true_iff _ _ _ _ (addNoise_wf _ _ _ _ hwfr)]
  refine ⟨p, hp.1, hp.2.1, ?_, hp.2.2.2⟩
  intro c hc
  apply addNoise_keeps_open d 10 10 r.1 c _ (hp.2.2.1 c hc)
  intro i hi heq
  exact hmiss i hi (heq ▸ hc)
/-! ## The claims about the search -/

theorem not_pathToEnd_of_not_open (m : Grid) (e sx sy : Int) (h : ¬ OpenCell m (sx, sy)) :
    ¬ PathToEnd m e sx sy := by
  intro hp
  exact h (reach_open ((reach_iff_isPath m _ _).2 hp))

theorem not_pathToEnd_of_target_wall (m : Grid) (e sx sy : Int)
    (h : ¬ OpenCell m (e, mazeHeight - 1)) : ¬ PathToEnd m e sx sy := by
  intro hp
  exact h (reach_target_open ((reach_iff_isPath m _ _).2 hp))

/-- C4: on a 15x20 grid `hasPathToEnd(maze, sx, sy)` returns, and returns true exactly when
there is a sequence of cells, each in bounds and not a wall and each 4-adjacent to the previous
one, from `(sx, sy)` to `(endX, mazeHeight-1)`; it returns false when the start cell is outside
the grid or a wall, or when the target cell is a wall. -/
theorem hasPathToEnd_correct (maze : Grid) (endX sx sy : Int) (hwf : GridWF maze) :
    (hasPathToEnd maze endX sx sy = some true ↔
      ∃ p, IsPath maze (sx, sy) (endX, mazeHeight - 1) p) ∧
    (hasPathToEnd maze endX sx sy = some false ↔
      ¬ ∃ p, IsPath maze (sx, sy) (endX, mazeHeight - 1) p) ∧
    (¬ inBounds sx sy → hasPathToEnd maze endX sx sy = some false) ∧
    (getCell maze sx sy = true → hasPathToEnd maze endX sx sy = some false) ∧
    (getCell maze endX (mazeHeight - 1) = true →
      hasPathToEnd maze endX sx sy = some false) := by
  refine ⟨hasPathToEnd_true_iff maze endX sx sy hwf, hasPathToEnd_false_iff maze endX sx sy hwf,
    ?_, ?_, ?_⟩
  · intro h
    exact (hasPathToEnd_false_iff maze endX sx sy hwf).2
      (not_pathToEnd_of_not_open _ _ _ _ (fun ho => h ho.1))
  · intro h
    refine (hasPathToEnd_false_iff maze endX sx sy hwf).2
      (not_pathToEnd_of_not_open _ _ _ _ (fun ho => ?_))
    have h2 := ho.2
    simp only at h2
    rw [h] at h2
    cases h2
  · intro h
    refine (hasPathToEnd_false_iff maze endX sx sy hwf).2
      (not_pathToEnd_of_target_wall _ _ _ _ (fun ho => ?_))
    have h2 := ho.2
    simp only at h2
    rw [h] at h2
    cases h2

/-! ## Instances of the theorems on concrete states -/

set_option maxRecDepth 100000 in
theorem gameAt_entrance_path : hasPathToEnd openGrid 10 10 0 = some true := by decide

theorem wallFiring_keeps_path_witness :
    GridWF (gameAt 10 0).maze ∧
    hasPathToEnd (gameAt 10 0).maze (gameAt 10 0).endX (gameAt 10 0).car.cellX
      (gameAt 10 0).car.cellY = some true ∧
    ∃ g', wallFiring (gameAt 10 0) (fun _ _ => true) 250000000 = some g' ∧
      hasPathToEnd g'.maze g'.endX g'.car.cellX g'.car.cellY = some true :=
  ⟨openGrid_wf, gameAt_entrance_path,
    wallFiring_keeps_path (gameAt 10 0) (fun _ _ => true) 250000000 openGrid_wf
      gameAt_entrance_path⟩

theorem hasPathToEnd_correct_witness :
    GridWF openGrid ∧
    (hasPathToEnd openGrid 10 10 0 = some true ↔
      ∃ p, IsPath openGrid (10, 0) (10, mazeHeight - 1) p) :=
  ⟨openGrid_wf, (hasPathToEnd_correct openGrid 10 10 0 openGrid_wf).1⟩

theorem goalFiring_endX_witness :
    ∃ g', goalFiring (gameAt 10 0) 3 7 50000000 = some g' ∧
      (PathToEnd (gameAt 10 0).maze 7 (gameAt 10 0).car.cellX (gameAt 10 0).car.cellY →
        g'.endX = 7) ∧
      (¬ PathToEnd (gameAt 10 0).maze 7 (gameAt 10 0).car.cellX (gameAt 10 0).car.cellY →
        PathToEnd (gameAt 10 0).maze 3 (gameAt 10 0).car.cellX (gameAt 10 0).car.cellY →
        g'.endX = 3) ∧
      (¬ PathToEnd (gameAt 10 0).maze 7 (gameAt 10 0).car.cellX (gameAt 10 0).car.cellY →
        ¬ PathToEnd (gameAt 10 0).maze 3 (gameAt 10 0).car.cellX (gameAt 10 0).car.cellY →
        g'.endX = (gameAt 10 0).endX) ∧
      g'.maze = (gameAt 10 0).maze ∧ 0 ≤ g'.endX ∧ g'.endX < mazeWidth :=
  goalFiring_endX (gameAt 10 0) 3 7 50000000 openGrid_wf (by decide) (by decide) (by decide)

theorem moveCar_legal_witness :
    GridWF (gameAt 10 0).maze ∧
    ((moveCar (gameAt 10 0) Direction.Down 0).car.cellX,
      (moveCar (gameAt 10 0) Direction.Down 0).car.cellY) = (10, 1) ∧
    OpenCell (gameAt 10 0).maze (10, 1) :=
  have h := moveCar_legal (gameAt 10 0) Direction.Down 0 openGrid_wf (by decide) (by decide)
  ⟨openGrid_wf, by decide, (h.1 (by decide)).1⟩

theorem wallFiring_all_reverted_witness :
    GridWF (gameAt 10 (-1)).maze ∧
    ∃ g', wallFiring (gameAt 10 (-1)) (fun _ _ => true) 250000000 = some g' ∧
      g'.maze = (gameAt 10 (-1)).maze :=
  ⟨openGrid_wf,
    wallFiring_all_reverted (gameAt 10 (-1)) (fun _ _ => true) 250000000 openGrid_wf
      (fun _ _ _ _ _ => not_pathToEnd_of_not_open _ _ _ _ (fun ho => absurd ho.1 (by decide)))⟩

theorem wallFiring_protected_unchanged_witness :
    GridWF (gameAt 10 0).maze ∧
    ∃ g', wallFiring (gameAt 10 0) (fun _ _ => true) 250000000 = some g' ∧
      getCell g'.maze 10 7 = getCell (gameAt 10 0).maze 10 7 :=
  ⟨openGrid_wf, by
    obtain ⟨g', h, hp⟩ :=
      wallFiring_protected_unchanged (gameAt 10 0) (fun _ _ => true) 250000000 openGrid_wf
    exact ⟨g', h, hp 10 7 (by decide)⟩⟩

theorem moveCar_start_zone_witness :
    (moveCar (gameAt 10 (-1)) Direction.Down 5).car.cellX = 10 ∧
    (moveCar (gameAt 10 (-1)) Direction.Down 5).car.cellY = 0 ∧
    (moveCar (gameAt 10 (-1)) Direction.Down 5).hasStarted = true ∧
    (moveCar (gameAt 10 (-1)) Direction.Down 5).startTime = 5 :=
  have h := (moveCar_start_zone (gameAt 10 (-1)) Direction.Down 5 openGrid_wf (by decide)
    rfl rfl).2.1 ⟨rfl, by decide⟩
  ⟨h.1, h.2.1, h.2.2.1, h.2.2.2.1 rfl⟩

theorem exit_move_wins_witness :
    ∃ g', Update startedGame (tickAt 7 false downKey) = some g' ∧ g'.win = true ∧
      g'.finalTime = 4 ∧ g'.startTime = 3 ∧
      g'.car.cellX = g'.endX ∧ g'.car.cellY = mazeHeight := by
  obtain ⟨g', hU, hw, -, hf, hs, hx, hy⟩ :=
    exit_move_wins.2.1 startedGame (tickAt 7 false downKey) startedGame
      rfl rfl rfl rfl (by decide) rfl (by decide) (by decide) (by decide)
  have hs' : g'.startTime = 3 := hs
  refine ⟨g', hU, hw, ?_, hs', hx, hy⟩
  have h := hf (by rw [hs']; decide) (by rw [hs']; decide)
  rw [h, hs']
  rfl

/-! ## Where the specification and the code differ -/

set_option maxRecDepth 1000000 in
set_option maxHeartbeats 4000000 in
/-- C5 fails: with the draws `sealingDraws` the path loop walks straight down from `(10, 0)` to
`(10, 14)` and the noise walls then cover row 1, so the grid `generateMaze` leaves has no path
from `(10, 0)` to `(10, 14)`. -/
theorem generateMaze_noise_blocks :
    ((generateMaze 15 sealingDraws openGrid 10 0 10 14).bind fun m =>
      hasPathToEnd m 10 10 0) = some false := by decide

set_option maxRecDepth 1000000 in
set_option maxHeartbeats 4000000 in
/-- C2 fails: one tick after `NewGame` the car is in the start zone `(10, -1)`; a
goal-relocation firing with drawn columns 3 and 7 completes and `hasPathToEnd` from the car's
cell is false after it. -/
theorem start_zone_firing_no_path :
    ((NewGame 15 gentleDraws 0).bind fun g0 =>
      (Update g0 (tickAt 0 true noKeys)).bind fun g1 =>
      (goalFiring (cooldown g1) 3 7 1000000000).bind fun g2 =>
      hasPathToEnd g2.maze g2.endX g2.car.cellX g2.car.cellY) = some false := by decide
set_option maxRecDepth 1000000 in
set_option maxHeartbeats 4000000 in
theorem generatePath_gentle_eq :
    generatePath 15 gentleDraws openGrid 10 0 10 14 = some (openGrid, 10, 14) := by decide

theorem generateMaze_path_before_noise_witness :
    GridWF openGrid ∧
    generatePath 15 gentleDraws openGrid 10 0 10 14 = some (openGrid, 10, 14) ∧
    hasPathToEnd openGrid 10 10 0 = some true :=
  ⟨openGrid_wf, generatePath_gentle_eq,
    (generateMaze_path_before_noise 15 gentleDraws openGrid (openGrid, 10, 14) openGrid_wf
      generatePath_gentle_eq).2.1⟩

set_option maxRecDepth 1000000 in
set_option maxHeartbeats 4000000 in
theorem enteredGame_path :
    (enteredGame.bind fun g => carHasPath (cooldown g)) = some true := by decide

theorem enteredGame_reachable (g : Game) (h : enteredGame = some g) : Reachable g := by
  unfold enteredGame at h
  cases h0 : NewGame 15 gentleDraws 0 with
  | none => simp [h0] at h
  | some g0 =>
    rw [h0, Option.some_bind] at h
    cases h1 : Update g0 (tickAt 0 true noKeys) with
    | none => simp [h1] at h
    | some g1 =>
      rw [h1, Option.some_bind] at h
      exact Reachable.tick g1 _ g
        (Reachable.tick g0 _ g1 (Reachable.init _ _ _ g0 h0) (by decide) h1) (by decide) h

theorem firings_keep_path_witness :
    ∃ g, enteredGame = some g ∧ Reachable g ∧ (tickAt 1000000000 false noKeys).Valid ∧
      carHasPath (cooldown g) = some true ∧
      ∃ g1, goalFiring (cooldown g) 3 7 1000000000 = some g1 ∧
        hasPathToEnd g1.maze g1.endX g1.car.cellX g1.car.cellY = some true := by
  cases h : enteredGame with
  | none =>
    have := enteredGame_path
    rw [h] at this
    cases this
  | some g =>
    have hp : carHasPath (cooldown g) = some true := by
      have := enteredGame_path
      rw [h, Option.some_bind] at this
      exact this
    exact ⟨g, rfl, enteredGame_reachable g h, by decide, hp,
      (firings_keep_path g (tickAt 1000000000 false noKeys) (enteredGame_reachable g h)
        (by decide)).1 hp⟩

/-! ## The goal zone and the won state -/

/-- The cell `moveCar` leaves the car on when it starts in the start zone. -/
theorem moveCar_cell_start (g : Game) (dir : Direction) (now : Int) (hy : g.car.cellY = -1) :
    ((moveCar g dir now).car.cellX, (moveCar g dir now).car.cellY) =
      if (stepCell g.car.cellX g.car.cellY dir).2 = 0 ∧
          getCell g.maze (stepCell g.car.cellX g.car.cellY dir).1 0 = false
      then stepCell g.car.cellX g.car.cellY dir else (g.car.cellX, g.car.cellY) := by
  unfold moveCar placeCar
  cases dir <;> dsimp only [stepCell] <;> split_ifs <;> rfl

/-- The cell `moveCar` leaves the car on when the exit branch applies. -/
theorem moveCar_cell_exit (g : Game) (dir : Direction) (now : Int) (hy : g.car.cellY ≠ -1)
    (h : g.car.cellY = mazeHeight - 1 ∧ dir = Direction.Down ∧
      (stepCell g.car.cellX g.car.cellY dir).1 = g.endX) :
    ((moveCar g dir now).car.cellX, (moveCar g dir now).car.cellY) =
      stepCell g.car.cellX g.car.cellY dir := by
  revert h
  unfold moveCar placeCar
  cases dir <;> dsimp only [stepCell] <;> intro h <;> split_ifs <;>
    first | rfl | (exfalso; tauto)

/-- The cell `moveCar` leaves the car on when neither the start-zone branch nor the exit
branch applies. -/
theorem moveCar_cell_inside (g : Game) (dir : Direction) (now : Int) (hy : g.car.cellY ≠ -1)
    (h : ¬ (g.car.cellY = mazeHeight - 1 ∧ dir = Direction.Down ∧
      (stepCell g.car.cellX g.car.cellY dir).1 = g.endX)) :
    ((moveCar g dir now).car.cellX, (moveCar g dir now).car.cellY) =
      if inBounds (stepCell g.car.cellX g.car.cellY dir).1
            (stepCell g.car.cellX g.car.cellY dir).2 ∧
          getCell g.maze (stepCell g.car.cellX g.car.cellY dir).1
            (stepCell g.car.cellX g.car.cellY dir).2 = false
      then stepCell g.car.cellX g.car.cellY dir else (g.car.cellX, g.car.cellY) := by
  revert h
  unfold moveCar placeCar inBounds
  cases dir <;> dsimp only [stepCell] <;> intro h <;> split_ifs <;>
    first | rfl | (exfalso; tauto)

theorem moveCar_endX (g : Game) (dir : Direction) (now : Int) :
    (moveCar g dir now).endX = g.endX := by
  unfold moveCar placeCar
  dsimp only
  split_ifs <;> rfl

/-- With the car in the goal zone, `moveCar` in a direction other than `Up` leaves the car's
cell unchanged. -/
theorem moveCar_goal_zone_other (g : Game) (dir : Direction) (now : Int)
    (hy : g.car.cellY = mazeHeight) (hd : dir ≠ Direction.Up) :
    ((moveCar g dir now).car.cellX, (moveCar g dir now).car.cellY) =
      (g.car.cellX, g.car.cellY) := by
  have h1 : g.car.cellY ≠ -1 := by rw [hy]; decide
  have h2 : ¬ (g.car.cellY = mazeHeight - 1 ∧ dir = Direction.Down ∧
      (stepCell g.car.cellX g.car.cellY dir).1 = g.endX) := by
    rw [hy]; rintro ⟨h, -⟩; revert h; decide
  rw [moveCar_cell_inside g dir now h1 h2, hy, if_neg]
  rintro ⟨hb, -⟩
  unfold inBounds mazeHeight mazeWidth at hb
  cases dir
  · exact hd rfl
  all_goals (simp only [stepCell, mazeHeight] at hb; omega)

/-- A move in a direction other than `Down` does not put the car in the goal zone. -/
theorem moveCar_stays_out (g : Game) (dir : Direction) (now : Int)
    (hd : dir ≠ Direction.Down) (hy : g.car.cellY ≠ mazeHeight) :
    (moveCar g dir now).car.cellY ≠ mazeHeight := by
  intro hc
  by_cases hs : g.car.cellY = -1
  · have h := moveCar_cell_start g dir now hs
    split at h
    · rename_i hacc
      have h2 := (Prod.ext_iff.1 h).2
      simp only at h2
      rw [h2, hacc.1] at hc
      revert hc; decide
    · have h2 := (Prod.ext_iff.1 h).2
      simp only at h2
      exact hy (h2 ▸ hc)
  · have hexit : ¬ (g.car.cellY = mazeHeight - 1 ∧ dir = Direction.Down ∧
        (stepCell g.car.cellX g.car.cellY dir).1 = g.endX) := fun h => hd h.2.1
    have h := moveCar_cell_inside g dir now hs hexit
    split at h
    · rename_i hacc
      have h2 := (Prod.ext_iff.1 h).2
      simp only at h2
      have hb := hacc.1.2.2.2
      rw [← h2, hc] at hb
      exact absurd hb (lt_irrefl _)
    · have h2 := (Prod.ext_iff.1 h).2
      simp only at h2
      exact hy (h2 ▸ hc)

/-- A `Down` move that puts the car in the goal zone puts it on column `endX`. -/
theorem moveCar_down_enters (g : Game) (now : Int) (hy : g.car.cellY ≠ mazeHeight)
    (hc : (moveCar g Direction.Down now).car.cellY = mazeHeight) :
    (moveCar g Direction.Down now).car.cellX = g.endX := by
  by_cases hs : g.car.cellY = -1
  · exfalso
    have h := moveCar_cell_start g Direction.Down now hs
    split at h
    · rename_i hacc
      have h2 := (Prod.ext_iff.1 h).2
      simp only at h2
      rw [h2, hacc.1] at hc
      revert hc; decide
    · have h2 := (Prod.ext_iff.1 h).2
      simp only at h2
      exact hy (h2 ▸ hc)
  · by_cases hexit : g.car.cellY = mazeHeight - 1 ∧ Direction.Down = Direction.Down ∧
        (stepCell g.car.cellX g.car.cellY Direction.Down).1 = g.endX
    · have h := moveCar_cell_exit g Direction.Down now hs hexit
      have h1 := (Prod.ext_iff.1 h).1
      simp only at h1
      rw [h1]
      exact hexit.2.2
    · exfalso
      have h := moveCar_cell_inside g Direction.Down now hs hexit
      split at h
      · rename_i hacc
        have h2 := (Prod.ext_iff.1 h).2
        simp only at h2
        have hb := hacc.1.2.2.2
        rw [← h2, hc] at hb
        exact absurd hb (lt_irrefl _)
      · have h2 := (Prod.ext_iff.1 h).2
        simp only at h2
        exact hy (h2 ▸ hc)

theorem moveSlot_stays_out (fires : Bool) (dir : Direction) (now : Int) (g : Game)
    (hd : dir ≠ Direction.Down) (hy : g.car.cellY ≠ mazeHeight) :
    (moveSlot fires dir now g).car.cellY ≠ mazeHeight := by
  unfold moveSlot
  split
  · exact moveCar_stays_out g dir now hd hy
  · exact hy

theorem moveSlot_endX (fires : Bool) (dir : Direction) (now : Int) (g : Game) :
    (moveSlot fires dir now g).endX = g.endX := by
  unfold moveSlot
  split
  · exact moveCar_endX g dir now
  · rfl

theorem moveSlot_down_enters (fires : Bool) (now : Int) (g : Game)
    (hy : g.car.cellY ≠ mazeHeight)
    (hc : (moveSlot fires Direction.Down now g).car.cellY = mazeHeight) :
    (moveSlot fires Direction.Down now g).car.cellX =
      (moveSlot fires Direction.Down now g).endX := by
  rw [moveSlot_endX]
  unfold moveSlot at hc ⊢
  split
  · rename_i hf
    rw [if_pos hf] at hc
    exact moveCar_down_enters g now hy hc
  · rename_i hf
    rw [if_neg hf] at hc
    exact absurd hc hy

theorem beforeDown_stays_out (g : Game) (inp : TickInput) (hy : g.car.cellY ≠ mazeHeight) :
    (moveSlot (upFires g inp.keys) Direction.Up inp.moveNow g).car.cellY ≠ mazeHeight ∧
    (beforeDown g inp).car.cellY ≠ mazeHeight := by
  have h1 := moveSlot_stays_out (upFires g inp.keys) Direction.Up inp.moveNow g (by decide) hy
  exact ⟨h1, moveSlot_stays_out _ Direction.Right inp.moveNow _ (by decide) h1⟩

/-- After the four movement blocks of a tick that began with the car outside the goal zone, a
car in the goal zone is on column `endX`. -/
theorem movePhase_goal_zone (g : Game) (inp : TickInput) (hy : g.car.cellY ≠ mazeHeight)
    (hc : (movePhase g inp).car.cellY = mazeHeight) :
    (movePhase g inp).car.cellX = (movePhase g inp).endX := by
  unfold movePhase at hc ⊢
  split
  · rename_i ht
    rw [if_pos ht] at hc
    have hb := (beforeDown_stays_out g inp hy).2
    by_cases h3 : (moveSlot (downFires g inp.keys) Direction.Down inp.moveNow
        (beforeDown g inp)).car.cellY = mazeHeight
    · obtain ⟨l1, -, l3, -⟩ := moveSlot_left_goal_zone _ (leftFires g inp.keys) inp.moveNow h3
      rw [l1, l3]
      exact moveSlot_down_enters _ _ _ hb h3
    · exact absurd hc (moveSlot_stays_out _ Direction.Left inp.moveNow _ (by decide) h3)
  · rename_i ht
    rw [if_neg ht] at hc
    exact absurd hc hy

theorem cooldown_car (g : Game) : (cooldown g).car = g.car := by
  unfold cooldown; split <;> rfl

theorem goalPhase_car (g : Game) (inp : TickInput) (g1 : Game) (hwf : GridWF g.maze)
    (h : goalPhase g inp = some g1) : g1.car = g.car := by
  unfold goalPhase at h
  split at h
  · obtain ⟨g', h', -, hc, -⟩ := goalFiring_some g inp.c1 inp.c2 inp.now hwf
    rw [h', Option.some.injEq] at h
    subst h
    exact hc
  · rw [Option.some.injEq] at h; subst h; rfl

theorem wallPhase_car (g : Game) (inp : TickInput) (g1 : Game) (hwf : GridWF g.maze)
    (h : wallPhase g inp = some g1) : g1.car = g.car := by
  unfold wallPhase at h
  split at h
  · obtain ⟨g', h', -, hc⟩ := wallFiring_inv (fun s => s.car = g.car) inp.flips g inp.now
      (fun _ _ _ _ _ hp _ _ _ => hp) hwf rfl
    rw [h', Option.some.injEq] at h
    subst h
    exact hc
  · rw [Option.some.injEq] at h; subst h; rfl

/-- The two firings of a tick leave the car where it is. -/
theorem firings_car (g : Game) (inp : TickInput) (g2 : Game) (hwf : GridWF g.maze)
    (h : ((goalPhase (cooldown g) inp).bind fun g1 => wallPhase g1 inp) = some g2) :
    g2.car = g.car := by
  have hwfc : GridWF (cooldown g).maze := by rw [cooldown_maze]; exact hwf
  cases h1 : goalPhase (cooldown g) inp with
  | none => simp [h1] at h
  | some g1 =>
    rw [h1, Option.some_bind] at h
    rw [wallPhase_car g1 inp g2 (goalPhase_wf _ _ _ hwfc h1) h,
      goalPhase_car _ inp g1 hwfc h1, cooldown_car]

theorem Update_goal_zone (g : Game) (inp : TickInput) (g' : Game) (hwf : GridWF g.maze)
    (hinv : g.car.cellY = mazeHeight → g.win = true) (h : Update g inp = some g') :
    g'.car.cellY = mazeHeight → g'.win = true := by
  unfold Update at h
  split at h
  · rw [Option.some.injEq] at h; subst h; exact hinv
  · split at h
    · split at h <;> (rw [Option.some.injEq] at h; subst h; exact hinv)
    · split at h
      · rw [Option.some.injEq] at h; subst h; exact hinv
      · rename_i hover
        have hwin : g.win = false := by
          cases hw : g.win with
          | false => rfl
          | true => exact absurd (by simp [hw]) hover
        have hy : g.car.cellY ≠ mazeHeight := by
          intro hc
          rw [hinv hc] at hwin
          cases hwin
        unfold playTick at h
        cases h1 : goalPhase (cooldown g) inp with
        | none => simp [h1] at h
        | some g1 =>
          cases h2 : wallPhase g1 inp with
          | none => simp [h1, h2] at h
          | some g2 =>
            have hcar : g2.car = g.car := firings_car g inp g2 hwf (by rw [h1]; exact h2)
            rw [h1, Option.some_bind, h2, Option.some_bind, Option.some.injEq] at h
            subst h
            have hy2 : g2.car.cellY ≠ mazeHeight := by rw [hcar]; exact hy
            intro hc
            unfold winCheck at hc ⊢
            split
            · rfl
            · rename_i hn
              rw [if_neg hn] at hc
              exfalso
              apply hn
              have hc' : (movePhase g2 inp).car.cellY = mazeHeight := hc
              exact ⟨hc', movePhase_goal_zone g2 inp hy2 hc'⟩

theorem NewGame_start_zone (fuel : Nat) (d : GenDraws) (now : Int) (g : Game)
    (h : NewGame fuel d now = some g) : g.car.cellY = -1 := by
  unfold NewGame at h
  dsimp only at h
  cases hm : generateMaze fuel d
      (List.replicate mazeHeight.toNat (List.replicate mazeWidth.toNat false))
      (mazeWidth / 2) 0 (mazeWidth / 2) (mazeHeight - 1) with
  | none => simp [hm] at h
  | some m =>
    simp only [hm, Option.map_some', Option.some.injEq] at h
    subst h
    rfl

/-- In every reachable state with the car in the goal zone the game is won. -/
theorem reachable_goal_zone_won (g : Game) (h : Reachable g) :
    g.car.cellY = mazeHeight → g.win = true := by
  induction h with
  | init fuel d now g h =>
    intro hc
    rw [NewGame_start_zone fuel d now g h] at hc
    exact absurd hc (by decide)
  | tick g inp g' hr _ hu ih => exact Update_goal_zone g inp g' (reachable_wf g hr) ih hu

/-- C11: `moveCar` applies no move to a car in the goal zone. For `Right`, `Down` and `Left`
this holds in every state. In every tick `Update` runs from a reachable state that is not won,
the car is outside the goal zone when the `Up`, `Right` and `Down` blocks are reached, so of
the four calls of `moveCar` only the one of the `Left` block can find the car in the goal
zone; each of the four calls, made with the car in the goal zone, leaves the car's cell as it
was. -/
theorem goal_zone_no_move (g : Game) (inp : TickInput) (g2 : Game) (hreach : Reachable g)
    (hwin : g.win = false)
    (hfire : ((goalPhase (cooldown g) inp).bind fun g1 => wallPhase g1 inp) = some g2) :
    (∀ (s : Game) (dir : Direction) (now : Int), s.car.cellY = mazeHeight →
      dir ≠ Direction.Up →
      ((moveCar s dir now).car.cellX, (moveCar s dir now).car.cellY) =
        (s.car.cellX, s.car.cellY)) ∧
    g2.car.cellY ≠ mazeHeight ∧
    (moveSlot (upFires g2 inp.keys) Direction.Up inp.moveNow g2).car.cellY ≠ mazeHeight ∧
    (beforeDown g2 inp).car.cellY ≠ mazeHeight ∧
    (∀ (s : Game) (dir : Direction),
      (s, dir) ∈ [(g2, Direction.Up),
        (moveSlot (upFires g2 inp.keys) Direction.Up inp.moveNow g2, Direction.Right),
        (beforeDown g2 inp, Direction.Down),
        (moveSlot (downFires g2 inp.keys) Direction.Down inp.moveNow (beforeDown g2 inp),
          Direction.Left)] →
      s.car.cellY = mazeHeight →
      ((moveCar s dir inp.moveNow).car.cellX, (moveCar s dir inp.moveNow).car.cellY) =
        (s.car.cellX, s.car.cellY)) := by
  have hy : g.car.cellY ≠ mazeHeight := by
    intro hc
    rw [reachable_goal_zone_won g hreach hc] at hwin
    cases hwin
  have hy2 : g2.car.cellY ≠ mazeHeight := by
    rw [firings_car g inp g2 (reachable_wf g hreach) hfire]; exact hy
  obtain ⟨hup, hdown⟩ := beforeDown_stays_out g2 inp hy2
  refine ⟨fun s dir now hs hd => moveCar_goal_zone_other s dir now hs hd, hy2, hup, hdown, ?_⟩
  intro s dir hmem hs
  simp only [List.mem_cons, Prod.mk.injEq, List.mem_singleton, List.not_mem_nil,
    or_false] at hmem
  rcases hmem with ⟨rfl, -⟩ | ⟨rfl, -⟩ | ⟨rfl, -⟩ | ⟨-, rfl⟩
  · exact absurd hs hy2
  · exact absurd hs hup
  · exact absurd hs hdown
  · exact moveCar_goal_zone_other s Direction.Left inp.moveNow hs (by decide)

theorem reachable_runTicks (inps : List TickInput) :
    ∀ (g g' : Game), Reachable g → (∀ inp ∈ inps, inp.Valid) → runTicks g inps = some g' →
      Reachable g' := by
  induction inps with
  | nil =>
    intro g g' hr _ h
    simp only [runTicks, Option.some.injEq] at h
    subst h
    exact hr
  | cons inp rest ih =>
    intro g g' hr hv h
    rw [runTicks] at h
    cases h1 : Update g inp with
    | none => simp [h1] at h
    | some g1 =>
      rw [h1, Option.some_bind] at h
      exact ih g1 g' (Reachable.tick g inp g1 hr (hv inp (List.mem_cons_self _ _)) h1)
        (fun i hi => hv i (List.mem_cons_of_mem _ hi)) h

set_option maxRecDepth 100000 in
theorem aboveGoal_reachable (g : Game) (h : aboveGoal = some g) : Reachable g := by
  unfold aboveGoal at h
  cases h0 : NewGame 15 gentleDraws 0 with
  | none => simp [h0] at h
  | some g0 =>
    rw [h0, Option.some_bind] at h
    exact reachable_runTicks driveDown g0 g (Reachable.init _ _ _ g0 h0) (by decide) h

set_option maxRecDepth 1000000 in
set_option maxHeartbeats 4000000 in
theorem aboveGoal_exit_tick :
    (aboveGoal.bind fun g =>
      ((goalPhase (cooldown g) (tickAt 9 false downLeftKeys)).bind fun g1 =>
        wallPhase g1 (tickAt 9 false downLeftKeys)).map fun g2 =>
      (g.win,
        (moveSlot (downFires g2 downLeftKeys) Direction.Down 9
          (beforeDown g2 (tickAt 9 false downLeftKeys))).car.cellY,
        leftFires g2 downLeftKeys)) = some (false, 15, true) := by decide

theorem goal_zone_no_move_witness :
    ∃ g g2, aboveGoal = some g ∧ Reachable g ∧ g.win = false ∧
      ((goalPhase (cooldown g) (tickAt 9 false downLeftKeys)).bind fun g1 =>
        wallPhase g1 (tickAt 9 false downLeftKeys)) = some g2 ∧
      leftFires g2 downLeftKeys = true ∧
      (moveSlot (downFires g2 downLeftKeys) Direction.Down 9
        (beforeDown g2 (tickAt 9 false downLeftKeys))).car.cellY = mazeHeight ∧
      ((moveCar (moveSlot (downFires g2 downLeftKeys) Direction.Down 9
          (beforeDown g2 (tickAt 9 false downLeftKeys))) Direction.Left 9).car.cellX,
        (moveCar (moveSlot (downFires g2 downLeftKeys) Direction.Down 9
          (beforeDown g2 (tickAt 9 false downLeftKeys))) Direction.Left 9).car.cellY) =
        ((moveSlot (downFires g2 downLeftKeys) Direction.Down 9
          (beforeDown g2 (tickAt 9 false downLeftKeys))).car.cellX,
        (moveSlot (downFires g2 downLeftKeys) Direction.Down 9
          (beforeDown g2 (tickAt 9 false downLeftKeys))).car.cellY) := by
  have hev := aboveGoal_exit_tick
  cases hg : aboveGoal with
  | none => rw [hg] at hev; cases hev
  | some g =>
    rw [hg, Option.some_bind] at hev
    cases h2 : ((goalPhase (cooldown g) (tickAt 9 false downLeftKeys)).bind fun g1 =>
        wallPhase g1 (tickAt 9 false downLeftKeys)) with
    | none => rw [h2] at hev; cases hev
    | some g2 =>
      rw [h2, Option.map_some', Option.some.injEq, Prod.mk.injEq, Prod.mk.injEq] at hev
      obtain ⟨hwin, hy, hleft⟩ := hev
      have hr := aboveGoal_reachable g hg
      exact ⟨g, g2, rfl, hr, hwin, h2, hleft, hy,
        (goal_zone_no_move g (tickAt 9 false downLeftKeys) g2 hr hwin h2).2.2.2.2 _
          Direction.Left
          (List.mem_cons_of_mem _ (List.mem_cons_of_mem _ (List.mem_cons_of_mem _
            (List.mem_singleton.2 rfl)))) hy⟩

/-- C12: once `win` is true, every later sequence of `Update` ticks (any keys, timestamps and
draws) completes and leaves the car's cell, the grid, `endX`, `win` and `finalTime`
unchanged. -/
theorem won_is_terminal (g : Game) (inps : List TickInput) (hwin : g.win = true) :
    ∃ g', runTicks g inps = some g' ∧
      g'.car.cellX = g.car.cellX ∧ g'.car.cellY = g.car.cellY ∧ g'.maze = g.maze ∧
      g'.endX = g.endX ∧ g'.win = true ∧ g'.finalTime = g.finalTime := by
  induction inps generalizing g with
  | nil => exact ⟨g, rfl, rfl, rfl, rfl, rfl, hwin, rfl⟩
  | cons inp rest ih =>
    have hU : ∃ g1, Update g inp = some g1 ∧ g1.car = g.car ∧ g1.maze = g.maze ∧
        g1.endX = g.endX ∧ g1.win = true ∧ g1.finalTime = g.finalTime := by
      unfold Update
      split
      · exact ⟨g, rfl, rfl, rfl, rfl, hwin, rfl⟩
      · split
        · split
          · exact ⟨_, rfl, rfl, rfl, rfl, hwin, rfl⟩
          · exact ⟨g, rfl, rfl, rfl, rfl, hwin, rfl⟩
        · rw [if_pos (by simp [hwin])]
          exact ⟨g, rfl, rfl, rfl, rfl, hwin, rfl⟩
    obtain ⟨g1, h1, hc, hm, he, hw, hf⟩ := hU
    obtain ⟨g', h', a, b, c, d, e, f⟩ := ih g1 hw
    refine ⟨g', ?_, ?_, ?_, ?_, ?_, e, ?_⟩
    · rw [runTicks, h1, Option.some_bind]; exact h'
    · rw [a, hc]
    · rw [b, hc]
    · rw [c, hm]
    · rw [d, he]
    · rw [f, hf]

theorem won_is_terminal_witness :
    ({ gameAt 10 15 with win := true, finalTime := 7 } : Game).win = true ∧
    ∃ g', runTicks { gameAt 10 15 with win := true, finalTime := 7 }
        [tickAt 1000000000 false downKey, tickAt 2000000000 true noKeys] = some g' ∧
      g'.car.cellX = 10 ∧ g'.car.cellY = 15 ∧ g'.maze = openGrid ∧
      g'.endX = 10 ∧ g'.win = true ∧ g'.finalTime = 7 :=
  ⟨rfl, won_is_terminal { gameAt 10 15 with win := true, finalTime := 7 }
    [tickAt 1000000000 false downKey, tickAt 2000000000 true noKeys] rfl⟩
/-! ## Single flips, the start zone and the car's own cell -/

/-- C15: when a non-protected cell `(x, y)` is selected for a flip, the attempt completes and
ends with the cell flipped exactly when the grid with that one cell flipped still has a path
from the car's cell to `(endX, mazeHeight-1)`; otherwise the flip is reverted and the grid
after the attempt equals the grid before it. -/
theorem wallCell_flip_iff_path (g : Game) (flips : Int → Int → Bool) (x y : Int)
    (hwf : GridWF g.maze) (hb : inBounds x y) (hprot : isProtected g x y = false)
    (hflip : flips x y = true) :
    ∃ g', wallCell flips y x g = some g' ∧
      (getCell g'.maze x y = (!getCell g.maze x y) ↔
        PathToEnd (setCell g.maze x y (!getCell g.maze x y)) g.endX g.car.cellX g.car.cellY) ∧
      (PathToEnd (setCell g.maze x y (!getCell g.maze x y)) g.endX g.car.cellX g.car.cellY →
        g'.maze = setCell g.maze x y (!getCell g.maze x y)) ∧
      (¬ PathToEnd (setCell g.maze x y (!getCell g.maze x y)) g.endX g.car.cellX g.car.cellY →
        g'.maze = g.maze) := by
  have hwf' : GridWF (setCell g.maze x y (!getCell g.maze x y)) := setCell_wf _ _ _ _ hwf
  rw [wallCell_eq flips g x y hwf hb]
  simp only [← hasPathToEnd_true_iff _ _ _ _ hwf']
  by_cases hp : carHasPath (flipCell g x y) = some true
  · have hp' : hasPathToEnd (setCell g.maze x y (!getCell g.maze x y)) g.endX g.car.cellX
        g.car.cellY = some true := hp
    refine ⟨_, rfl, ?_⟩
    rw [if_pos ⟨hprot, hflip, hp⟩]
    refine ⟨⟨fun _ => hp', fun _ => ?_⟩, fun _ => rfl, fun h => absurd hp' h⟩
    exact getCell_setCell_same _ _ _ _ hwf hb
  · have hp' : ¬ hasPathToEnd (setCell g.maze x y (!getCell g.maze x y)) g.endX g.car.cellX
        g.car.cellY = some true := hp
    refine ⟨_, rfl, ?_⟩
    rw [if_neg (fun h => hp h.2.2)]
    refine ⟨⟨fun h => ?_, fun h => absurd h hp'⟩, fun h => absurd h hp', fun _ => rfl⟩
    cases hc : getCell g.maze x y <;> rw [hc] at h <;> cases h

theorem hasPathToEnd_start_zone (m : Grid) (e x y : Int) (hy : ¬ inBounds x y) :
    hasPathToEnd m e x y = some false := by
  unfold hasPathToEnd searchFuel
  rw [dfs, if_pos]
  · rfl
  · unfold inBounds at hy
    by_contra hc
    simp only [not_or, not_lt, ge_iff_le, not_le] at hc
    exact hy ⟨hc.1, hc.2.1, hc.2.2.1, hc.2.2.2.1⟩

/-- C17: while the car is in the start zone (`cellY = -1`), `hasPathToEnd` from
`(cellX, -1)` is false for every grid, so every wall-update firing completes and leaves the
grid unchanged and every goal-relocation firing completes and leaves `endX` unchanged. -/
theorem start_zone_freezes (g : Game) (hwf : GridWF g.maze) (hy : g.car.cellY = -1) :
    (∀ (m : Grid) (e : Int), hasPathToEnd m e g.car.cellX (-1) = some false) ∧
    (∀ (flips : Int → Int → Bool) (t : Int),
      ∃ g', wallFiring g flips t = some g' ∧ g'.maze = g.maze) ∧
    (∀ (c1 c2 t : Int), ∃ g', goalFiring g c1 c2 t = some g' ∧ g'.endX = g.endX) := by
  have hno : ∀ (m : Grid) (e x : Int), hasPathToEnd m e x (-1) = some false := by
    intro m e x
    apply hasPathToEnd_start_zone
    unfold inBounds
    omega
  refine ⟨fun m e => hno m e _, ?_, ?_⟩
  · intro flips t
    obtain ⟨g1, h1, -, hp1⟩ := wallFiring_inv (fun g1 => g1 = g) flips g t
      (by
        intro g1 x y _ _ heq _ _ hpath
        subst heq
        unfold carHasPath flipCell at hpath
        simp only at hpath
        rw [hy, hno] at hpath
        cases hpath)
      hwf rfl
    subst hp1
    exact ⟨_, h1, rfl⟩
  · intro c1 c2 t
    unfold goalFiring
    rw [goalAttempt_eq g c1 hwf, hy, hno, Option.some_bind, if_neg (by simp),
      goalAttempt_eq g c2 hwf, hy, hno, if_neg (by simp)]
    exact ⟨_, rfl, rfl⟩

theorem start_zone_freezes_witness :
    GridWF (gameAt 10 (-1)).maze ∧ (gameAt 10 (-1)).car.cellY = -1 ∧
    (∃ g', wallFiring (gameAt 10 (-1)) (fun _ _ => true) 250000000 = some g' ∧
      g'.maze = (gameAt 10 (-1)).maze) ∧
    (∃ g', goalFiring (gameAt 10 (-1)) 3 7 50000000 = some g' ∧
      g'.endX = (gameAt 10 (-1)).endX) :=
  ⟨openGrid_wf, rfl,
    (start_zone_freezes (gameAt 10 (-1)) openGrid_wf rfl).2.1 (fun _ _ => true) 250000000,
    (start_zone_freezes (gameAt 10 (-1)) openGrid_wf rfl).2.2 3 7 50000000⟩

theorem wallCell_flip_iff_path_witness :
    GridWF (gameAt 10 0).maze ∧ inBounds 5 10 ∧ isProtected (gameAt 10 0) 5 10 = false ∧
    ∃ g', wallCell (fun _ _ => true) 10 5 (gameAt 10 0) = some g' ∧
      (getCell g'.maze 5 10 = (!getCell (gameAt 10 0).maze 5 10) ↔
        PathToEnd (setCell (gameAt 10 0).maze 5 10 (!getCell (gameAt 10 0).maze 5 10))
          (gameAt 10 0).endX (gameAt 10 0).car.cellX (gameAt 10 0).car.cellY) :=
  ⟨openGrid_wf, by decide, by decide, by
    obtain ⟨g', h, hiff, -⟩ := wallCell_flip_iff_path (gameAt 10 0) (fun _ _ => true) 5 10
      openGrid_wf (by decide) (by decide) rfl
    exact ⟨g', h, hiff⟩⟩
/-- C19: if `hasPathToEnd` from the car's cell is true and `moveCar` leaves the car on a cell
inside the grid (moved or not), `hasPathToEnd` from the car's new cell to
`(endX, mazeHeight-1)` is true. -/
theorem moveCar_keeps_path (g : Game) (dir : Direction) (now : Int) (hwf : GridWF g.maze)
    (hpath : hasPathToEnd g.maze g.endX g.car.cellX g.car.cellY = some true)
    (hin : inBounds (moveCar g dir now).car.cellX (moveCar g dir now).car.cellY) :
    hasPathToEnd (moveCar g dir now).maze (moveCar g dir now).endX
      (moveCar g dir now).car.cellX (moveCar g dir now).car.cellY = some true := by
  rw [moveCar_maze, moveCar_endX]
  have hreach := (hasPathToEnd_iff_reach _ _ _ _ hwf).1 hpath
  have hopen := reach_open hreach
  have hy : g.car.cellY ≠ -1 := by
    have := hopen.1.2.2.1
    simp only at this
    omega
  have hcell : ∀ c : Int × Int,
      ((moveCar g dir now).car.cellX, (moveCar g dir now).car.cellY) = c →
      Reach g.maze (g.endX, mazeHeight - 1) c →
      hasPathToEnd g.maze g.endX (moveCar g dir now).car.cellX
        (moveCar g dir now).car.cellY = some true := by
    intro c hc hr
    rw [hasPathToEnd_iff_reach _ _ _ _ hwf, hc]
    exact hr
  by_cases hexit : g.car.cellY = mazeHeight - 1 ∧ dir = Direction.Down ∧
      (stepCell g.car.cellX g.car.cellY dir).1 = g.endX
  · exfalso
    have hc := moveCar_cell_exit g dir now hy hexit
    obtain ⟨h14, hd, -⟩ := hexit
    subst hd
    simp only [stepCell, Prod.mk.injEq] at hc
    have := hin.2.2.2
    rw [hc.2, h14] at this
    revert this
    decide
  · have hc := moveCar_cell_inside g dir now hy hexit
    split at hc
    · rename_i hacc
      exact hcell _ hc (Reach.step hacc (adj_stepCell _ _ dir) hreach)
    · exact hcell _ hc hreach

set_option maxRecDepth 100000 in
theorem moveCar_keeps_path_witness :
    GridWF (gameAt 10 0).maze ∧
    hasPathToEnd (gameAt 10 0).maze (gameAt 10 0).endX (gameAt 10 0).car.cellX
      (gameAt 10 0).car.cellY = some true ∧
    ((moveCar (gameAt 10 0) Direction.Down 0).car.cellX,
      (moveCar (gameAt 10 0) Direction.Down 0).car.cellY) = (10, 1) ∧
    hasPathToEnd (moveCar (gameAt 10 0) Direction.Down 0).maze
      (moveCar (gameAt 10 0) Direction.Down 0).endX
      (moveCar (gameAt 10 0) Direction.Down 0).car.cellX
      (moveCar (gameAt 10 0) Direction.Down 0).car.cellY = some true :=
  ⟨openGrid_wf, gameAt_entrance_path, by decide,
    moveCar_keeps_path (gameAt 10 0) Direction.Down 0 openGrid_wf gameAt_entrance_path
      (by decide)⟩

theorem carHasPath_flip_own_cell (g : Game) (hwf : GridWF g.maze)
    (hin : inBounds g.car.cellX g.car.cellY)
    (hopen : getCell g.maze g.car.cellX g.car.cellY = false) :
    carHasPath (flipCell g g.car.cellX g.car.cellY) = some false := by
  unfold carHasPath flipCell
  simp only
  rw [hasPathToEnd_false_iff _ _ _ _ (setCell_wf _ _ _ _ hwf)]
  apply not_pathToEnd_of_not_open
  rintro ⟨-, h⟩
  simp only at h
  rw [getCell_setCell_same _ _ _ _ hwf hin, hopen] at h
  cases h

/-- C20: with the car inside the grid on an open cell, a wall-update firing completes and the
car's cell is still open after it, whether or not a path to the goal existed; an attempt to
flip the car's own cell leaves the state as it was. -/
theorem wallFiring_car_cell_open (g : Game) (flips : Int → Int → Bool) (currentTime : Int)
    (hwf : GridWF g.maze) (hin : inBounds g.car.cellX g.car.cellY)
    (hopen : getCell g.maze g.car.cellX g.car.cellY = false) :
    (∃ g', wallFiring g flips currentTime = some g' ∧
      g'.car.cellX = g.car.cellX ∧ g'.car.cellY = g.car.cellY ∧
      getCell g'.maze g'.car.cellX g'.car.cellY = false) ∧
    wallCell flips g.car.cellY g.car.cellX g = some g := by
  constructor
  · obtain ⟨g1, h1, -, hc, ho⟩ := wallFiring_inv
      (fun g1 => g1.car = g.car ∧ getCell g1.maze g.car.cellX g.car.cellY = false)
      flips g currentTime
      (by
        intro g1 x y _ hwf1 hp _ _ hpath
        obtain ⟨hc, ho⟩ := hp
        refine ⟨hc, ?_⟩
        by_cases hxy : g.car.cellX = x ∧ g.car.cellY = y
        · exfalso
          obtain ⟨rfl, rfl⟩ := hxy
          have := carHasPath_flip_own_cell g1 hwf1 (by rw [hc]; exact hin) (by rw [hc]; exact ho)
          rw [hc, hpath] at this
          cases this
        · show getCell (setCell g1.maze x y _) g.car.cellX g.car.cellY = false
          rw [getCell_setCell_ne _ _ _ _ _ _ hxy]
          exact ho)
      hwf ⟨rfl, hopen⟩
    refine ⟨_, h1, ?_, ?_, ?_⟩
    · show g1.car.cellX = _
      rw [hc]
    · show g1.car.cellY = _
      rw [hc]
    · show getCell g1.maze g1.car.cellX g1.car.cellY = false
      rw [hc]; exact ho
  · rw [wallCell_eq flips g _ _ hwf hin, if_neg]
    rintro ⟨-, -, h⟩
    rw [carHasPath_flip_own_cell g hwf hin hopen] at h
    cases h

theorem wallFiring_car_cell_open_witness :
    GridWF (gameAt 5 10).maze ∧ inBounds (gameAt 5 10).car.cellX (gameAt 5 10).car.cellY ∧
    getCell (gameAt 5 10).maze (gameAt 5 10).car.cellX (gameAt 5 10).car.cellY = false ∧
    wallCell (fun _ _ => true) (gameAt 5 10).car.cellY (gameAt 5 10).car.cellX (gameAt 5 10) =
      some (gameAt 5 10) :=
  ⟨openGrid_wf, by decide, by decide,
    (wallFiring_car_cell_open (gameAt 5 10) (fun _ _ => true) 250000000 openGrid_wf
      (by decide) (by decide)).2⟩
/-! ## Maze generation: what the path loop and the noise leave -/

theorem setCell_getCell_self (m : Grid) (x y : Int) (b : Bool) (hwf : GridWF m)
    (hb : inBounds x y) (h : getCell m x y = b) : setCell m x y b = m := by
  apply grid_ext _ _ (setCell_wf _ _ _ _ hwf) hwf
  intro x' y' _
  by_cases hc : x' = x ∧ y' = y
  · obtain ⟨rfl, rfl⟩ := hc
    rw [getCell_setCell_same _ _ _ _ hwf hb, h]
  · exact getCell_setCell_ne _ _ _ _ _ _ hc

/-- The path loop returns the grid it was started on. -/
theorem carvePath_grid (pick : Nat → Nat) (ex ey : Int) :
    ∀ (fuel k : Nat) (m : Grid) (cx cy : Int) (r : Grid × Int × Int),
      GridWF m → inBounds cx cy → carvePath fuel pick k m cx cy ex ey = some r → r.1 = m := by
  intro fuel
  induction fuel with
  | zero => intro k m cx cy r _ _ h; simp [carvePath] at h
  | succ fuel ih =>
    intro k m cx cy r hwf hb h
    rw [carvePath] at h
    split at h
    · simp only [Option.some.injEq] at h; subst h; rfl
    · dsimp only at h
      split at h
      · simp only [Option.some.injEq] at h; subst h; rfl
      · rename_i hlen
        have hmem := getD_mod_mem (possibleMoves m cx cy) (pick k) Direction.Up hlen
        generalize (possibleMoves m cx cy).getD (pick k % (possibleMoves m cx cy).length)
          Direction.Up = mv at hmem h
        obtain ⟨hb', hfree⟩ := mem_possibleMoves hb hmem
        rw [setCell_getCell_self m _ _ false hwf hb' hfree] at h
        exact ih _ _ _ _ _ hwf hb' h

/-- The stamping steps of `generateMaze` leave column 10 open above and below the centre
block. -/
theorem stamped_column_open (d : GenDraws) (m : Grid) (y : Int) (hy : y < 5 ∨ 10 < y) :
    getCell (stampDiagonals d (stampCenter d (clearGrid m))) 10 y = false := by
  have h1 : getCell (stampCenter d (clearGrid m)) 10 y = false := by
    unfold stampCenter
    apply foldl_inv_mem (fun g => getCell g 10 y = false) _ _ _ _ (getCell_clearGrid m 10 y)
    intro a c hc ha
    split
    · rw [getCell_setCell_ne _ _ _ _ _ _ _]
      · exact ha
      · unfold centerCells at hc
        simp only [List.mem_flatMap, List.mem_map, List.mem_range] at hc
        obtain ⟨j, _, i, _, rfl⟩ := hc
        simp only [mazeHeight]
        omega
    · exact ha
  unfold stampDiagonals
  apply foldl_inv (fun g => getCell g 10 y = false) _ _ _ _ h1
  intro a i ha
  unfold stampDiagonal
  dsimp only
  have e1 : getCell (setCell (setCell a i i true) (i + 1) i true) 10 y = false := by
    rw [getCell_setCell_ne _ _ _ _ _ _ (by omega), getCell_setCell_ne _ _ _ _ _ _ (by omega)]
    exact ha
  have e2 : ∀ b : Grid, getCell b 10 y = false →
      getCell (setCell (setCell b (mazeWidth - 1 - i) i true) (mazeWidth - 2 - i) i true) 10 y
        = false := by
    intro b hb
    rw [getCell_setCell_ne _ _ _ _ _ _ (by unfold mazeWidth; omega),
      getCell_setCell_ne _ _ _ _ _ _ (by unfold mazeWidth; omega)]
    exact hb
  split <;> split
  · exact e2 _ e1
  · exact e2 _ ha
  · exact e1
  · exact ha

theorem generatePath_grid (fuel : Nat) (d : GenDraws) (maze : Grid) (r : Grid × Int × Int)
    (hwf : GridWF maze) (h : generatePath fuel d maze 10 0 10 14 = some r) :
    r.1 = stampDiagonals d (stampCenter d (clearGrid maze)) := by
  unfold generatePath at h
  dsimp only at h
  have hwf0 := stampDiagonals_wf d _ (stampCenter_wf d _ (clearGrid_wf _ hwf))
  have hb0 : inBounds 10 0 := by unfold inBounds mazeWidth mazeHeight; omega
  rw [setCell_getCell_self _ 10 0 false hwf0 hb0 (stamped_column_open d maze 0 (by omega))] at h
  exact carvePath_grid _ _ _ _ _ _ _ _ _ hwf0 hb0 h

/-- C18: the path-creating loop of `generateMaze(maze, 10, 0, 10, 14)` changes no cell: every
cell it steps onto is open already, so writing `false` there leaves the grid as it was, and the
grid when the loop ends equals the grid left by the centre-block and diagonal stamping. -/
theorem carvePath_changes_nothing (fuel : Nat) (d : GenDraws) (maze : Grid)
    (r : Grid × Int × Int) (hwf : GridWF maze)
    (h : generatePath fuel d maze 10 0 10 14 = some r) :
    r.1 = stampDiagonals d (stampCenter d (clearGrid maze)) ∧
    (∀ (m : Grid) (cx cy : Int) (mv : Direction), GridWF m → inBounds cx cy →
      mv ∈ possibleMoves m cx cy →
      getCell m (stepCell cx cy mv).1 (stepCell cx cy mv).2 = false ∧
      setCell m (stepCell cx cy mv).1 (stepCell cx cy mv).2 false = m) ∧
    (∀ x y, getCell (stampDiagonals d (stampCenter d (clearGrid maze))) x y = true →
      getCell r.1 x y = true) := by
  have hg := generatePath_grid fuel d maze r hwf h
  refine ⟨hg, ?_, ?_⟩
  · intro m cx cy mv hwfm hb hmem
    obtain ⟨hb', hfree⟩ := mem_possibleMoves hb hmem
    exact ⟨hfree, setCell_getCell_self m _ _ false hwfm hb' hfree⟩
  · intro x y hxy
    rw [hg]; exact hxy

theorem carvePath_changes_nothing_witness :
    GridWF openGrid ∧
    generatePath 15 gentleDraws openGrid 10 0 10 14 = some (openGrid, 10, 14) ∧
    (openGrid, (10 : Int), (14 : Int)).1 =
      stampDiagonals gentleDraws (stampCenter gentleDraws (clearGrid openGrid)) :=
  ⟨openGrid_wf, generatePath_gentle_eq,
    (carvePath_changes_nothing 15 gentleDraws openGrid (openGrid, 10, 14) openGrid_wf
      generatePath_gentle_eq).1⟩

theorem noiseStep_keeps_entrance (d : GenDraws) (sx ex : Int) (m : Grid) (i : Nat)
    (h : getCell m sx 0 = false) : getCell (noiseStep d sx ex m i) sx 0 = false := by
  unfold noiseStep
  dsimp only
  split
  · exact h
  · rename_i hn
    rw [getCell_setCell_ne _ _ _ _ _ _ _]
    · exact h
    · rintro ⟨h1, h2⟩
      exact hn (Or.inl ⟨h1.symm, h2.symm⟩)

theorem noiseStep_keeps_exit (d : GenDraws) (sx ex : Int) (m : Grid) (i : Nat)
    (h : getCell m ex (mazeHeight - 1) = false) :
    getCell (noiseStep d sx ex m i) ex (mazeHeight - 1) = false := by
  unfold noiseStep
  dsimp only
  split
  · exact h
  · rename_i hn
    rw [getCell_setCell_ne _ _ _ _ _ _ _]
    · exact h
    · rintro ⟨h1, h2⟩
      exact hn (Or.inr ⟨h1.symm, h2.symm⟩)

/-- C14: whenever `generateMaze(maze, 10, 0, 10, 14)` completes, the entrance cell `(10, 0)`
and the exit cell `(10, 14)` are open in the grid it leaves; they are open when the path loop
ends, and no noise step puts a wall on either of them. -/
theorem generateMaze_entrance_exit_open (fuel : Nat) (d : GenDraws) (maze m : Grid)
    (hwf : GridWF maze) (h : generateMaze fuel d maze 10 0 10 14 = some m) :
    getCell m 10 0 = false ∧ getCell m 10 14 = false ∧
    (∀ r, generatePath fuel d maze 10 0 10 14 = some r →
      getCell r.1 10 0 = false ∧ getCell r.1 10 14 = false) ∧
    (∀ (g : Grid) (i : Nat), getCell g 10 0 = false →
      getCell (noiseStep d 10 10 g i) 10 0 = false) ∧
    (∀ (g : Grid) (i : Nat), getCell g 10 14 = false →
      getCell (noiseStep d 10 10 g i) 10 14 = false) := by
  have hpre : ∀ r, generatePath fuel d maze 10 0 10 14 = some r →
      getCell r.1 10 0 = false ∧ getCell r.1 10 14 = false := by
    intro r hr
    rw [generatePath_grid fuel d maze r hwf hr]
    exact ⟨stamped_column_open d maze 0 (by omega), stamped_column_open d maze 14 (by omega)⟩
  unfold generateMaze at h
  cases hp : generatePath fuel d maze 10 0 10 14 with
  | none => simp [hp] at h
  | some r =>
    simp only [hp, Option.map_some', Option.some.injEq] at h
    subst h
    obtain ⟨h0, h14⟩ := hpre r hp
    refine ⟨?_, ?_, fun r' hr' => ?_, ?_, ?_⟩
    · unfold addNoise
      exact foldl_inv (fun g => getCell g 10 0 = false) _
        (fun a b ha => noiseStep_keeps_entrance d 10 10 a b ha) _ _ h0
    · unfold addNoise
      exact foldl_inv (fun g => getCell g 10 14 = false) _
        (fun a b ha => noiseStep_keeps_exit d 10 10 a b ha) _ _ h14
    · rw [Option.some.injEq] at hr'
      subst hr'
      exact ⟨h0, h14⟩
    · intro g i hg
      exact noiseStep_keeps_entrance d 10 10 g i hg
    · intro g i hg
      exact noiseStep_keeps_exit d 10 10 g i hg

set_option maxRecDepth 1000000 in
set_option maxHeartbeats 4000000 in
theorem generateMaze_sealing_some :
    (generateMaze 15 sealingDraws openGrid 10 0 10 14).isSome = true := by decide

theorem generateMaze_entrance_exit_open_witness :
    GridWF openGrid ∧
    ∃ m, generateMaze 15 sealingDraws openGrid 10 0 10 14 = some m ∧
      getCell m 10 0 = false ∧ getCell m 10 14 = false := by
  refine ⟨openGrid_wf, ?_⟩
  cases h : generateMaze 15 sealingDraws openGrid 10 0 10 14 with
  | none =>
    have := generateMaze_sealing_some
    rw [h] at this
    cases this
  | some m =>
    have hc := generateMaze_entrance_exit_open 15 sealingDraws openGrid m openGrid_wf h
    exact ⟨m, rfl, hc.1, hc.2.1⟩
/-! ## The search: number of calls -/

/-- Without its counters, `dfsCount` is `dfs`. -/
theorem dfsCount_eq_dfs (m : Grid) (e : Int) :
    ∀ (fuel : Nat) (v : Grid) (x y : Int),
      (dfsCount fuel m e v x y).map (fun r => (r.found, r.visited)) = dfs fuel m e v x y := by
  intro fuel
  induction fuel with
  | zero => intro v x y; rfl
  | succ fuel ih =>
    intro v x y
    rw [dfsCount, dfs]
    split
    · rfl
    · split
      · rfl
      · rw [← ih (setCell v x y true) (x + 1) y]
        cases dfsCount fuel m e (setCell v x y true) (x + 1) y with
        | none => rfl
        | some r1 =>
          simp only [Option.some_bind, Option.map_some']
          cases h1 : r1.found with
          | true => simp [h1]
          | false =>
            simp only [Bool.false_eq_true, if_false]
            rw [← ih r1.visited (x - 1) y]
            cases dfsCount fuel m e r1.visited (x - 1) y with
            | none => rfl
            | some r2 =>
              simp only [Option.some_bind, Option.map_some']
              cases h2 : r2.found with
              | true => simp [h2]
              | false =>
                simp only [Bool.false_eq_true, if_false]
                rw [← ih r2.visited x (y + 1)]
                cases dfsCount fuel m e r2.visited x (y + 1) with
                | none => rfl
                | some r3 =>
                  simp only [Option.some_bind, Option.map_some']
                  cases h3 : r3.found with
                  | true => simp [h3]
                  | false =>
                    simp only [Bool.false_eq_true, if_false]
                    rw [← ih r3.visited x (y - 1)]
                    cases dfsCount fuel m e r3.visited x (y - 1) with
                    | none => rfl
                    | some r4 => rfl

theorem card_unmarked_setCell_eq (v : Grid) (x y : Int) (hwf : GridWF v) (hb : inBounds x y)
    (hv : getCell v x y = false) :
    (unmarked (setCell v x y true)).card + 1 = (unmarked v).card := by
  have hmem : (x, y) ∈ unmarked v := by
    simp only [unmarked, Finset.mem_filter, allCells, Finset.mem_product, Finset.mem_Ico]
    exact ⟨⟨⟨hb.1, hb.2.1⟩, ⟨hb.2.2.1, hb.2.2.2⟩⟩, hv⟩
  have heq : unmarked (setCell v x y true) = (unmarked v).erase (x, y) := by
    ext c
    simp only [unmarked, Finset.mem_filter, Finset.mem_erase]
    by_cases hc : c.1 = x ∧ c.2 = y
    · obtain ⟨cx, cy⟩ := c
      simp only at hc
      obtain ⟨rfl, rfl⟩ := hc
      rw [getCell_setCell_same _ _ _ _ hwf hb]
      simp
    · rw [getCell_setCell_ne _ _ _ _ _ _ hc]
      have hne : c ≠ (x, y) := fun h => hc ⟨by rw [h], by rw [h]⟩
      simp [hne]
  rw [heq, Finset.card_erase_of_mem hmem]
  have := Finset.card_pos.2 ⟨_, hmem⟩
  omega

/-- The counters of a run: at most four calls for each marking call besides the first call,
and every marking call takes one cell out of the unmarked ones. -/
theorem dfsCount_bounds (m : Grid) (e : Int) :
    ∀ (fuel : Nat) (v : Grid) (x y : Int) (r : SearchRun), GridWF v →
      dfsCount fuel m e v x y = some r →
      GridWF r.visited ∧ r.calls ≤ 1 + 4 * r.marks ∧
      r.marks + (unmarked r.visited).card = (unmarked v).card := by
  intro fuel
  induction fuel with
  | zero => intro v x y r _ h; simp [dfsCount] at h
  | succ fuel ih =>
    intro v x y r hwf h
    rw [dfsCount] at h
    split at h
    · simp only [Option.some.injEq] at h
      subst h
      exact ⟨hwf, by simp, by simp⟩
    · rename_i hg
      simp only [not_or, not_lt, ge_iff_le, not_le, Bool.not_eq_true] at hg
      obtain ⟨a, b, c, d, hv, _⟩ := hg
      split at h
      · simp only [Option.some.injEq] at h
        subst h
        exact ⟨hwf, by simp, by simp⟩
      · have hcard := card_unmarked_setCell_eq v x y hwf ⟨a, b, c, d⟩ hv
        have hwf0 : GridWF (setCell v x y true) := setCell_wf _ _ _ _ hwf
        cases h1 : dfsCount fuel m e (setCell v x y true) (x + 1) y with
        | none => simp [h1] at h
        | some r1 =>
          obtain ⟨w1, c1, k1⟩ := ih _ _ _ _ hwf0 h1
          simp only [h1, Option.some_bind] at h
          split at h
          · simp only [Option.some.injEq] at h
            subst h
            exact ⟨w1, by simp only; omega, by simp only; omega⟩
          · cases h2 : dfsCount fuel m e r1.visited (x - 1) y with
            | none => simp [h2] at h
            | some r2 =>
              obtain ⟨w2, c2, k2⟩ := ih _ _ _ _ w1 h2
              simp only [h2, Option.some_bind] at h
              split at h
              · simp only [Option.some.injEq] at h
                subst h
                exact ⟨w2, by simp only; omega, by simp only; omega⟩
              · cases h3 : dfsCount fuel m e r2.visited x (y + 1) with
                | none => simp [h3] at h
                | some r3 =>
                  obtain ⟨w3, c3, k3⟩ := ih _ _ _ _ w2 h3
                  simp only [h3, Option.some_bind] at h
                  split at h
                  · simp only [Option.some.injEq] at h
                    subst h
                    exact ⟨w3, by simp only; omega, by simp only; omega⟩
                  · cases h4 : dfsCount fuel m e r3.visited x (y - 1) with
                    | none => simp [h4] at h
                    | some r4 =>
                      obtain ⟨w4, c4, k4⟩ := ih _ _ _ _ w3 h4
                      simp only [h4, Option.map_some', Option.some.injEq] at h
                      subst h
                      exact ⟨w4, by simp only; omega, by simp only; omega⟩

theorem unmarked_newVisited (m : Grid) : unmarked (newVisited m) = allCells := by
  unfold unmarked
  apply Finset.filter_true_of_mem
  intro c _
  exact getCell_newVisited m c.1 c.2

/-- C16: on a 15x20 grid the search of `hasPathToEnd` returns; every call that goes on to
recurse marks a cell that was not marked, so the number of such calls equals the number of
cells marked at the end, each call besides the first is one of the four calls of a marking
call, and the number of calls is at most `1 + 4 * mazeWidth * mazeHeight`. -/
theorem hasPathToEnd_call_bound (maze : Grid) (endX sx sy : Int) (hwf : GridWF maze) :
    ∃ r, dfsCount searchFuel maze endX (newVisited maze) sx sy = some r ∧
      hasPathToEnd maze endX sx sy = some r.found ∧
      r.marks = (allCells.filter fun c => getCell r.visited c.1 c.2 = true).card ∧
      r.marks ≤ (mazeWidth * mazeHeight).toNat ∧
      r.calls ≤ 1 + 4 * r.marks ∧
      r.calls ≤ 1 + 4 * (mazeWidth * mazeHeight).toNat := by
  obtain ⟨b, hb⟩ := hasPathToEnd_returns maze endX sx sy hwf
  have hmap := dfsCount_eq_dfs maze endX searchFuel (newVisited maze) sx sy
  cases hr : dfsCount searchFuel maze endX (newVisited maze) sx sy with
  | none =>
    rw [hr] at hmap
    unfold hasPathToEnd at hb
    rw [← hmap] at hb
    cases hb
  | some r =>
    rw [hr] at hmap
    obtain ⟨-, hcalls, hmarks⟩ := dfsCount_bounds maze endX _ _ _ _ r (newVisited_wf maze hwf) hr
    rw [unmarked_newVisited, card_allCells] at hmarks
    have hsplit := Finset.filter_card_add_filter_neg_card_eq_card (s := allCells)
      (fun c => getCell r.visited c.1 c.2 = true)
    have hneg : (allCells.filter fun c => ¬ getCell r.visited c.1 c.2 = true) =
        unmarked r.visited := by
      unfold unmarked
      apply Finset.filter_congr
      intro c _
      simp
    rw [hneg, card_allCells] at hsplit
    have h300 : (mazeWidth * mazeHeight).toNat = 300 := by decide
    refine ⟨r, rfl, ?_, by omega, by omega, hcalls, by omega⟩
    unfold hasPathToEnd
    rw [← hmap]
    rfl

theorem hasPathToEnd_call_bound_witness :
    GridWF openGrid ∧
    ∃ r, dfsCount searchFuel openGrid 10 (newVisited openGrid) 10 0 = some r ∧
      hasPathToEnd openGrid 10 10 0 = some r.found ∧
      r.calls ≤ 1 + 4 * (mazeWidth * mazeHeight).toNat := by
  obtain ⟨r, h1, h2, -, -, -, h3⟩ := hasPathToEnd_call_bound openGrid 10 10 0 openGrid_wf
  exact ⟨openGrid_wf, r, h1, h2, h3⟩
/-! ## The two timers -/

theorem moveCar_timers (g : Game) (dir : Direction) (now : Int) :
    (moveCar g dir now).lastMazeUpdate = g.lastMazeUpdate ∧
    (moveCar g dir now).lastWallUpdate = g.lastWallUpdate := by
  unfold moveCar placeCar
  dsimp only
  split_ifs <;> exact ⟨rfl, rfl⟩

theorem moveSlot_timers (fires : Bool) (dir : Direction) (now : Int) (g : Game) :
    (moveSlot fires dir now g).lastMazeUpdate = g.lastMazeUpdate ∧
    (moveSlot fires dir now g).lastWallUpdate = g.lastWallUpdate := by
  unfold moveSlot
  split
  · exact moveCar_timers g dir now
  · exact ⟨rfl, rfl⟩

theorem movePhase_timers (g : Game) (inp : TickInput) :
    (movePhase g inp).lastMazeUpdate = g.lastMazeUpdate ∧
    (movePhase g inp).lastWallUpdate = g.lastWallUpdate := by
  unfold movePhase beforeDown
  split
  · simp only [moveSlot_timers, and_self]
  · exact ⟨rfl, rfl⟩

theorem winCheck_timers (g : Game) (t : Int) :
    (winCheck g t).lastMazeUpdate = g.lastMazeUpdate ∧
    (winCheck g t).lastWallUpdate = g.lastWallUpdate := by
  unfold winCheck
  split <;> exact ⟨rfl, rfl⟩

theorem cooldown_timers (g : Game) :
    (cooldown g).lastMazeUpdate = g.lastMazeUpdate ∧
    (cooldown g).lastWallUpdate = g.lastWallUpdate := by
  unfold cooldown
  split <;> exact ⟨rfl, rfl⟩

/-- A goal-relocation firing sets its own timestamp and leaves the other one. -/
theorem goalFiring_timers (g : Game) (c1 c2 t : Int) (hwf : GridWF g.maze) :
    ∃ g', goalFiring g c1 c2 t = some g' ∧ g'.maze = g.maze ∧
      g'.lastMazeUpdate = t ∧ g'.lastWallUpdate = g.lastWallUpdate := by
  unfold goalFiring
  rw [goalAttempt_eq g c1 hwf, Option.some_bind]
  split
  · rw [goalAttempt_eq { g with endX := c1 } c2 hwf]
    split <;> exact ⟨_, rfl, rfl, rfl, rfl⟩
  · rw [goalAttempt_eq g c2 hwf]
    split <;> exact ⟨_, rfl, rfl, rfl, rfl⟩

/-- A wall-update firing sets its own timestamp and leaves the other one. -/
theorem wallFiring_timers (g : Game) (flips : Int → Int → Bool) (t : Int)
    (hwf : GridWF g.maze) :
    ∃ g', wallFiring g flips t = some g' ∧ GridWF g'.maze ∧
      g'.lastWallUpdate = t ∧ g'.lastMazeUpdate = g.lastMazeUpdate := by
  obtain ⟨g1, h1, hwf1, hp1⟩ := wallFiring_inv
    (fun g1 => g1.lastMazeUpdate = g.lastMazeUpdate) flips g t
    (fun _ _ _ _ _ hp _ _ _ => hp) hwf rfl
  exact ⟨_, h1, hwf1, rfl, hp1⟩

/-- What one call of `Update` does to the two timestamps. -/
theorem Update_timers (g : Game) (inp : TickInput) (hwf : GridWF g.maze) :
    ∃ g1 wf, Update g inp = some g1 ∧ wallFires g inp = some wf ∧ GridWF g1.maze ∧
      g1.lastMazeUpdate = (if goalFires g inp = true then inp.now else g.lastMazeUpdate) ∧
      g1.lastWallUpdate = (if wf = true then inp.now else g.lastWallUpdate) ∧
      (goalFires g inp = true → mazeUpdateInterval ≤ inp.now - g.lastMazeUpdate) ∧
      (wf = true → wallUpdateInterval ≤ inp.now - g.lastWallUpdate) := by
  by_cases hplay : inPlay g inp = true
  · have hp := hplay
    unfold inPlay at hp
    simp only [Bool.and_eq_true, Bool.not_eq_true', Bool.or_eq_false_iff] at hp
    obtain ⟨⟨hesc, htitle⟩, hover, hwin⟩ := hp
    have hU : Update g inp = playTick g inp := by
      simp [Update, hesc, htitle, hover, hwin]
    have hwfc : GridWF (cooldown g).maze := by rw [cooldown_maze]; exact hwf
    obtain ⟨cm, cw⟩ := cooldown_timers g
    -- the goal block
    have hgoal : ∃ g1, goalPhase (cooldown g) inp = some g1 ∧ GridWF g1.maze ∧
        g1.lastMazeUpdate = (if goalFires g inp = true then inp.now else g.lastMazeUpdate) ∧
        g1.lastWallUpdate = g.lastWallUpdate := by
      unfold goalPhase
      by_cases hf : timeSub inp.now (cooldown g).lastMazeUpdate ≥ mazeUpdateInterval
      · obtain ⟨g1, h1, hm, ht, hw⟩ := goalFiring_timers (cooldown g) inp.c1 inp.c2 inp.now hwfc
        rw [if_pos hf]
        refine ⟨g1, h1, by rw [hm]; exact hwfc, ?_, by rw [hw, cw]⟩
        rw [ht, if_pos]
        simp [goalFires, hplay, hf]
      · rw [if_neg hf]
        refine ⟨_, rfl, hwfc, ?_, cw⟩
        rw [cm, if_neg]
        simp [goalFires, hf]
    obtain ⟨g1, h1, hwf1, hm1, hw1⟩ := hgoal
    have hwfires : wallFires g inp =
        some (decide (timeSub inp.now g1.lastWallUpdate ≥ wallUpdateInterval)) := by
      simp [wallFires, hplay, h1]
    -- the wall block
    have hwall : ∃ g2, wallPhase g1 inp = some g2 ∧ GridWF g2.maze ∧
        g2.lastMazeUpdate = g1.lastMazeUpdate ∧
        g2.lastWallUpdate =
          (if decide (timeSub inp.now g1.lastWallUpdate ≥ wallUpdateInterval) = true then
              inp.now
            else g1.lastWallUpdate) := by
      unfold wallPhase
      by_cases hf : timeSub inp.now g1.lastWallUpdate ≥ wallUpdateInterval
      · obtain ⟨g2, h2, hwf2, ht, hm⟩ := wallFiring_timers g1 inp.flips inp.now hwf1
        rw [if_pos hf]
        refine ⟨g2, h2, hwf2, hm, ?_⟩
        rw [ht, if_pos (by simp [hf])]
      · rw [if_neg hf]
        refine ⟨_, rfl, hwf1, rfl, ?_⟩
        rw [if_neg (by simp [hf])]
    obtain ⟨g2, h2, hwf2, hm2, hw2⟩ := hwall
    refine ⟨winCheck (recordKeys (movePhase g2 inp) inp.keys) inp.endNow, _, ?_, hwfires,
      ?_, ?_, ?_, ?_, ?_⟩
    · rw [hU, playTick, h1, Option.some_bind, h2, Option.some_bind]
    · rw [winCheck_maze]
      show GridWF (movePhase g2 inp).maze
      rw [movePhase_maze]; exact hwf2
    · rw [(winCheck_timers _ _).1]
      show (movePhase g2 inp).lastMazeUpdate = _
      rw [(movePhase_timers _ _).1, hm2, hm1]
    · rw [(winCheck_timers _ _).2]
      show (movePhase g2 inp).lastWallUpdate = _
      rw [(movePhase_timers _ _).2, hw2, hw1]
    · intro hf
      simp only [goalFires, Bool.and_eq_true, decide_eq_true_eq] at hf
      rw [← cm]
      exact (timeSub_ge_iff _ _ _ (by decide) (by decide)).1 hf.2
    · intro hf
      simp only [decide_eq_true_eq] at hf
      rw [← hw1]
      exact (timeSub_ge_iff _ _ _ (by decide) (by decide)).1 hf
  · have hgf : goalFires g inp = false := by
      simp only [Bool.not_eq_true] at hplay
      simp [goalFires, hplay]
    have hwfires : wallFires g inp = some false := by
      simp only [Bool.not_eq_true] at hplay
      simp [wallFires, hplay]
    have hU : ∃ g1, Update g inp = some g1 ∧ g1.maze = g.maze ∧
        g1.lastMazeUpdate = g.lastMazeUpdate ∧ g1.lastWallUpdate = g.lastWallUpdate := by
      unfold Update
      split
      · exact ⟨g, rfl, rfl, rfl, rfl⟩
      · rename_i hesc
        split
        · split <;> exact ⟨_, rfl, rfl, rfl, rfl⟩
        · rename_i htitle
          split
          · exact ⟨g, rfl, rfl, rfl, rfl⟩
          · rename_i hover
            exfalso
            apply hplay
            simp only [Bool.not_eq_true] at hesc htitle hover
            simp [inPlay, hesc, htitle, hover]
    obtain ⟨g1, h1, hm, hlm, hlw⟩ := hU
    refine ⟨g1, false, h1, hwfires, by rw [hm]; exact hwf, ?_, ?_, ?_, ?_⟩
    · rw [hlm, hgf]; simp
    · rw [hlw]; simp
    · intro h; rw [hgf] at h; cases h
    · intro h; cases h
theorem countFirings_bounds :
    ∀ (inps : List TickInput) (g : Game), GridWF g.maze →
      (inps.map fun inp => inp.now).Pairwise (· ≤ ·) →
      (∀ inp ∈ inps, g.lastMazeUpdate ≤ inp.now ∧ g.lastWallUpdate ≤ inp.now) →
      ∃ a b, countFirings g inps = some (a, b) ∧ a ≤ inps.length ∧ b ≤ inps.length ∧
        ∀ tlast, (inps.map fun inp => inp.now).getLast? = some tlast →
          (a : Int) * mazeUpdateInterval ≤ tlast - g.lastMazeUpdate ∧
          (b : Int) * wallUpdateInterval ≤ tlast - g.lastWallUpdate := by
  intro inps
  induction inps with
  | nil =>
    intro g _ _ _
    exact ⟨0, 0, rfl, Nat.le_refl _, Nat.le_refl _, by intro t h; simp at h⟩
  | cons inp rest ih =>
    intro g hwf hsorted hstart
    obtain ⟨g1, wf, hU, hW, hwf1, hm1, hw1, hgf, hwff⟩ := Update_timers g inp hwf
    rw [List.map_cons, List.pairwise_cons] at hsorted
    obtain ⟨hhead, hrest⟩ := hsorted
    have hnow := hstart inp (List.mem_cons_self _ _)
    have hstart1 : ∀ inp' ∈ rest, g1.lastMazeUpdate ≤ inp'.now ∧ g1.lastWallUpdate ≤ inp'.now := by
      intro inp' hmem
      have h' := hstart inp' (List.mem_cons_of_mem _ hmem)
      have hle : inp.now ≤ inp'.now := hhead _ (List.mem_map.2 ⟨inp', hmem, rfl⟩)
      rw [hm1, hw1]
      constructor
      · split
        · exact hle
        · exact h'.1
      · split
        · exact hle
        · exact h'.2
    obtain ⟨a', b', hc, ha', hb', hbound⟩ := ih g1 hwf1 hrest hstart1
    refine ⟨a' + (if goalFires g inp = true then 1 else 0), b' + (if wf = true then 1 else 0),
      ?_, ?_, ?_, ?_⟩
    · rw [countFirings, hW, Option.some_bind, hU, Option.some_bind, hc]
      rfl
    · rw [List.length_cons]; split <;> omega
    · rw [List.length_cons]; split <;> omega
    · intro tlast hlast
      have hI : mazeUpdateInterval = 50000000 := rfl
      have hJ : wallUpdateInterval = 250000000 := rfl
      rw [hI, hJ]
      rw [hI] at hgf
      rw [hJ] at hwff
      cases rest with
      | nil =>
        simp only [List.map_cons, List.map_nil, List.getLast?_singleton,
          Option.some.injEq] at hlast
        subst hlast
        simp only [List.length_nil, Nat.le_zero_eq] at ha' hb'
        subst ha' hb'
        constructor
        · split
          · rename_i h; have := hgf h; push_cast; omega
          · push_cast; omega
        · split
          · rename_i h; have := hwff h; push_cast; omega
          · push_cast; omega
      | cons inp2 rest2 =>
        rw [List.map_cons, List.map_cons, List.getLast?_cons_cons, ← List.map_cons] at hlast
        obtain ⟨hA, hB⟩ := hbound tlast hlast
        rw [hI] at hA
        rw [hJ] at hB
        rw [hm1] at hA
        rw [hw1] at hB
        constructor
        · split
          · rename_i h
            rw [if_pos h] at hA
            have := hgf h
            push_cast; omega
          · rename_i h
            rw [if_neg h] at hA
            push_cast; omega
        · split
          · rename_i h
            rw [if_pos h] at hB
            have := hwff h
            push_cast; omega
          · rename_i h
            rw [if_neg h] at hB
            push_cast; omega

/-- C13 as the code has it: over successive `Update` ticks with non-decreasing timestamps that
are not before the two timers' values, each timer fires at most once in a tick, and the number
of goal-relocation firings is at most `elapsed / mazeUpdateInterval` and the number of
wall-update firings at most `elapsed / wallUpdateInterval`, where `elapsed` is the time from
the timer's initial value to the last tick; a firing of one timer does not change the other
timer's last-fired timestamp. -/
theorem firing_counts_bounded (g : Game) (inps : List TickInput) (hwf : GridWF g.maze)
    (hsorted : (inps.map fun inp => inp.now).Pairwise (· ≤ ·))
    (hstart : ∀ inp ∈ inps, g.lastMazeUpdate ≤ inp.now ∧ g.lastWallUpdate ≤ inp.now) :
    ∃ a b, countFirings g inps = some (a, b) ∧ a ≤ inps.length ∧ b ≤ inps.length ∧
      (∀ tlast, (inps.map fun inp => inp.now).getLast? = some tlast →
        (a : Int) ≤ (tlast - g.lastMazeUpdate) / mazeUpdateInterval ∧
        (b : Int) ≤ (tlast - g.lastWallUpdate) / wallUpdateInterval) ∧
      (∀ c1 c2 t g1, goalFiring g c1 c2 t = some g1 →
        g1.lastWallUpdate = g.lastWallUpdate) ∧
      (∀ flips t g1, wallFiring g flips t = some g1 →
        g1.lastMazeUpdate = g.lastMazeUpdate) := by
  obtain ⟨a, b, hc, ha, hb, hbound⟩ := countFirings_bounds inps g hwf hsorted hstart
  refine ⟨a, b, hc, ha, hb, ?_, ?_, ?_⟩
  · intro tlast hlast
    obtain ⟨hA, hB⟩ := hbound tlast hlast
    exact ⟨(Int.le_ediv_iff_mul_le (by decide)).2 hA, (Int.le_ediv_iff_mul_le (by decide)).2 hB⟩
  · intro c1 c2 t g1 h1
    obtain ⟨g', h', -, -, hw⟩ := goalFiring_timers g c1 c2 t hwf
    rw [h1, Option.some.injEq] at h'
    subst h'
    exact hw
  · intro flips t g1 h1
    obtain ⟨g', h', -, -, hm⟩ := wallFiring_timers g flips t hwf
    rw [h1, Option.some.injEq] at h'
    subst h'
    exact hm

/-- C13 fails: from a state in play with both timers at 0, two ticks at 90 ms and 180 ms make
two goal-relocation firings, and `elapsed / mazeUpdateInterval` is 3. -/
theorem firing_count_not_quotient :
    countFirings (gameAt 10 (-1))
      [tickAt 90000000 false noKeys, tickAt 180000000 false noKeys] = some (2, 0) ∧
    ((180000000 : Int) - (gameAt 10 (-1)).lastMazeUpdate) / mazeUpdateInterval = 3 := by
  decide

theorem firing_counts_bounded_witness :
    GridWF (gameAt 10 (-1)).maze ∧
    ∃ a b, countFirings (gameAt 10 (-1))
        [tickAt 90000000 false noKeys, tickAt 180000000 false noKeys] = some (a, b) ∧
      a ≤ 2 ∧ b ≤ 2 := by
  obtain ⟨a, b, h, ha, hb, -⟩ := firing_counts_bounded (gameAt 10 (-1))
    [tickAt 90000000 false noKeys, tickAt 180000000 false noKeys] openGrid_wf
    (by decide) (by decide)
  exact ⟨openGrid_wf, a, b, h, ha, hb⟩

/-! ## The path loop always has a move -/

/-- The stamping steps of `generateMaze` leave open every cell that is neither on the rows of
the centre block nor on one of the four diagonal positions of its row. -/
theorem stamped_open_off_patterns (d : GenDraws) (m : Grid) (x y : Int)
    (hrow : y < 5 ∨ 9 < y)
    (hdiag : x ≠ y ∧ x ≠ y + 1 ∧ x ≠ 19 - y ∧ x ≠ 18 - y) :
    getCell (stampDiagonals d (stampCenter d (clearGrid m))) x y = false := by
  have h1 : getCell (stampCenter d (clearGrid m)) x y = false := by
    unfold stampCenter
    apply foldl_inv_mem (fun g => getCell g x y = false) _ _ _ _ (getCell_clearGrid m x y)
    intro a c hc ha
    split
    · rw [getCell_setCell_ne _ _ _ _ _ _ _]
      · exact ha
      · unfold centerCells at hc
        simp only [List.mem_flatMap, List.mem_map, List.mem_range] at hc
        obtain ⟨j, _, i, _, rfl⟩ := hc
        simp only [mazeHeight]
        omega
    · exact ha
  unfold stampDiagonals
  apply foldl_inv (fun g => getCell g x y = false) _ _ _ _ h1
  intro a i ha
  unfold stampDiagonal
  dsimp only
  have e1 : getCell (setCell (setCell a i i true) (i + 1) i true) x y = false := by
    rw [getCell_setCell_ne _ _ _ _ _ _ (by omega), getCell_setCell_ne _ _ _ _ _ _ (by omega)]
    exact ha
  have e2 : ∀ b : Grid, getCell b x y = false →
      getCell (setCell (setCell b (mazeWidth - 1 - i) i true) (mazeWidth - 2 - i) i true) x y
        = false := by
    intro b hb
    rw [getCell_setCell_ne _ _ _ _ _ _ (by unfold mazeWidth; omega),
      getCell_setCell_ne _ _ _ _ _ _ (by unfold mazeWidth; omega)]
    exact hb
  split <;> split
  · exact e2 _ e1
  · exact e2 _ ha
  · exact e1
  · exact ha

/-- Every state the path loop passes through, started on an open cell with a possible move,
is on an open cell with a possible move. -/
theorem carveAfter_has_move (pick : Nat → Nat) (ex ey : Int) :
    ∀ (n k : Nat) (m : Grid) (cx cy : Int) (s : Grid × Int × Int),
      GridWF m → OpenCell m (cx, cy) → possibleMoves m cx cy ≠ [] →
      carveAfter n pick k m cx cy ex ey = some s →
      GridWF s.1 ∧ OpenCell s.1 (s.2.1, s.2.2) ∧ possibleMoves s.1 s.2.1 s.2.2 ≠ [] := by
  intro n
  induction n with
  | zero =>
    intro k m cx cy s hwf hopen hmoves h
    simp only [carveAfter, Option.some.injEq] at h
    subst h
    exact ⟨hwf, hopen, hmoves⟩
  | succ n ih =>
    intro k m cx cy s hwf hopen hmoves h
    rw [carveAfter] at h
    split at h
    · cases h
    · dsimp only at h
      split at h
      · cases h
      · rename_i hlen
        have hmem := getD_mod_mem (possibleMoves m cx cy) (pick k) Direction.Up hlen
        generalize (possibleMoves m cx cy).getD (pick k % (possibleMoves m cx cy).length)
          Direction.Up = mv at hmem h
        obtain ⟨hb', -⟩ := mem_possibleMoves hopen.1 hmem
        exact ih _ _ _ _ _ (setCell_wf _ _ _ _ hwf)
          ⟨hb', getCell_setCell_same _ _ _ _ hwf hb'⟩
          (possibleMoves_setCell_false _ _ _ _ hwf hb'
            (possibleMoves_after_step mv hopen.1 hopen.2 hb')) h

/-- The result of the path loop is one of the states it passes through, and the loop stops
there. -/
theorem carvePath_is_carveAfter (pick : Nat → Nat) (ex ey : Int) :
    ∀ (fuel k : Nat) (m : Grid) (cx cy : Int) (r : Grid × Int × Int),
      carvePath fuel pick k m cx cy ex ey = some r →
      ∃ n, n < fuel ∧ carveAfter n pick k m cx cy ex ey = some r ∧
        ((r.2.1 = ex ∧ r.2.2 = ey) ∨ (possibleMoves r.1 r.2.1 r.2.2).length = 0) := by
  intro fuel
  induction fuel with
  | zero => intro k m cx cy r h; simp [carvePath] at h
  | succ fuel ih =>
    intro k m cx cy r h
    rw [carvePath] at h
    split at h
    · rename_i hend
      simp only [Option.some.injEq] at h
      subst h
      exact ⟨0, Nat.succ_pos _, rfl, Or.inl hend⟩
    · rename_i hend
      dsimp only at h
      split at h
      · rename_i hlen
        simp only [Option.some.injEq] at h
        subst h
        exact ⟨0, Nat.succ_pos _, rfl, Or.inr hlen⟩
      · rename_i hlen
        obtain ⟨n, hn, hs, hstop⟩ := ih _ _ _ _ _ h
        refine ⟨n + 1, Nat.succ_lt_succ hn, ?_, hstop⟩
        rw [carveAfter, if_neg hend]
        dsimp only
        rw [if_neg hlen]
        exact hs

/-- C21: in `generateMaze(maze, 10, 0, 10, 14)` the three neighbours of `(10, 0)` are never
stamped, and at every state the path loop passes through, for every outcome of the stamping
draws and every sequence of move choices, the list of possible moves is not empty; so the
break on an empty list is never taken and the loop can end only on the end cell `(10, 14)`. -/
theorem possibleMoves_never_empty (d : GenDraws) (maze : Grid) (hwf : GridWF maze) :
    (getCell (stampDiagonals d (stampCenter d (clearGrid maze))) 9 0 = false ∧
      getCell (stampDiagonals d (stampCenter d (clearGrid maze))) 11 0 = false ∧
      getCell (stampDiagonals d (stampCenter d (clearGrid maze))) 10 1 = false) ∧
    (∀ (n : Nat) (s : Grid × Int × Int),
      carveAfter n d.pick 0
        (setCell (stampDiagonals d (stampCenter d (clearGrid maze))) 10 0 false)
        10 0 10 14 = some s →
      possibleMoves s.1 s.2.1 s.2.2 ≠ []) ∧
    (∀ (fuel : Nat) (r : Grid × Int × Int),
      generatePath fuel d maze 10 0 10 14 = some r →
      r.2 = (10, 14) ∧ possibleMoves r.1 r.2.1 r.2.2 ≠ []) := by
  have hwf0 := stampDiagonals_wf d _ (stampCenter_wf d _ (clearGrid_wf _ hwf))
  have hb0 : inBounds 10 0 := by unfold inBounds mazeWidth mazeHeight; omega
  have hbelow := stamped_open_off_patterns d maze 10 1 (by omega) (by omega)
  have hopen0 : OpenCell (setCell (stampDiagonals d (stampCenter d (clearGrid maze))) 10 0 false)
      (10, 0) := ⟨hb0, getCell_setCell_same _ _ _ _ hwf0 hb0⟩
  have hmoves0 : possibleMoves
      (setCell (stampDiagonals d (stampCenter d (clearGrid maze))) 10 0 false) 10 0 ≠ [] := by
    apply List.ne_nil_of_mem (a := Direction.Down)
    unfold possibleMoves
    simp only [List.mem_append]
    refine Or.inl (Or.inr ?_)
    have hfree : getCell (setCell (stampDiagonals d (stampCenter d (clearGrid maze))) 10 0 false)
        10 (0 + 1) = false := by
      rw [getCell_setCell_ne _ _ _ _ _ _ (by omega)]
      exact hbelow
    rw [if_pos ⟨by unfold mazeHeight; omega, hfree⟩]
    exact List.mem_singleton.2 rfl
  have hstates : ∀ (n : Nat) (s : Grid × Int × Int),
      carveAfter n d.pick 0
        (setCell (stampDiagonals d (stampCenter d (clearGrid maze))) 10 0 false)
        10 0 10 14 = some s →
      possibleMoves s.1 s.2.1 s.2.2 ≠ [] := fun n s h =>
    (carveAfter_has_move d.pick 10 14 n 0 _ 10 0 s (setCell_wf _ _ _ _ hwf0) hopen0 hmoves0 h).2.2
  refine ⟨⟨stamped_open_off_patterns d maze 9 0 (by omega) (by omega),
    stamped_open_off_patterns d maze 11 0 (by omega) (by omega), hbelow⟩, hstates, ?_⟩
  intro fuel r h
  unfold generatePath at h
  dsimp only at h
  obtain ⟨n, -, hs, hstop⟩ := carvePath_is_carveAfter d.pick 10 14 fuel 0 _ 10 0 r h
  have hne := hstates n r hs
  refine ⟨?_, hne⟩
  rcases hstop with hend | hlen
  · exact Prod.ext hend.1 hend.2
  · exact absurd (List.length_eq_zero.1 hlen) hne

set_option maxRecDepth 1000000 in
set_option maxHeartbeats 4000000 in
theorem carveAfter_gentle :
    carveAfter 3 gentleDraws.pick 0
      (setCell (stampDiagonals gentleDraws (stampCenter gentleDraws (clearGrid openGrid)))
        10 0 false) 10 0 10 14 = some (openGrid, 10, 3) := by decide

theorem possibleMoves_never_empty_witness :
    GridWF openGrid ∧
    carveAfter 3 gentleDraws.pick 0
      (setCell (stampDiagonals gentleDraws (stampCenter gentleDraws (clearGrid openGrid)))
        10 0 false) 10 0 10 14 = some (openGrid, 10, 3) ∧
    possibleMoves openGrid 10 3 ≠ [] :=
  ⟨openGrid_wf, carveAfter_gentle,
    (possibleMoves_never_empty gentleDraws openGrid openGrid_wf).2.1 3 (openGrid, 10, 3)
      carveAfter_gentle⟩

end DeliveryDash
